import Mathlib

/-!
Verification of the OpenWrite rule-based grammar checker
(`openwrite/grammar_checker.py`).

Text is modelled as `List Char` with character offsets as `Nat`.
Regular-expression scans from the source are modelled by explicit
left-to-right scanners with the same matching semantics.  Python
operations that can raise (`stripped[0]`, `core[-1]`, `tokens[i]`)
are modelled through `Option`, with `none` standing for a raised
exception; `check` therefore returns `Option (List GrammarIssue)`.

Character predicates (`str.isalpha`, `str.isupper`, `\w`, `\s`,
`str.strip`) are modelled on the ASCII range, which is the range the
checker's closed word lists and all of its fixed rule text live in.
-/

/-- The terminal punctuation characters `.`, `!`, `?` used by the
sentence segmenter (`_sentence_spans`) and the punctuation rule. -/
def isTerm (c : Char) : Bool :=
  c == '.' || c == '!' || c == '?'

/-- Whitespace, as recognised by Python's `str.strip` / regex `\s`
(ASCII range). -/
def pyIsSpace (c : Char) : Bool :=
  c == ' ' || c == '\t' || c == '\n' || c == '\x0b' || c == '\x0c' || c == '\r'

/-- A word character for the regex `\w` / `\b` (ASCII range):
letters, digits, underscore. -/
def isWordChar (c : Char) : Bool :=
  c.isAlphanum || c == '_'

/-- A character of the token character class `[A-Za-z']` used by the
tokenizer (`\b[A-Za-z']+\b`) and the repeated-word pattern. -/
def isTokChar (c : Char) : Bool :=
  c.isAlpha || c == '\''

/-- `str.lower` on a single character (ASCII range). -/
def lowerChar (c : Char) : Char := c.toLower

/-- `str.lower` on a word. -/
def lowerList (w : List Char) : List Char := w.map lowerChar

/-- The slice `s[a:b]` of a text (for `0 ≤ a ≤ b ≤ len s`). -/
def sliceOf (s : List Char) (a b : Nat) : List Char :=
  (s.drop a).take (b - a)

/-- A single grammar issue, mirroring the `GrammarIssue` dataclass. -/
structure GrammarIssue where
  rule : String
  message : String
  start : Nat
  «end» : Nat
  context : List Char
deriving DecidableEq, Repr

/-- `GrammarChecker._issue_context`: a ±30 character window around the
span, newlines flattened to spaces. -/
def issueContext (source : List Char) (start fin : Nat) : List Char :=
  let contextStart := start - 30
  let contextEnd := min source.length (fin + 30)
  (sliceOf source contextStart contextEnd).map (fun c => if c == '\n' then ' ' else c)

/-!  ## Maximal runs

`runsAux p` scans a text left to right and returns the spans of the
maximal runs of characters satisfying `p`.  This is the common core of
the regex scans `" {2,}"` (double spaces), `[^.!?]+` (sentence
segmentation) and `\b\w+\b` (word counting). -/

def runsAux (p : Char → Bool) : List Char → Nat → Option Nat → List (Nat × Nat)
  | [], pos, st =>
    match st with
    | some a => [(a, pos)]
    | none => []
  | c :: rest, pos, st =>
    if p c then
      runsAux p rest (pos + 1) (some (st.getD pos))
    else
      match st with
      | some a => (a, pos) :: runsAux p rest (pos + 1) none
      | none => runsAux p rest (pos + 1) none

/-- The maximal runs of characters satisfying `p` in `s`, as
half-open spans. -/
def runsOf (p : Char → Bool) (s : List Char) : List (Nat × Nat) :=
  runsAux p s 0 none

/-!  ## The closed lexical sets of `GrammarChecker` -/

def presentAuxiliaries : List (List Char) :=
  ["am".data, "is".data, "are".data, "has".data, "have".data, "does".data, "do".data]

def pastAuxiliaries : List (List Char) :=
  ["was".data, "were".data, "had".data, "did".data]

def presentBaseVerbs : List (List Char) :=
  ["walk".data, "talk".data, "run".data, "go".data, "come".data, "make".data,
   "take".data, "write".data, "speak".data, "think".data, "know".data, "feel".data,
   "see".data, "eat".data, "give".data, "use".data, "find".data, "tell".data,
   "look".data, "work".data, "live".data, "love".data, "like".data, "need".data,
   "want".data, "call".data, "ask".data, "play".data, "move".data, "create".data,
   "study".data, "build".data, "learn".data]

def presentSVerbs : List (List Char) :=
  ["walks".data, "talks".data, "runs".data, "goes".data, "comes".data, "makes".data,
   "takes".data, "writes".data, "speaks".data, "thinks".data, "knows".data, "feels".data,
   "sees".data, "eats".data, "gives".data, "uses".data, "finds".data, "tells".data,
   "looks".data, "works".data, "lives".data, "loves".data, "likes".data, "needs".data,
   "wants".data, "calls".data, "asks".data, "plays".data, "moves".data, "creates".data,
   "studies".data, "builds".data, "learns".data]

def irregularPastVerbs : List (List Char) :=
  ["went".data, "saw".data, "ate".data, "ran".data, "spoke".data, "wrote".data,
   "took".data, "made".data, "bought".data, "brought".data, "felt".data, "thought".data,
   "knew".data, "kept".data, "left".data, "lost".data, "paid".data, "said".data,
   "told".data, "found".data, "gave".data, "came".data]

def edAdjectiveExceptions : List (List Char) :=
  ["tired".data, "excited".data, "interested".data, "pleased".data, "prepared".data,
   "advanced".data, "experienced".data, "related".data, "married".data, "beloved".data,
   "belated".data, "concerned".data, "opposed".data, "supposed".data, "mixed".data,
   "fixed".data, "learned".data, "used".data, "detailed".data, "gifted".data,
   "honored".data, "increased".data, "creed".data]

def pronouns : List (List Char) :=
  ["i".data, "you".data, "he".data, "she".data, "it".data, "we".data, "they".data]

def possessiveDeterminers : List (List Char) :=
  ["my".data, "your".data, "his".data, "her".data, "its".data, "our".data, "their".data]

def connectors : List (List Char) :=
  ["and".data, "or".data, "but".data, "so".data, "yet".data, "nor".data,
   "also".data, "still".data, "then".data]

def modals : List (List Char) :=
  ["can".data, "could".data, "may".data, "might".data, "must".data, "shall".data,
   "should".data, "will".data, "would".data]

def subordinateMarkers : List (List Char) :=
  ["that".data, "which".data, "who".data, "whom".data, "whose".data, "where".data,
   "wherever".data, "when".data, "whenever".data, "while".data, "because".data,
   "since".data, "although".data, "though".data, "whereas".data, "if".data,
   "before".data, "after".data, "once".data, "until".data, "unless".data,
   "as".data, "than".data, "whether".data]

def auxiliaryMarkers : List (List Char) :=
  ["am".data, "is".data, "are".data, "was".data, "were".data, "be".data,
   "been".data, "being".data, "has".data, "have".data, "had".data]

/-- Articles `the`, `a`, `an`, skipped by `_previous_content_word`. -/
def bareArticles : List (List Char) :=
  ["the".data, "a".data, "an".data]

/-- The article/demonstrative set of `_is_present_marker`. -/
def articleDemonstratives : List (List Char) :=
  ["the".data, "a".data, "an".data, "this".data, "that".data, "these".data, "those".data]

/-!  ## Document-level scan: double spaces -/

/-- `GrammarChecker._find_double_spaces`: every match of the regex
`" {2,}"`, i.e. every maximal run of ASCII spaces of length at least
two, is one issue spanning the run. -/
def findDoubleSpaces (text : List Char) : List GrammarIssue :=
  ((runsOf (fun c => c == ' ') text).filter (fun r => 2 ≤ r.2 - r.1)).map
    (fun r =>
      { rule := "double-space"
        message := "Multiple consecutive spaces detected."
        start := r.1
        «end» := r.2
        context := issueContext text r.1 r.2 })

/-!  ## Sentence segmentation -/

/-- Trimming step of `_sentence_spans`: given the raw span `[a, b)` of
one regex match of `[^.!?]+(?:[.!?]|$)`, strip leading and trailing
whitespace; drop the span if it strips to nothing (or collapses). -/
def trimSpan (text : List Char) (a b : Nat) : Option (Nat × Nat) :=
  let raw := sliceOf text a b
  if raw.all pyIsSpace then none
  else
    let leadingWs := (raw.takeWhile pyIsSpace).length
    let trailingWs := (raw.reverse.takeWhile pyIsSpace).length
    let start := a + leadingWs
    let fin := b - trailingWs
    if start < fin then some (start, fin) else none

/-- `GrammarChecker._sentence_spans`: the matches of
`[^.!?]+(?:[.!?]|$)` are the maximal runs of non-terminator
characters, each extended by its terminating punctuation mark when
one follows; every match is then whitespace-trimmed and empty spans
are dropped. -/
def sentenceSpans (text : List Char) : List (Nat × Nat) :=
  (runsOf (fun c => !isTerm c) text).filterMap
    (fun r => trimSpan text r.1 (if r.2 < text.length then r.2 + 1 else r.2))

/-!  ## Word counting (`_check_sentence_length`) -/

/-- The number of matches of `\b\w+\b`, i.e. of maximal word-character
runs, in a sentence. -/
def wordCount (sentence : List Char) : Nat :=
  (runsOf isWordChar sentence).length

/-!  ## Tokenization (`\b[A-Za-z']+\b`)

A token match at position `i` needs a word boundary at `i`, then takes
the maximal run of `[A-Za-z']` characters and gives back characters
until a word boundary holds at its right end; if no right boundary
exists the position yields no match. -/

/-- Whether the character at position `k` is a word character
(out-of-range positions count as non-word, as for regex `\b`). -/
def wordAt (s : List Char) (k : Nat) : Bool :=
  match s.get? k with
  | some c => isWordChar c
  | none => false

/-- Word boundary (regex `\b`) before position `k`. -/
def boundaryAt (s : List Char) (k : Nat) : Bool :=
  (if k = 0 then false else wordAt s (k - 1)) != wordAt s k

/-- Length of the maximal `[A-Za-z']` run starting at position `i`. -/
def tokRunLen (s : List Char) (i : Nat) : Nat :=
  ((s.drop i).takeWhile isTokChar).length

/-- Backtracking of the greedy `[A-Za-z']+`: the largest
`j ∈ (i, i + k]` with a word boundary at `j`.  Called with
`k = tokRunLen s i`. -/
def tokEndDown (s : List Char) (i : Nat) : Nat → Option Nat
  | 0 => none
  | k + 1 => if boundaryAt s (i + k + 1) then some (i + k + 1) else tokEndDown s i k

/-- A token of the verb-tense rule: its span in the sentence and its
matched text (`match.start()`, `match.end()`, `match.group(0)`). -/
structure Tok where
  start : Nat
  «end» : Nat
  text : List Char
deriving DecidableEq, Repr

/-- One step of `re.finditer(r"\b[A-Za-z']+\b", s)` at position `i`:
the token match starting exactly at `i`, if any. -/
def tokMatchAt (s : List Char) (i : Nat) : Option Tok :=
  match s.get? i with
  | none => none
  | some c =>
    if isTokChar c && boundaryAt s i then
      match tokEndDown s i (tokRunLen s i) with
      | some j => some ⟨i, j, sliceOf s i j⟩
      | none => none
    else none

/-- The scan loop of `re.finditer`: try each position left to right,
resuming after the end of each match.  The fuel argument only bounds
the number of scan steps; every match advances the position by at
least one, so `s.length + 1` fuel always suffices. -/
def tokenizeAux (s : List Char) : Nat → Nat → List Tok
  | 0, _ => []
  | fuel + 1, i =>
    if i < s.length then
      match tokMatchAt s i with
      | some t => t :: tokenizeAux s fuel t.«end»
      | none => tokenizeAux s fuel (i + 1)
    else []

/-- `list(re.finditer(r"\b[A-Za-z']+\b", sentence))`. -/
def tokenize (s : List Char) : List Tok :=
  tokenizeAux s (s.length + 1) 0

/-!  ## The repeated-word pattern

`_repeated_word_pattern = \b([A-Za-z']+)\b(\s+\1\b)+` with
`re.IGNORECASE`.  A match at position `i` fixes group 1: the greedy
`([A-Za-z']+)\b` must end where `\s+` can start, i.e. exactly at the
end of the maximal `[A-Za-z']` run from `i` (any shorter candidate is
followed by another `[A-Za-z']` character, never by whitespace).  Each
repetition then takes the maximal whitespace run (giving whitespace
back can never help: group 1 starts with a non-whitespace character),
a case-insensitive copy of group 1 and a word boundary; repetitions
are consumed greedily and at least one is required. -/

/-- Length of the maximal whitespace run starting at `p`. -/
def wsRunLen (s : List Char) (p : Nat) : Nat :=
  ((s.drop p).takeWhile pyIsSpace).length

/-- Case-insensitive match of the word `w` at position `q` of `s`
(the `IGNORECASE` backreference `\1`). -/
def ciMatchAt (s w : List Char) (q : Nat) : Bool :=
  lowerList (sliceOf s q (q + w.length)) == lowerList w
    && s.length ≥ q + w.length

/-- Greedy `(\s+\1\b)+` starting at `p`: the end of the last
successful repetition, or `none` when not even one repetition
matches.  Every repetition advances by at least two characters, so
`s.length + 1` fuel always suffices. -/
def repsFrom (s w : List Char) : Nat → Nat → Option Nat
  | 0, _ => none
  | fuel + 1, p =>
    let q := p + wsRunLen s p
    if q = p then none
    else if ciMatchAt s w q && boundaryAt s (q + w.length) then
      match repsFrom s w fuel (q + w.length) with
      | some e => some e
      | none => some (q + w.length)
    else none

/-- One attempt of the repeated-word pattern at position `i`:
`some (matchEnd, group1)` on success. -/
def repMatchAt (s : List Char) (i : Nat) : Option (Nat × List Char) :=
  match s.get? i with
  | none => none
  | some c =>
    if isTokChar c && boundaryAt s i then
      let r := i + tokRunLen s i
      if boundaryAt s r then
        let w := sliceOf s i r
        match repsFrom s w (s.length + 1) r with
        | some e => some (e, w)
        | none => none
      else none
    else none

/-- The `finditer` loop of the repeated-word pattern: all matches,
left to right, as `(start, end, group1)`. -/
def repScanAux (s : List Char) : Nat → Nat → List (Nat × Nat × List Char)
  | 0, _ => []
  | fuel + 1, i =>
    if i < s.length then
      match repMatchAt s i with
      | some (e, w) => (i, e, w) :: repScanAux s fuel e
      | none => repScanAux s fuel (i + 1)
    else []

/-- All matches of `_repeated_word_pattern` in a sentence. -/
def repScan (s : List Char) : List (Nat × Nat × List Char) :=
  repScanAux s (s.length + 1) 0

/-- `GrammarChecker._check_repeated_words`: one issue per match, the
message naming group 1 as matched. -/
def checkRepeatedWords (sentence : List Char) (offset : Nat) : List GrammarIssue :=
  (repScan sentence).map
    (fun m =>
      { rule := "repeated-word"
        message := "Repeated word '" ++ String.mk m.2.2 ++ "'."
        start := offset + m.1
        «end» := offset + m.2.1
        context := issueContext sentence m.1 m.2.1 })

/-!  ## The sentence-level rules -/

/-- `GrammarChecker._check_sentence_capitalization`.  The Python
indexing `stripped[0]` is modelled by `head?`; `none` models an
exception. -/
def checkSentenceCapitalization (sentence : List Char) (offset : Nat) :
    Option (List GrammarIssue) :=
  let stripped := sentence.dropWhile pyIsSpace
  if stripped.isEmpty then some []
  else
    match stripped.head? with
    | none => none
    | some firstChar =>
      let leadingWs := sentence.length - stripped.length
      if firstChar.isAlpha && !firstChar.isUpper then
        some [{ rule := "capitalization"
                message := "Sentence should start with a capital letter."
                start := offset + leadingWs
                «end» := offset + leadingWs + 1
                context := issueContext sentence leadingWs (leadingWs + 1) }]
      else some []

/-- The closing quote/parenthesis characters stripped by the
punctuation rule (`rstrip("\"'”’)")`). -/
def closingChars : List Char := ['"', '\'', '”', '’', ')']

/-- `GrammarChecker._check_sentence_punctuation`.  The Python indexing
`core[-1]` is modelled by `getLast?`. -/
def checkSentencePunctuation (sentence : List Char) (offset : Nat) :
    Option (List GrammarIssue) :=
  let stripped := (sentence.reverse.dropWhile pyIsSpace).reverse
  if stripped.isEmpty then some []
  else
    let trailingWs := sentence.length - stripped.length
    let core := (stripped.reverse.dropWhile (fun c => c ∈ closingChars)).reverse
    if core.isEmpty then some []
    else
      match core.getLast? with
      | none => none
      | some lastChar =>
        if !isTerm lastChar then
          some [{ rule := "punctuation"
                  message := "Sentence should end with terminal punctuation."
                  start := offset + sentence.length - trailingWs - 1
                  «end» := offset + sentence.length - trailingWs
                  context := issueContext sentence 0 (sentence.length - trailingWs) }]
        else some []

/-- `GrammarChecker._check_sentence_length`: more than 40 word tokens
is one issue spanning the entire sentence slice. -/
def checkSentenceLength (sentence : List Char) (offset : Nat) : List GrammarIssue :=
  if 40 < wordCount sentence then
    [{ rule := "long-sentence"
       message := "Sentence is long and may be a run-on."
       start := offset
       «end» := offset + sentence.length
       context := issueContext sentence 0 sentence.length }]
  else []

/-!  ## The verb-tense heuristic -/

/-- Membership of a possibly-absent previous word in a closed set
(Python `prev in set`; `None` is never a member). -/
def optMem (p : Option (List Char)) (set : List (List Char)) : Bool :=
  match p with
  | some w => w ∈ set
  | none => false

/-- The loop of `GrammarChecker._previous_content_word`: walk `j`
downwards from `index - 1` (the `Nat` argument is `j + 1`), skipping
connectors and bare articles, and return the `steps`-th remaining
lowercased word.  `some none` is Python's `None`; `none` models an
out-of-range `tokens[j]`. -/
def prevContentAux (tokens : List Tok) (steps : Nat) :
    Nat → Nat → Option (Option (List Char))
  | _, 0 => some none
  | taken, j + 1 =>
    match tokens.get? j with
    | none => none
    | some t =>
      let candidate := lowerList t.text
      if candidate ∈ connectors ++ bareArticles then
        prevContentAux tokens steps taken j
      else if taken + 1 = steps then some (some candidate)
      else prevContentAux tokens steps (taken + 1) j

/-- `GrammarChecker._previous_content_word`. -/
def previousContentWord (tokens : List Tok) (index : Nat) (steps : Nat := 1) :
    Option (Option (List Char)) :=
  prevContentAux tokens steps 0 index

/-- The loop of `GrammarChecker._is_part_of_perfect_or_passive`:
inspect the up-to-five tokens before `index` (the second `Nat`
argument is `j + 1`); an auxiliary marker or `to` among them makes
the `-ed` word a participle. -/
def perfectAux (tokens : List Tok) : Nat → Nat → Option Bool
  | 0, _ => some false
  | _ + 1, 0 => some false
  | count + 1, j + 1 =>
    match tokens.get? j with
    | none => none
    | some t =>
      let candidate := lowerList t.text
      if candidate ∈ connectors || candidate ∈ bareArticles then
        perfectAux tokens count j
      else if candidate ∈ auxiliaryMarkers || candidate = "to".data then
        some true
      else perfectAux tokens count j

/-- `GrammarChecker._is_part_of_perfect_or_passive`. -/
def isPartOfPerfectOrPassive (tokens : List Tok) (index : Nat) : Option Bool :=
  perfectAux tokens 5 index

/-- The final two truthiness checks of the base-verb branch of
`_is_present_marker` (`prev` here is the possibly-reassigned previous
content word). -/
def presentBaseTail (prev : Option (List Char)) : Bool :=
  match prev with
  | some (c :: cs) =>
    if c.isUpper then true
    else if (c :: cs) ∉ connectors && (c :: cs) ∉ pronouns then true
    else false
  | some [] => false
  | none => false

/-- `GrammarChecker._is_present_marker` (the argument `w` is the
lowercased token text, as at the call site). -/
def isPresentMarker (w : List Char) (tokens : List Tok) (index : Nat) : Option Bool :=
  if w ∈ presentAuxiliaries then
    match previousContentWord tokens index with
    | none => none
    | some prev =>
      if (w = "has".data || w = "have".data) && prev = some "there".data then some false
      else some true
  else if w ∈ presentSVerbs then
    match previousContentWord tokens index with
    | none => none
    | some prev =>
      if optMem prev possessiveDeterminers then some false
      else some (prev ≠ some "to".data)
  else if w ∈ presentBaseVerbs then
    match previousContentWord tokens index with
    | none => none
    | some prev =>
      if optMem prev pronouns then some true
      else if prev = some "to".data || prev = some "does".data || prev = some "do".data then
        some false
      else if optMem prev modals || optMem prev auxiliaryMarkers then some false
      else if optMem prev articleDemonstratives then
        match previousContentWord tokens index 2 with
        | none => none
        | some prev2 =>
          if optMem prev2 possessiveDeterminers then some false
          else some (presentBaseTail prev2)
      else some (presentBaseTail prev)
  else some false

/-- Whether a word ends in `"ed"`. -/
def endsInEd (w : List Char) : Bool :=
  match w.reverse with
  | 'd' :: 'e' :: _ => true
  | _ => false

/-- `GrammarChecker._is_past_marker` (the argument `w` is the
lowercased token text, as at the call site). -/
def isPastMarker (w : List Char) (tokens : List Tok) (index : Nat) : Option Bool :=
  if w ∈ pastAuxiliaries then some true
  else if w ∈ irregularPastVerbs then
    match previousContentWord tokens index with
    | none => none
    | some prev =>
      if w = "found".data && prev = some "newly".data then some false
      else if optMem prev subordinateMarkers then some false
      else some true
  else if endsInEd w && 3 < w.length && w ∉ edAdjectiveExceptions then
    match isPartOfPerfectOrPassive tokens index with
    | none => none
    | some true => some false
    | some false =>
      match previousContentWord tokens index with
      | none => none
      | some prev =>
        if optMem prev subordinateMarkers then some false
        else some true
  else some false

/-- The classification loop of `_check_verb_tense`: split the indexed
tokens into present markers and past markers, in token order; a token
is tried as a present marker first (`elif`). -/
def classifyAux (tokens : List Tok) :
    List Tok → Nat → Option (List (Nat × Tok) × List (Nat × Tok))
  | [], _ => some ([], [])
  | t :: rest, index =>
    match isPresentMarker (lowerList t.text) tokens index with
    | none => none
    | some true =>
      match classifyAux tokens rest (index + 1) with
      | none => none
      | some (pres, pasts) => some ((index, t) :: pres, pasts)
    | some false =>
      match isPastMarker (lowerList t.text) tokens index with
      | none => none
      | some true =>
        match classifyAux tokens rest (index + 1) with
        | none => none
        | some (pres, pasts) => some (pres, (index, t) :: pasts)
      | some false =>
        classifyAux tokens rest (index + 1)

/-- The loop of `GrammarChecker._markers_in_same_clause`: scan the
tokens strictly between the two marker indices (first `Nat` argument:
current index; second: remaining count) for a subordinate marker. -/
def sameClauseAux (tokens : List Tok) : Nat → Nat → Option Bool
  | _, 0 => some true
  | i, count + 1 =>
    match tokens.get? i with
    | none => none
    | some t =>
      if lowerList t.text ∈ subordinateMarkers then some false
      else sameClauseAux tokens (i + 1) count

/-- `GrammarChecker._markers_in_same_clause`. -/
def markersInSameClause (tokens : List Tok) (firstIndex secondIndex : Nat) :
    Option Bool :=
  let low := min firstIndex secondIndex
  let high := max firstIndex secondIndex
  sameClauseAux tokens (low + 1) (high - (low + 1))

/-- The inner loop of `_check_verb_tense`: scan the present markers in
order for the first one in the same clause as the given past marker. -/
def tenseInner (tokens : List Tok) (pastMarker : Nat × Tok) :
    List (Nat × Tok) → Option (Option ((Nat × Tok) × (Nat × Tok)))
  | [] => some none
  | presentMarker :: rest =>
    match markersInSameClause tokens pastMarker.1 presentMarker.1 with
    | none => none
    | some true => some (some (pastMarker, presentMarker))
    | some false => tenseInner tokens pastMarker rest

/-- The outer loop of `_check_verb_tense`: past markers outer, present
markers inner, returning the first qualifying pair. -/
def tenseOuter (tokens : List Tok) (presents : List (Nat × Tok)) :
    List (Nat × Tok) → Option (Option ((Nat × Tok) × (Nat × Tok)))
  | [] => some none
  | pastMarker :: rest =>
    match tenseInner tokens pastMarker presents with
    | none => none
    | some (some pair) => some (some pair)
    | some none => tenseOuter tokens presents rest

/-- `GrammarChecker._check_verb_tense`. -/
def checkVerbTense (sentence : List Char) (offset : Nat) :
    Option (List GrammarIssue) :=
  let tokens := tokenize sentence
  if tokens.length < 2 then some []
  else
    match classifyAux tokens tokens 0 with
    | none => none
    | some (presents, pasts) =>
      if !presents.isEmpty && !pasts.isEmpty then
        match tenseOuter tokens presents pasts with
        | none => none
        | some none => some []
        | some (some (pastMarker, presentMarker)) =>
          let issueStart := min pastMarker.2.start presentMarker.2.start
          let issueEnd := max pastMarker.2.«end» presentMarker.2.«end»
          some [{ rule := "verb-tense"
                  message := "Sentence mixes past and present tense verbs."
                  start := offset + issueStart
                  «end» := offset + issueEnd
                  context := issueContext sentence issueStart issueEnd }]
      else some []

/-!  ## `GrammarChecker.check` -/

/-- The per-sentence loop of `check`: for each sentence span, skip
whitespace-only slices, then run the five sentence rules in their
fixed order. -/
def sentenceIssues (text : List Char) : List (Nat × Nat) → Option (List GrammarIssue)
  | [] => some []
  | (s, e) :: rest =>
    let sentence := sliceOf text s e
    let this :=
      if sentence.all pyIsSpace then some []
      else
        match checkSentenceCapitalization sentence s with
        | none => none
        | some capIssues =>
          match checkSentencePunctuation sentence s with
          | none => none
          | some punctIssues =>
            match checkVerbTense sentence s with
            | none => none
            | some tenseIssues =>
              some (capIssues ++ punctIssues ++ checkRepeatedWords sentence s ++
                    checkSentenceLength sentence s ++ tenseIssues)
    match this with
    | none => none
    | some issues =>
      match sentenceIssues text rest with
      | none => none
      | some restIssues => some (issues ++ restIssues)

/-- All issues of `check` in insertion order: the document-level
double-space issues first, then the per-sentence issues in sentence
order, each sentence's issues in rule-invocation order. -/
def preSortIssues (text : List Char) : Option (List GrammarIssue) :=
  match sentenceIssues text (sentenceSpans text) with
  | none => none
  | some perSentence => some (findDoubleSpaces text ++ perSentence)

/-- Stable insertion by `start` (the element is placed before the
first existing element whose `start` is not smaller). -/
def insertByStart (x : GrammarIssue) : List GrammarIssue → List GrammarIssue
  | [] => [x]
  | y :: ys => if y.start < x.start then y :: insertByStart x ys else x :: y :: ys

/-- Stable sort by `start`, modelling Python's stable
`sorted(issues, key=lambda issue: issue.start)`. -/
def sortByStart : List GrammarIssue → List GrammarIssue
  | [] => []
  | x :: xs => insertByStart x (sortByStart xs)

/-- `GrammarChecker.check`: collect all issues and stable-sort them by
start offset.  `none` models a raised exception. -/
def check (text : List Char) : Option (List GrammarIssue) :=
  match preSortIssues text with
  | none => none
  | some issues => some (sortByStart issues)

/-!  ## Claim-side definitions

The following definitions restate, in the words of the specification,
properties that the theorems below compare against the code-side
definitions above. -/

/-- C1 claim side: no token strictly between the two marker indices is
a subordinate clause marker. -/
def specNoSubBetween (tokens : List Tok) (i j : Nat) : Bool :=
  tokens.enum.all
    (fun p =>
      if min i j < p.1 ∧ p.1 < max i j then
        if lowerList p.2.text ∈ subordinateMarkers then false else true
      else true)

/-- C1 claim side: all (past, present) marker pairs in scan order:
past markers outer, present markers inner, each in token order. -/
def specPairs (pasts presents : List (Nat × Tok)) :
    List ((Nat × Tok) × (Nat × Tok)) :=
  pasts.flatMap (fun p => presents.map (fun q => (p, q)))

/-- C1 claim side: the first qualifying pair in scan order. -/
def specFirstPair (tokens : List Tok) (pasts presents : List (Nat × Tok)) :
    Option ((Nat × Tok) × (Nat × Tok)) :=
  (specPairs pasts presents).find? (fun pq => specNoSubBetween tokens pq.1.1 pq.2.1)

/-- C1 claim side: the verb-tense rule as the claim describes it —
the same tokenization and marker classification, but the reported
pair obtained as the first pair of the explicit scan-order
enumeration, the issue spanning from the minimum start to the maximum
end of the two tokens, with the fixed message. -/
def specVerbTense (sentence : List Char) (offset : Nat) :
    Option (List GrammarIssue) :=
  let tokens := tokenize sentence
  if tokens.length < 2 then some []
  else
    match classifyAux tokens tokens 0 with
    | none => none
    | some (presents, pasts) =>
      if !presents.isEmpty && !pasts.isEmpty then
        match specFirstPair tokens pasts presents with
        | some (pastMarker, presentMarker) =>
          let issueStart := min pastMarker.2.start presentMarker.2.start
          let issueEnd := max pastMarker.2.«end» presentMarker.2.«end»
          some [{ rule := "verb-tense"
                  message := "Sentence mixes past and present tense verbs."
                  start := offset + issueStart
                  «end» := offset + issueEnd
                  context := issueContext sentence issueStart issueEnd }]
        | none => some []
      else some []

/-- C8 claim side: the words of a sentence as maximal runs of the
token character class. -/
def wordRuns (s : List Char) : List (Nat × Nat) :=
  runsOf isTokChar s

/-- C8 claim side: the text between positions `a` and `b` is
whitespace only. -/
def gapAllWs (s : List Char) (a b : Nat) : Bool :=
  (sliceOf s a b).all pyIsSpace

/-- C8 claim side: words number `k` and `k + 1` are consecutive
occurrences of the same word up to letter case, separated only by
whitespace. -/
def runsLinked (s : List Char) (k : Nat) : Bool :=
  match (wordRuns s).get? k, (wordRuns s).get? (k + 1) with
  | some r1, some r2 =>
    lowerList (sliceOf s r1.1 r1.2) == lowerList (sliceOf s r2.1 r2.2)
      && gapAllWs s r1.2 r2.1
  | _, _ => false

/-- C8 claim side: words number `c` through `d` form a maximal
case-insensitive run of two or more consecutive occurrences of the
same word separated only by whitespace. -/
def IsRepeatRun (s : List Char) (c d : Nat) : Prop :=
  c < d ∧ d < (wordRuns s).length ∧
  (∀ k, k < d → c ≤ k → runsLinked s k = true) ∧
  (c = 0 ∨ runsLinked s (c - 1) = false) ∧
  runsLinked s d = false

instance (s : List Char) (c d : Nat) : Decidable (IsRepeatRun s c d) := by
  unfold IsRepeatRun; infer_instance

/-- C8: a character whose token-class and word-class membership both
coincide with being a letter — this excludes apostrophes, digits and
underscores, for which regex word boundaries and the `[A-Za-z']`
class disagree about where a word ends. -/
def plainChar (c : Char) : Bool :=
  (isTokChar c == c.isAlpha) && (isWordChar c == c.isAlpha)

/-- C8: a text all of whose characters are letters or plain
separators. -/
def PlainText (s : List Char) : Prop := ∀ c ∈ s, plainChar c = true

instance (s : List Char) : Decidable (PlainText s) := by
  unfold PlainText; infer_instance

/-- C9 claim side: two characters that differ at most in letter
case. -/
def charCaseEq (a b : Char) : Prop :=
  a = b ∨ (a.isAlpha = true ∧ b.isAlpha = true ∧ lowerChar a = lowerChar b)

instance (a b : Char) : Decidable (charCaseEq a b) := by
  unfold charCaseEq; infer_instance

/-- C9 claim side: two texts that differ only in the letter case of
their characters. -/
def caseEquiv (s1 s2 : List Char) : Prop :=
  s1.length = s2.length ∧
  ∀ i, i < s1.length → charCaseEq (s1.getD i ' ') (s2.getD i ' ')

instance (s1 s2 : List Char) : Decidable (caseEquiv s1 s2) := by
  unfold caseEquiv; infer_instance

/-- The token at the same span, re-read from another sentence: used to
relate the tokenizations of two case-variant sentences. -/
def reslice (s : List Char) (t : Tok) : Tok :=
  ⟨t.start, t.«end», sliceOf s t.start t.«end»⟩

/-- `reslice` lifted to an indexed marker. -/
def resliceMarker (s : List Char) (pr : Nat × Tok) : Nat × Tok :=
  (pr.1, reslice s pr.2)

/-- The case-insensitive observable part of an issue: everything but
the context window (which quotes the sentence text itself). -/
def issueProj (i : GrammarIssue) : String × String × Nat × Nat :=
  (i.rule, i.message, i.start, i.«end»)

/-!  # Theorems -/

/-- C2: a sentence whose past auxiliary `was` and present auxiliary
`is` are separated by the subordinate marker `because` yields no
verb-tense issue from `check`; the same marker pair with no
subordinate marker between them yields exactly one verb-tense
issue. -/
theorem c2_clause_boundary_suppression :
    (check "It was nice because it is red.".data).isSome = true ∧
    ((check "It was nice because it is red.".data).getD []).countP
      (fun i => i.rule == "verb-tense") = 0 ∧
    (check "It was nice and it is red.".data).isSome = true ∧
    ((check "It was nice and it is red.".data).getD []).countP
      (fun i => i.rule == "verb-tense") = 1 := by
  decide

/-- C4 counterexample: `check "   "` is not the empty list — the
three-space input is itself a match of the double-space pattern. -/
theorem c4_counterexample : ¬ check "   ".data = some [] := by
  decide

/-- C4 amended: `check ""` returns an empty list, while `check "   "`
returns exactly one double-space issue spanning the whole three-space
run. -/
theorem c4_amended :
    check "".data = some [] ∧
    check "   ".data =
      some [{ rule := "double-space"
              message := "Multiple consecutive spaces detected."
              start := 0
              «end» := 3
              context := "   ".data }] := by
  decide

/-- C3 counterexample: for the text `"Hi."` the segmenter produces the
single span `(0, 3)`, whose slice contains its own terminating
punctuation mark `'.'`. -/
theorem c3_counterexample :
    sentenceSpans "Hi.".data = [(0, 3)] ∧ '.' ∈ sliceOf "Hi.".data 0 3 := by
  decide

/-!  ### Lemmas about maximal runs -/

theorem drop_cons_facts {s rest : List Char} {pos : Nat} {c : Char}
    (h : s.drop pos = c :: rest) :
    pos < s.length ∧ s.getD pos ' ' = c ∧ s.drop (pos + 1) = rest := by
  have hlt : pos < s.length := by
    by_contra hge
    rw [List.drop_eq_nil_of_le (Nat.le_of_not_lt hge)] at h
    exact List.noConfusion h
  refine ⟨hlt, ?_, ?_⟩
  · have h0 := List.getElem?_drop s pos 0
    rw [h] at h0
    simp only [List.getElem?_cons_zero, Nat.add_zero] at h0
    simp [List.getD, ← h0]
  · have hd : s.drop (pos + 1) = (s.drop pos).drop 1 := by
      rw [List.drop_drop, Nat.add_comm]
    rw [hd, h, List.drop_one, List.tail_cons]

theorem runsAux_sound (p : Char → Bool) (s : List Char) :
    ∀ (rest : List Char) (pos : Nat) (st : Option Nat),
      pos ≤ s.length →
      s.drop pos = rest →
      (∀ a, st = some a → a < pos ∧
        (∀ i, a ≤ i → i < pos → p (s.getD i ' ') = true) ∧
        (a = 0 ∨ p (s.getD (a - 1) ' ') = false)) →
      (st = none → pos = 0 ∨ p (s.getD (pos - 1) ' ') = false) →
      ∀ r ∈ runsAux p rest pos st,
        r.1 < r.2 ∧ r.2 ≤ s.length ∧
        (∀ i, r.1 ≤ i → i < r.2 → p (s.getD i ' ') = true) ∧
        (r.1 = 0 ∨ p (s.getD (r.1 - 1) ' ') = false) ∧
        (r.2 = s.length ∨ p (s.getD r.2 ' ') = false) := by
  intro rest
  induction rest with
  | nil =>
    intro pos st hpos hdrop hsome _ r hr
    have hlen : s.length ≤ pos := List.drop_eq_nil_iff.mp hdrop
    have hposlen : pos = s.length := Nat.le_antisymm hlen hpos |>.symm
    cases st with
    | none => simp [runsAux] at hr
    | some a =>
      simp only [runsAux, List.mem_singleton] at hr
      subst hr
      obtain ⟨ha1, ha2, ha3⟩ := hsome a rfl
      exact ⟨ha1, hpos, ha2, ha3, Or.inl hposlen⟩
  | cons c rest' ih =>
    intro pos st hpos hdrop hsome hnone r hr
    obtain ⟨hlt, hc, hdrop'⟩ := drop_cons_facts hdrop
    simp only [runsAux] at hr
    by_cases hp : p c = true
    · rw [if_pos hp] at hr
      refine ih (pos + 1) (some (st.getD pos)) hlt hdrop' ?_ (by intro h; cases h) r hr
      intro a ha
      cases st with
      | some a0 =>
        simp only [Option.getD_some] at ha
        obtain ⟨h1, h2, h3⟩ := hsome a0 rfl
        have haa : a0 = a := Option.some.inj ha
        subst haa
        refine ⟨Nat.lt_succ_of_lt h1, ?_, h3⟩
        intro i hi1 hi2
        rcases Nat.lt_succ_iff_lt_or_eq.mp hi2 with h | h
        · exact h2 i hi1 h
        · subst h; rw [hc]; exact hp
      | none =>
        simp only [Option.getD_none] at ha
        have haa : pos = a := Option.some.inj ha
        subst haa
        refine ⟨Nat.lt_succ_self pos, ?_, hnone rfl⟩
        intro i hi1 hi2
        have : i = pos := Nat.le_antisymm (Nat.lt_succ_iff.mp hi2) hi1
        subst this; rw [hc]; exact hp
    · rw [if_neg hp] at hr
      have hpfalse : p c = false := Bool.eq_false_iff.mpr hp
      cases st with
      | some a =>
        rcases List.mem_cons.mp hr with h | h
        · subst h
          obtain ⟨h1, h2, h3⟩ := hsome a rfl
          refine ⟨h1, Nat.le_of_lt hlt, h2, h3, Or.inr ?_⟩
          rw [hc]; exact hpfalse
        · refine ih (pos + 1) none hlt hdrop' (by intro a' ha'; cases ha') ?_ r h
          intro _
          right; simp only [Nat.add_sub_cancel]; rw [hc]; exact hpfalse
      | none =>
        refine ih (pos + 1) none hlt hdrop' (by intro a' ha'; cases ha') ?_ r hr
        intro _
        right; simp only [Nat.add_sub_cancel]; rw [hc]; exact hpfalse

/-- The structural facts about every maximal run: non-empty, inside
the text, all its characters satisfy `p`, and it is maximal on both
sides. -/
theorem runsOf_sound (p : Char → Bool) (s : List Char) :
    ∀ r ∈ runsOf p s,
      r.1 < r.2 ∧ r.2 ≤ s.length ∧
      (∀ i, r.1 ≤ i → i < r.2 → p (s.getD i ' ') = true) ∧
      (r.1 = 0 ∨ p (s.getD (r.1 - 1) ' ') = false) ∧
      (r.2 = s.length ∨ p (s.getD r.2 ' ') = false) :=
  runsAux_sound p s s 0 none (Nat.zero_le _) (by simp)
    (by intro a h; cases h) (fun _ => Or.inl rfl)

theorem runsAux_complete (p : Char → Bool) (s : List Char) :
    ∀ (rest : List Char) (pos : Nat) (st : Option Nat) (i : Nat),
      s.drop pos = rest →
      (∀ a, st = some a → a ≤ pos) →
      i < s.length →
      p (s.getD i ' ') = true →
      (pos ≤ i ∨ ∃ a, st = some a ∧ a ≤ i) →
      ∃ r ∈ runsAux p rest pos st, r.1 ≤ i ∧ i < r.2 := by
  intro rest
  induction rest with
  | nil =>
    intro pos st i hdrop _ hi hpi hcase
    have hlen : s.length ≤ pos := List.drop_eq_nil_iff.mp hdrop
    rcases hcase with h | ⟨a, ha, hai⟩
    · omega
    · subst ha
      exact ⟨(a, pos), by simp [runsAux], hai, Nat.lt_of_lt_of_le hi hlen⟩
  | cons c rest' ih =>
    intro pos st i hdrop hstle hi hpi hcase
    obtain ⟨hlt, hc, hdrop'⟩ := drop_cons_facts hdrop
    simp only [runsAux]
    by_cases hp : p c = true
    · rw [if_pos hp]
      refine ih (pos + 1) (some (st.getD pos)) i hdrop' ?_ hi hpi (Or.inr ?_)
      · intro a ha
        have haa := Option.some.inj ha
        cases st with
        | some a0 =>
          simp only [Option.getD_some] at haa
          exact haa ▸ Nat.le_succ_of_le (hstle a0 rfl)
        | none =>
          simp only [Option.getD_none] at haa
          exact haa ▸ Nat.le_succ pos
      · rcases hcase with hple | ⟨a, ha, hai⟩
        · cases st with
          | some a => exact ⟨a, rfl, Nat.le_trans (hstle a rfl) hple⟩
          | none => exact ⟨pos, rfl, hple⟩
        · subst ha
          exact ⟨a, rfl, hai⟩
    · rw [if_neg hp]
      have hpfalse : p c = false := Bool.eq_false_iff.mpr hp
      have hine : i ≠ pos := by
        intro h; subst h; rw [hc] at hpi; rw [hpi] at hpfalse; cases hpfalse
      cases st with
      | some a =>
        rcases hcase with hple | ⟨a', ha', hai⟩
        · have hnext : pos + 1 ≤ i := by omega
          obtain ⟨r, hr, hr1, hr2⟩ := ih (pos + 1) none i hdrop'
            (by intro a' ha'; cases ha') hi hpi (Or.inl hnext)
          exact ⟨r, List.mem_cons_of_mem _ hr, hr1, hr2⟩
        · have haa : a = a' := Option.some.inj ha'
          subst haa
          by_cases hip : i < pos
          · exact ⟨(a, pos), List.mem_cons_self _ _, hai, hip⟩
          · have hnext : pos + 1 ≤ i := by omega
            obtain ⟨r, hr, hr1, hr2⟩ := ih (pos + 1) none i hdrop'
              (by intro a' ha'; cases ha') hi hpi (Or.inl hnext)
            exact ⟨r, List.mem_cons_of_mem _ hr, hr1, hr2⟩
      | none =>
        rcases hcase with hple | ⟨a', ha', _⟩
        · have hnext : pos + 1 ≤ i := by omega
          exact ih (pos + 1) none i hdrop' (by intro a' ha'; cases ha') hi hpi (Or.inl hnext)
        · cases ha'

/-- Every position holding a `p`-character lies inside some maximal
run. -/
theorem runsOf_complete (p : Char → Bool) (s : List Char) (i : Nat)
    (hi : i < s.length) (hpi : p (s.getD i ' ') = true) :
    ∃ r ∈ runsOf p s, r.1 ≤ i ∧ i < r.2 :=
  runsAux_complete p s s 0 none i (by simp) (by intro a ha; cases ha) hi hpi
    (Or.inl (Nat.zero_le _))

theorem runsAux_lb (p : Char → Bool) :
    ∀ (rest : List Char) (pos : Nat) (st : Option Nat),
      (∀ a, st = some a → a ≤ pos) →
      ∀ r ∈ runsAux p rest pos st,
        (match st with | some a => a | none => pos) ≤ r.1 ∧ pos ≤ r.2 := by
  intro rest
  induction rest with
  | nil =>
    intro pos st hst r hr
    cases st with
    | none => simp [runsAux] at hr
    | some a =>
      simp only [runsAux, List.mem_singleton] at hr
      subst hr
      exact ⟨Nat.le_refl _, Nat.le_refl _⟩
  | cons c rest' ih =>
    intro pos st hst r hr
    simp only [runsAux] at hr
    by_cases hp : p c = true
    · rw [if_pos hp] at hr
      have := ih (pos + 1) (some (st.getD pos)) ?_ r hr
      · cases st with
        | some a =>
          simp only [Option.getD_some] at this
          exact ⟨this.1, Nat.le_trans (Nat.le_succ pos) this.2⟩
        | none =>
          simp only [Option.getD_none] at this
          exact ⟨this.1, Nat.le_trans (Nat.le_succ pos) this.2⟩
      · intro a ha
        have := Option.some.inj ha
        cases st with
        | some a0 =>
          simp only [Option.getD_some] at this
          exact this ▸ Nat.le_succ_of_le (hst a0 rfl)
        | none =>
          simp only [Option.getD_none] at this
          exact this ▸ Nat.le_succ pos
    · rw [if_neg hp] at hr
      cases st with
      | some a =>
        rcases List.mem_cons.mp hr with h | h
        · subst h; exact ⟨Nat.le_refl _, Nat.le_refl _⟩
        · have := ih (pos + 1) none (by intro a' ha'; cases ha') r h
          exact ⟨Nat.le_trans (hst a rfl) (Nat.le_trans (Nat.le_succ pos) this.1),
                 Nat.le_trans (Nat.le_succ pos) this.2⟩
      | none =>
        have := ih (pos + 1) none (by intro a' ha'; cases ha') r hr
        exact ⟨Nat.le_trans (Nat.le_succ pos) this.1, Nat.le_trans (Nat.le_succ pos) this.2⟩

theorem runsAux_pairwise (p : Char → Bool) :
    ∀ (rest : List Char) (pos : Nat) (st : Option Nat),
      (∀ a, st = some a → a ≤ pos) →
      (runsAux p rest pos st).Pairwise (fun r1 r2 => r1.2 < r2.1) := by
  intro rest
  induction rest with
  | nil =>
    intro pos st _
    cases st <;> simp [runsAux]
  | cons c rest' ih =>
    intro pos st hst
    simp only [runsAux]
    by_cases hp : p c = true
    · rw [if_pos hp]
      refine ih (pos + 1) (some (st.getD pos)) ?_
      intro a ha
      have := Option.some.inj ha
      cases st with
      | some a0 =>
        simp only [Option.getD_some] at this
        exact this ▸ Nat.le_succ_of_le (hst a0 rfl)
      | none =>
        simp only [Option.getD_none] at this
        exact this ▸ Nat.le_succ pos
    · rw [if_neg hp]
      cases st with
      | some a =>
        refine List.Pairwise.cons ?_ (ih (pos + 1) none (by intro a' ha'; cases ha'))
        intro r hr
        have := runsAux_lb p rest' (pos + 1) none (by intro a' ha'; cases ha') r hr
        simpa using Nat.lt_of_lt_of_le (Nat.lt_succ_self pos) this.1
      | none =>
        exact ih (pos + 1) none (by intro a' ha'; cases ha')

/-- The maximal runs are listed left to right and are pairwise
disjoint with at least one separating character. -/
theorem runsOf_pairwise (p : Char → Bool) (s : List Char) :
    (runsOf p s).Pairwise (fun r1 r2 => r1.2 < r2.1) :=
  runsAux_pairwise p s 0 none (by intro a ha; cases ha)

/-!  ### Slice and trimming lemmas -/

theorem takeWhile_length_le (q : Char → Bool) :
    ∀ l : List Char, (l.takeWhile q).length ≤ l.length := by
  intro l
  induction l with
  | nil => simp
  | cons c l' ih =>
    simp only [List.takeWhile_cons]
    by_cases h : q c = true
    · rw [if_pos h]; simpa using ih
    · rw [if_neg h]; simp

theorem takeWhile_sat (q : Char → Bool) :
    ∀ (l : List Char) (i : Nat), i < (l.takeWhile q).length →
      q (l.getD i ' ') = true := by
  intro l
  induction l with
  | nil => simp
  | cons c l' ih =>
    intro i hi
    simp only [List.takeWhile_cons] at hi
    by_cases h : q c = true
    · rw [if_pos h] at hi
      cases i with
      | zero => simpa using h
      | succ j =>
        simp only [List.length_cons, Nat.succ_lt_succ_iff] at hi
        simpa using ih j hi
    · rw [if_neg h] at hi
      simp at hi

theorem takeWhile_stop (q : Char → Bool) :
    ∀ l : List Char, (l.takeWhile q).length < l.length →
      q (l.getD (l.takeWhile q).length ' ') = false := by
  intro l
  induction l with
  | nil => simp
  | cons c l' ih =>
    intro hl
    simp only [List.takeWhile_cons] at hl ⊢
    by_cases h : q c = true
    · rw [if_pos h] at hl ⊢
      simp only [List.length_cons, Nat.succ_lt_succ_iff] at hl
      simpa using ih hl
    · rw [if_neg h] at hl ⊢
      simpa using Bool.eq_false_iff.mpr h

theorem sliceOf_length {s : List Char} {a b : Nat} (hab : a ≤ b) (hb : b ≤ s.length) :
    (sliceOf s a b).length = b - a := by
  simp only [sliceOf, List.length_take, List.length_drop]
  omega

theorem sliceOf_getD {s : List Char} {a b i : Nat} (h2 : i < b - a) (hb : b ≤ s.length) :
    (sliceOf s a b).getD i ' ' = s.getD (a + i) ' ' := by
  have hai : a + i < s.length := by omega
  have hlen : (sliceOf s a b).length = b - a := sliceOf_length (by omega) hb
  have hi' : i < (sliceOf s a b).length := by omega
  rw [List.getD_eq_getElem _ _ hi', List.getD_eq_getElem _ _ hai]
  simp only [sliceOf]
  rw [List.getElem_take, List.getElem_drop]

theorem getD_reverse {l : List Char} {i : Nat} (h : i < l.length) :
    l.reverse.getD i ' ' = l.getD (l.length - 1 - i) ' ' := by
  have h1 : i < l.reverse.length := by simpa using h
  have h2 : l.length - 1 - i < l.length := by omega
  rw [List.getD_eq_getElem _ _ h1, List.getD_eq_getElem _ _ h2]
  exact List.getElem_reverse ..

theorem isTerm_not_space {c : Char} (h : isTerm c = true) : pyIsSpace c = false := by
  simp only [isTerm, Bool.or_eq_true, beq_iff_eq] at h
  rcases h with (h | h) | h <;> subst h <;> decide

theorem trimSpan_sound {s : List Char} {a b st fn : Nat}
    (hab : a < b) (hb : b ≤ s.length)
    (h : trimSpan s a b = some (st, fn)) :
    a ≤ st ∧ st < fn ∧ fn ≤ b ∧
    (∀ j, fn ≤ j → j < b → pyIsSpace (s.getD j ' ') = true) ∧
    pyIsSpace (s.getD (fn - 1) ' ') = false := by
  have hrawlen : (sliceOf s a b).length = b - a := sliceOf_length (Nat.le_of_lt hab) hb
  simp only [trimSpan] at h
  by_cases hall : (sliceOf s a b).all pyIsSpace
  · rw [if_pos hall] at h; cases h
  · rw [if_neg hall] at h
    set lead := ((sliceOf s a b).takeWhile pyIsSpace).length with hlead
    set trail := ((sliceOf s a b).reverse.takeWhile pyIsSpace).length with htrail
    by_cases hlt : a + lead < b - trail
    · rw [if_pos hlt] at h
      have hst : st = a + lead := (Prod.mk.inj (Option.some.inj h)).1.symm
      have hfn : fn = b - trail := (Prod.mk.inj (Option.some.inj h)).2.symm
      subst hst hfn
      have htrail_le : trail ≤ (sliceOf s a b).length := by
        have := takeWhile_length_le pyIsSpace (sliceOf s a b).reverse
        simpa using this
      refine ⟨Nat.le_add_right a lead, hlt, Nat.sub_le b trail, ?_, ?_⟩
      · intro j hj1 hj2
        -- j is inside the trailing whitespace of the raw slice
        have hk : j - a < b - a := by omega
        have hrevidx : (sliceOf s a b).length - 1 - (j - a) < trail := by omega
        have hsat := takeWhile_sat pyIsSpace (sliceOf s a b).reverse
          ((sliceOf s a b).length - 1 - (j - a)) (by omega)
        rw [getD_reverse (by omega)] at hsat
        have hidx : (sliceOf s a b).length - 1 -
            ((sliceOf s a b).length - 1 - (j - a)) = j - a := by omega
        rw [hidx] at hsat
        rw [sliceOf_getD hk hb] at hsat
        have : a + (j - a) = j := by omega
        rwa [this] at hsat
      · -- the character just before the trimmed end is not whitespace
        have htrail_lt : trail < (sliceOf s a b).length := by omega
        have hstop := takeWhile_stop pyIsSpace (sliceOf s a b).reverse
          (by simpa using htrail_lt)
        rw [getD_reverse (by omega)] at hstop
        have hidx : (sliceOf s a b).length - 1 - trail = b - trail - 1 - a := by omega
        rw [hidx] at hstop
        rw [sliceOf_getD (by omega) hb] at hstop
        have : a + (b - trail - 1 - a) = b - trail - 1 := by omega
        rwa [this] at hstop
    · rw [if_neg hlt] at h; cases h

/-- The basic facts about every sentence span: non-empty, inside the
text. -/
theorem sentenceSpans_mem {text : List Char} {st fn : Nat}
    (h : (st, fn) ∈ sentenceSpans text) :
    ∃ r ∈ runsOf (fun c => !isTerm c) text,
      trimSpan text r.1 (if r.2 < text.length then r.2 + 1 else r.2) = some (st, fn) := by
  simp only [sentenceSpans, List.mem_filterMap] at h
  obtain ⟨r, hr, hr2⟩ := h
  exact ⟨r, hr, hr2⟩

theorem sentenceSpans_bounds {text : List Char} {st fn : Nat}
    (h : (st, fn) ∈ sentenceSpans text) :
    st < fn ∧ fn ≤ text.length := by
  obtain ⟨r, hr, htrim⟩ := sentenceSpans_mem h
  obtain ⟨h1, h2, _, _, _⟩ := runsOf_sound _ text r hr
  by_cases hcase : r.2 < text.length
  · rw [if_pos hcase] at htrim
    obtain ⟨_, hsf, hfb, _, _⟩ := trimSpan_sound (by omega) (by omega) htrim
    exact ⟨hsf, by omega⟩
  · rw [if_neg hcase] at htrim
    obtain ⟨_, hsf, hfb, _, _⟩ := trimSpan_sound (by omega) (by omega) htrim
    exact ⟨hsf, by omega⟩

/-- C3 amended: every sentence span is non-empty and inside the text,
a terminal punctuation mark can occur in the span only at its last
position `end - 1` (so the slice `text[start:end]` ends with its
terminator whenever it contains one), and a span whose last character
is not a terminator was ended by end-of-text, with only whitespace
after it. -/
theorem c3_amended (text : List Char) (st fn : Nat)
    (h : (st, fn) ∈ sentenceSpans text) :
    st < fn ∧ fn ≤ text.length ∧
    (∀ i, st ≤ i → i + 1 < fn → isTerm (text.getD i ' ') = false) ∧
    (isTerm (text.getD (fn - 1) ' ') = false →
      ∀ j, fn ≤ j → j < text.length → pyIsSpace (text.getD j ' ') = true) := by
  obtain ⟨r, hr, htrim⟩ := sentenceSpans_mem h
  obtain ⟨hr1, hr2, hcontent, _, hrmax⟩ := runsOf_sound _ text r hr
  by_cases hcase : r.2 < text.length
  · rw [if_pos hcase] at htrim
    have hterm : isTerm (text.getD r.2 ' ') = true := by
      rcases hrmax with h' | h'
      · omega
      · simpa using h'
    obtain ⟨hast, hsf, hfb, hws, hlast⟩ := trimSpan_sound (by omega) (by omega) htrim
    refine ⟨hsf, by omega, ?_, ?_⟩
    · intro i hi1 hi2
      have hint := hcontent i (by omega) (by omega)
      simpa using hint
    · intro hnotterm
      have hfneq : fn = r.2 + 1 := by
        by_contra hne
        have hspace := hws r.2 (by omega) (by omega)
        rw [isTerm_not_space hterm] at hspace
        cases hspace
      rw [hfneq] at hnotterm
      simp only [Nat.add_sub_cancel] at hnotterm
      rw [hterm] at hnotterm
      cases hnotterm
  · rw [if_neg hcase] at htrim
    obtain ⟨hast, hsf, hfb, hws, hlast⟩ := trimSpan_sound (by omega) (by omega) htrim
    refine ⟨hsf, by omega, ?_, ?_⟩
    · intro i hi1 hi2
      have hint := hcontent i (by omega) (by omega)
      simpa using hint
    · intro _ j hj1 hj2
      exact hws j hj1 (by omega)

/-- Witness for `c3_amended` at the text `"Hi."` and its single
span `(0, 3)`. -/
theorem c3_amended_witness :
    (0, 3) ∈ sentenceSpans "Hi.".data ∧
    (0 < 3 ∧ 3 ≤ "Hi.".data.length ∧
     (∀ i, 0 ≤ i → i + 1 < 3 → isTerm ("Hi.".data.getD i ' ') = false) ∧
     (isTerm ("Hi.".data.getD (3 - 1) ' ') = false →
       ∀ j, 3 ≤ j → j < "Hi.".data.length →
         pyIsSpace ("Hi.".data.getD j ' ') = true)) :=
  ⟨by decide, c3_amended "Hi.".data 0 3 (by decide)⟩

/-!  ### Span bounds of the scanners -/

theorem findDoubleSpaces_bounds {text : List Char} :
    ∀ iss ∈ findDoubleSpaces text,
      iss.start + 2 ≤ iss.«end» ∧ iss.«end» ≤ text.length := by
  intro iss hiss
  simp only [findDoubleSpaces, List.mem_map, List.mem_filter] at hiss
  obtain ⟨r, ⟨hr, hlen⟩, heq⟩ := hiss
  obtain ⟨h1, h2, _, _, _⟩ := runsOf_sound _ text r hr
  subst heq
  simp only
  have hlen' : 2 ≤ r.2 - r.1 := by simpa using hlen
  exact ⟨by omega, h2⟩

theorem tokRunLen_le (s : List Char) (i : Nat) : tokRunLen s i ≤ s.length - i := by
  have h := takeWhile_length_le isTokChar (s.drop i)
  simpa [tokRunLen] using h

theorem tokEndDown_bounds {s : List Char} {i : Nat} :
    ∀ {k j : Nat}, tokEndDown s i k = some j → i + 1 ≤ j ∧ j ≤ i + k := by
  intro k
  induction k with
  | zero => intro j h; cases h
  | succ k' ih =>
    intro j h
    simp only [tokEndDown] at h
    by_cases hb : boundaryAt s (i + k' + 1) = true
    · rw [if_pos hb] at h
      have := Option.some.inj h
      omega
    · rw [if_neg hb] at h
      have := ih h
      omega

theorem tokMatchAt_bounds {s : List Char} {i : Nat} {t : Tok}
    (h : tokMatchAt s i = some t) :
    t.start = i ∧ i < t.«end» ∧ t.«end» ≤ s.length ∧
    t.text = sliceOf s t.start t.«end» := by
  simp only [tokMatchAt] at h
  split at h
  · cases h
  · rename_i c hg
    split at h
    · split at h
      · rename_i j he
        have hj := tokEndDown_bounds he
        have hrun := tokRunLen_le s i
        have hilen : i < s.length := by
          rw [List.get?_eq_getElem?] at hg
          exact (List.getElem?_eq_some_iff.mp hg).1
        have ht := Option.some.inj h
        subst ht
        refine ⟨rfl, ?_, ?_, rfl⟩ <;> (dsimp only; omega)
      · cases h
    · cases h

theorem tokenizeAux_bounds {s : List Char} :
    ∀ (fuel i : Nat), ∀ t ∈ tokenizeAux s fuel i,
      i ≤ t.start ∧ t.start < t.«end» ∧ t.«end» ≤ s.length ∧
      t.text = sliceOf s t.start t.«end» := by
  intro fuel
  induction fuel with
  | zero => intro i t ht; cases ht
  | succ fuel' ih =>
    intro i t ht
    simp only [tokenizeAux] at ht
    by_cases hi : i < s.length
    · rw [if_pos hi] at ht
      cases hm : tokMatchAt s i with
      | none =>
        rw [hm] at ht
        have := ih (i + 1) t ht
        exact ⟨by omega, this.2.1, this.2.2⟩
      | some t0 =>
        rw [hm] at ht
        obtain ⟨h1, h2, h3, h4⟩ := tokMatchAt_bounds hm
        rcases List.mem_cons.mp ht with h | h
        · subst h; exact ⟨Nat.le_of_eq h1.symm, by omega, h3, h4⟩
        · have := ih t0.«end» t h
          exact ⟨by omega, this.2.1, this.2.2⟩
    · rw [if_neg hi] at ht; cases ht

/-- Every token of a sentence has a non-empty span inside the
sentence, and its text is the corresponding slice. -/
theorem tokenize_bounds {s : List Char} :
    ∀ t ∈ tokenize s,
      t.start < t.«end» ∧ t.«end» ≤ s.length ∧
      t.text = sliceOf s t.start t.«end» :=
  fun t ht => (tokenizeAux_bounds (s.length + 1) 0 t ht).2

theorem ciMatchAt_le {s w : List Char} {q : Nat} (h : ciMatchAt s w q = true) :
    q + w.length ≤ s.length := by
  simp only [ciMatchAt, Bool.and_eq_true, decide_eq_true_eq] at h
  exact h.2

theorem repsFrom_bounds {s w : List Char} :
    ∀ {fuel p e : Nat}, repsFrom s w fuel p = some e →
      p < e ∧ e ≤ s.length := by
  intro fuel
  induction fuel with
  | zero => intro p e h; cases h
  | succ fuel' ih =>
    intro p e h
    simp only [repsFrom] at h
    by_cases hq : p + wsRunLen s p = p
    · rw [if_pos hq] at h; cases h
    · rw [if_neg hq] at h
      by_cases hci : ciMatchAt s w (p + wsRunLen s p) &&
          boundaryAt s (p + wsRunLen s p + w.length)
      · rw [if_pos hci] at h
        have hle := ciMatchAt_le (Bool.and_elim_left hci)
        cases hrec : repsFrom s w fuel' (p + wsRunLen s p + w.length) with
        | none =>
          rw [hrec] at h
          have := Option.some.inj h
          omega
        | some e' =>
          rw [hrec] at h
          have := Option.some.inj h
          have hrb := ih hrec
          omega
      · rw [if_neg hci] at h; cases h

theorem repMatchAt_bounds {s : List Char} {i e : Nat} {w : List Char}
    (h : repMatchAt s i = some (e, w)) :
    i < e ∧ e ≤ s.length := by
  simp only [repMatchAt] at h
  split at h
  · cases h
  · rename_i c hg
    split at h
    · split at h
      · split at h
        · rename_i e' hr
          have hb2 := repsFrom_bounds hr
          have heq := Option.some.inj h
          have he : e' = e := congrArg Prod.fst heq
          omega
        · cases h
      · cases h
    · cases h

theorem repScanAux_bounds {s : List Char} :
    ∀ (fuel i : Nat), ∀ m ∈ repScanAux s fuel i,
      i ≤ m.1 ∧ m.1 < m.2.1 ∧ m.2.1 ≤ s.length := by
  intro fuel
  induction fuel with
  | zero => intro i m hm; cases hm
  | succ fuel' ih =>
    intro i m hm
    simp only [repScanAux] at hm
    by_cases hi : i < s.length
    · rw [if_pos hi] at hm
      cases hr : repMatchAt s i with
      | none =>
        rw [hr] at hm
        have := ih (i + 1) m hm
        exact ⟨by omega, this.2⟩
      | some ew =>
        rw [hr] at hm
        have hb : i < ew.1 ∧ ew.1 ≤ s.length := repMatchAt_bounds (by rw [hr])
        rcases List.mem_cons.mp hm with h | h
        · subst h; exact ⟨Nat.le_refl _, hb.1, hb.2⟩
        · have := ih ew.1 m h
          exact ⟨by omega, this.2⟩
    · rw [if_neg hi] at hm; cases hm

theorem repScan_bounds {s : List Char} :
    ∀ m ∈ repScan s, m.1 < m.2.1 ∧ m.2.1 ≤ s.length :=
  fun m hm => (repScanAux_bounds (s.length + 1) 0 m hm).2

/-!  ### Bounds of the simple sentence rules -/

theorem checkSentenceCapitalization_bounds {sentence : List Char} {offset : Nat}
    {out : List GrammarIssue}
    (h : checkSentenceCapitalization sentence offset = some out) :
    ∀ iss ∈ out, offset ≤ iss.start ∧ iss.start < iss.«end» ∧
      iss.«end» ≤ offset + sentence.length := by
  simp only [checkSentenceCapitalization] at h
  split at h
  · cases h; intro iss hiss; cases hiss
  · rename_i hne
    split at h
    · cases h
    · rename_i firstChar hhead
      have hslen : (sentence.dropWhile pyIsSpace).length ≤ sentence.length :=
        (List.dropWhile_sublist _).length_le
      have hspos : 0 < (sentence.dropWhile pyIsSpace).length := by
        cases he : sentence.dropWhile pyIsSpace with
        | nil => rw [he] at hne; simp at hne
        | cons a l => simp [he]
      split at h
      · cases h
        intro iss hiss
        rcases List.mem_singleton.mp hiss with rfl
        dsimp only
        omega
      · cases h; intro iss hiss; cases hiss

theorem checkSentencePunctuation_bounds {sentence : List Char} {offset : Nat}
    {out : List GrammarIssue}
    (h : checkSentencePunctuation sentence offset = some out) :
    ∀ iss ∈ out, offset ≤ iss.start ∧ iss.start < iss.«end» ∧
      iss.«end» ≤ offset + sentence.length := by
  simp only [checkSentencePunctuation] at h
  split at h
  · cases h; intro iss hiss; cases hiss
  · rename_i hne
    have hslen : ((sentence.reverse.dropWhile pyIsSpace).reverse).length ≤ sentence.length := by
      simpa using (List.dropWhile_sublist _).length_le.trans (by simp)
    have hspos : 0 < ((sentence.reverse.dropWhile pyIsSpace).reverse).length := by
      cases he : (sentence.reverse.dropWhile pyIsSpace).reverse with
      | nil => rw [he] at hne; simp at hne
      | cons a l => simp [he]
    split at h
    · cases h; intro iss hiss; cases hiss
    · split at h
      · cases h
      · split at h
        · cases h
          intro iss hiss
          rcases List.mem_singleton.mp hiss with rfl
          dsimp only
          omega
        · cases h; intro iss hiss; cases hiss

theorem checkRepeatedWords_bounds {sentence : List Char} {offset : Nat} :
    ∀ iss ∈ checkRepeatedWords sentence offset,
      offset ≤ iss.start ∧ iss.start < iss.«end» ∧
      iss.«end» ≤ offset + sentence.length := by
  intro iss hiss
  simp only [checkRepeatedWords, List.mem_map] at hiss
  obtain ⟨m, hm, heq⟩ := hiss
  have hb := repScan_bounds m hm
  subst heq
  dsimp only
  omega

theorem checkSentenceLength_bounds {sentence : List Char} {offset : Nat}
    (hlen : 0 < sentence.length) :
    ∀ iss ∈ checkSentenceLength sentence offset,
      offset ≤ iss.start ∧ iss.start < iss.«end» ∧
      iss.«end» ≤ offset + sentence.length := by
  intro iss hiss
  simp only [checkSentenceLength] at hiss
  split at hiss
  · rcases List.mem_singleton.mp hiss with rfl
    dsimp only
    omega
  · cases hiss

/-!  ### Structure of the verb-tense search -/

theorem drop_cons_get? {α : Type} {l : List α} {i : Nat} {x : α} {rest : List α}
    (h : l.drop i = x :: rest) :
    l.get? i = some x ∧ l.drop (i + 1) = rest := by
  constructor
  · have h0 := List.getElem?_drop l i 0
    rw [h] at h0
    simp only [List.getElem?_cons_zero, Nat.add_zero] at h0
    rw [List.get?_eq_getElem?, ← h0]
  · have hd : l.drop (i + 1) = (l.drop i).drop 1 := by
      rw [List.drop_drop, Nat.add_comm]
    rw [hd, h, List.drop_one, List.tail_cons]

theorem classifyAux_spec {tokens : List Tok} :
    ∀ (ts : List Tok) (idx : Nat) {pres pasts : List (Nat × Tok)},
      tokens.drop idx = ts →
      classifyAux tokens ts idx = some (pres, pasts) →
      (∀ pr ∈ pres, tokens.get? pr.1 = some pr.2 ∧ idx ≤ pr.1) ∧
      (∀ pr ∈ pasts, tokens.get? pr.1 = some pr.2 ∧ idx ≤ pr.1) := by
  intro ts
  induction ts with
  | nil =>
    intro idx pres pasts _ h
    simp only [classifyAux] at h
    have h1 := (Prod.mk.inj (Option.some.inj h)).1
    have h2 := (Prod.mk.inj (Option.some.inj h)).2
    subst h1; subst h2
    exact ⟨fun pr hpr => absurd hpr (List.not_mem_nil pr),
           fun pr hpr => absurd hpr (List.not_mem_nil pr)⟩
  | cons t rest ih =>
    intro idx pres pasts hdrop h
    obtain ⟨hget, hdrop'⟩ := drop_cons_get? hdrop
    simp only [classifyAux] at h
    split at h
    · cases h
    · -- present marker
      split at h
      · cases h
      · rename_i pres' pasts' hrec
        have hinj := Option.some.inj h
        have hp : (idx, t) :: pres' = pres := congrArg Prod.fst hinj
        have hq : pasts' = pasts := congrArg Prod.snd hinj
        subst hp; subst hq
        obtain ⟨ih1, ih2⟩ := ih (idx + 1) hdrop' hrec
        refine ⟨?_, fun pr hpr => ⟨(ih2 pr hpr).1, by have := (ih2 pr hpr).2; omega⟩⟩
        intro pr hpr
        rcases List.mem_cons.mp hpr with rfl | hpr'
        · exact ⟨hget, Nat.le_refl _⟩
        · exact ⟨(ih1 pr hpr').1, by have := (ih1 pr hpr').2; omega⟩
    · -- not present: try past marker
      split at h
      · cases h
      · split at h
        · cases h
        · rename_i pres' pasts' hrec
          have hinj := Option.some.inj h
          have hp : pres' = pres := congrArg Prod.fst hinj
          have hq : (idx, t) :: pasts' = pasts := congrArg Prod.snd hinj
          subst hp; subst hq
          obtain ⟨ih1, ih2⟩ := ih (idx + 1) hdrop' hrec
          refine ⟨fun pr hpr => ⟨(ih1 pr hpr).1, by have := (ih1 pr hpr).2; omega⟩, ?_⟩
          intro pr hpr
          rcases List.mem_cons.mp hpr with rfl | hpr'
          · exact ⟨hget, Nat.le_refl _⟩
          · exact ⟨(ih2 pr hpr').1, by have := (ih2 pr hpr').2; omega⟩
      · obtain ⟨ih1, ih2⟩ := ih (idx + 1) hdrop' h
        exact ⟨fun pr hpr => ⟨(ih1 pr hpr).1, by have := (ih1 pr hpr).2; omega⟩,
               fun pr hpr => ⟨(ih2 pr hpr).1, by have := (ih2 pr hpr).2; omega⟩⟩

theorem tenseInner_mem {tokens : List Tok} {pastMarker : Nat × Tok} :
    ∀ {presents : List (Nat × Tok)} {r : (Nat × Tok) × (Nat × Tok)},
      tenseInner tokens pastMarker presents = some (some r) →
      r.1 = pastMarker ∧ r.2 ∈ presents := by
  intro presents
  induction presents with
  | nil => intro r h; cases h
  | cons q rest ih =>
    intro r h
    simp only [tenseInner] at h
    split at h
    · cases h
    · have := Option.some.inj (Option.some.inj h)
      subst this
      exact ⟨rfl, List.mem_cons_self _ _⟩
    · obtain ⟨h1, h2⟩ := ih h
      exact ⟨h1, List.mem_cons_of_mem _ h2⟩

theorem tenseOuter_mem {tokens : List Tok} {presents : List (Nat × Tok)} :
    ∀ {pasts : List (Nat × Tok)} {r : (Nat × Tok) × (Nat × Tok)},
      tenseOuter tokens presents pasts = some (some r) →
      r.1 ∈ pasts ∧ r.2 ∈ presents := by
  intro pasts
  induction pasts with
  | nil => intro r h; cases h
  | cons p rest ih =>
    intro r h
    simp only [tenseOuter] at h
    split at h
    · cases h
    · rename_i pair hinner
      have := Option.some.inj (Option.some.inj h)
      subst this
      obtain ⟨h1, h2⟩ := tenseInner_mem hinner
      exact ⟨h1 ▸ List.mem_cons_self _ _, h2⟩
    · obtain ⟨h1, h2⟩ := ih h
      exact ⟨List.mem_cons_of_mem _ h1, h2⟩

theorem checkVerbTense_bounds {sentence : List Char} {offset : Nat}
    {out : List GrammarIssue}
    (h : checkVerbTense sentence offset = some out) :
    ∀ iss ∈ out, offset ≤ iss.start ∧ iss.start < iss.«end» ∧
      iss.«end» ≤ offset + sentence.length := by
  simp only [checkVerbTense] at h
  split at h
  · cases h; intro iss hiss; cases hiss
  · split at h
    · cases h
    · rename_i pres pasts hclass
      split at h
      · split at h
        · cases h
        · cases h; intro iss hiss; cases hiss
        · rename_i pm qm houter
          cases h
          intro iss hiss
          rcases List.mem_singleton.mp hiss with rfl
          have hmem := tenseOuter_mem houter
          obtain ⟨hcls1, hcls2⟩ := classifyAux_spec _ 0 (by simp) hclass
          have hpt : pm.2 ∈ tokenize sentence :=
            List.get?_mem (hcls2 pm hmem.1).1
          have hqt : qm.2 ∈ tokenize sentence :=
            List.get?_mem (hcls1 qm hmem.2).1
          obtain ⟨hp1, hp2, _⟩ := tokenize_bounds pm.2 hpt
          obtain ⟨hq1, hq2, _⟩ := tokenize_bounds qm.2 hqt
          have h1 : min pm.2.start qm.2.start ≤ pm.2.start := Nat.min_le_left _ _
          have h2 : pm.2.«end» ≤ max pm.2.«end» qm.2.«end» := Nat.le_max_left _ _
          have h3 : max pm.2.«end» qm.2.«end» ≤ sentence.length :=
            Nat.max_le.mpr ⟨hp2, hq2⟩
          dsimp only
          omega
      · cases h; intro iss hiss; cases hiss

/-!  ### Assembled bounds for `check` -/

theorem insertByStart_mem {x y : GrammarIssue} :
    ∀ {l : List GrammarIssue}, y ∈ insertByStart x l ↔ y = x ∨ y ∈ l := by
  intro l
  induction l with
  | nil => simp [insertByStart]
  | cons z zs ih =>
    simp only [insertByStart]
    split
    · simp only [List.mem_cons, ih] <;> tauto
    · simp only [List.mem_cons] <;> tauto

theorem sortByStart_mem {y : GrammarIssue} :
    ∀ {l : List GrammarIssue}, y ∈ sortByStart l ↔ y ∈ l := by
  intro l
  induction l with
  | nil => simp [sortByStart]
  | cons z zs ih =>
    simp only [sortByStart, insertByStart_mem, List.mem_cons, ih]

theorem sentenceIssues_bounds {text : List Char} :
    ∀ (spans : List (Nat × Nat)),
      (∀ sp ∈ spans, sp.1 < sp.2 ∧ sp.2 ≤ text.length) →
      ∀ {out : List GrammarIssue}, sentenceIssues text spans = some out →
      ∀ iss ∈ out, iss.start < iss.«end» ∧ iss.«end» ≤ text.length := by
  intro spans
  induction spans with
  | nil =>
    intro _ out h iss hiss
    simp only [sentenceIssues] at h
    cases h
    cases hiss
  | cons sp rest ih =>
    intro hsp out h iss hiss
    obtain ⟨hsp1, hsp2⟩ := hsp sp (List.mem_cons_self _ _)
    have hslen : (sliceOf text sp.1 sp.2).length = sp.2 - sp.1 :=
      sliceOf_length (Nat.le_of_lt hsp1) hsp2
    simp only [sentenceIssues] at h
    split at h
    · cases h
    · rename_i issues hthis
      split at h
      · cases h
      · rename_i restIssues hrest
        cases h
        rcases List.mem_append.mp hiss with hmem | hmem
        · -- issue from this sentence
          have hiss_bound : iss.start < iss.«end» ∧ iss.«end» ≤ sp.1 + (sliceOf text sp.1 sp.2).length := by
            split at hthis
            · cases hthis; cases hmem
            · split at hthis
              · cases hthis
              · rename_i capIssues hcap
                split at hthis
                · cases hthis
                · rename_i punctIssues hpunct
                  split at hthis
                  · cases hthis
                  · rename_i tenseIssues htense
                    cases hthis
                    rcases List.mem_append.mp hmem with hm | hm
                    · rcases List.mem_append.mp hm with hm' | hm'
                      · rcases List.mem_append.mp hm' with hm'' | hm''
                        · rcases List.mem_append.mp hm'' with hm3 | hm3
                          · have := checkSentenceCapitalization_bounds hcap iss hm3
                            exact ⟨this.2.1, this.2.2⟩
                          · have := checkSentencePunctuation_bounds hpunct iss hm3
                            exact ⟨this.2.1, this.2.2⟩
                        · have := checkRepeatedWords_bounds iss hm''
                          exact ⟨this.2.1, this.2.2⟩
                      · have := checkSentenceLength_bounds (by omega) iss hm'
                        exact ⟨this.2.1, this.2.2⟩
                    · have := checkVerbTense_bounds htense iss hm
                      exact ⟨this.2.1, this.2.2⟩
          exact ⟨hiss_bound.1, by omega⟩
        · exact ih (fun q hq => hsp q (List.mem_cons_of_mem _ hq)) hrest iss hmem

theorem check_issue_bounds {text : List Char} {out : List GrammarIssue}
    (h : check text = some out) :
    ∀ iss ∈ out, iss.start < iss.«end» ∧ iss.«end» ≤ text.length := by
  simp only [check] at h
  split at h
  · cases h
  · rename_i issues hpre
    cases h
    intro iss hiss
    rw [sortByStart_mem] at hiss
    simp only [preSortIssues] at hpre
    split at hpre
    · cases hpre
    · rename_i perSentence hsent
      cases hpre
      rcases List.mem_append.mp hiss with hm | hm
      · have := findDoubleSpaces_bounds iss hm
        omega
      · exact sentenceIssues_bounds (sentenceSpans text)
          (fun sp hsp => sentenceSpans_bounds (by exact hsp)) hsent iss hm

/-- C5: every issue returned by `check` has its character span inside
the input text: `0 ≤ start ≤ end ≤ len(text)`. -/
theorem c5_issue_spans_in_text (text : List Char) (out : List GrammarIssue)
    (h : check text = some out) :
    ∀ iss ∈ out, iss.start ≤ iss.«end» ∧ iss.«end» ≤ text.length := by
  intro iss hiss
  have := check_issue_bounds h iss hiss
  omega

/-- Witness for `c5_issue_spans_in_text` on a concrete input with a
non-empty issue list. -/
theorem c5_issue_spans_in_text_witness :
    (check "It was nice and it is red.".data =
      some ((check "It was nice and it is red.".data).getD [])) ∧
    (∀ iss ∈ (check "It was nice and it is red.".data).getD [],
      iss.start ≤ iss.«end» ∧ iss.«end» ≤ "It was nice and it is red.".data.length) := by
  have h : check "It was nice and it is red.".data =
      some ((check "It was nice and it is red.".data).getD []) := by decide
  exact ⟨h, c5_issue_spans_in_text _ _ h⟩

/-- C10: every issue returned by `check` has a non-empty span,
`start < end` strictly. -/
theorem c10_issue_spans_nonempty (text : List Char) (out : List GrammarIssue)
    (h : check text = some out) :
    ∀ iss ∈ out, iss.start < iss.«end» :=
  fun iss hiss => (check_issue_bounds h iss hiss).1

/-- Witness for `c10_issue_spans_nonempty` on a concrete input with a
non-empty issue list. -/
theorem c10_issue_spans_nonempty_witness :
    (check "This  sentence has double spaces.".data =
      some ((check "This  sentence has double spaces.".data).getD [])) ∧
    (∀ iss ∈ (check "This  sentence has double spaces.".data).getD [],
      iss.start < iss.«end») := by
  have h : check "This  sentence has double spaces.".data =
      some ((check "This  sentence has double spaces.".data).getD []) := by decide
  exact ⟨h, c10_issue_spans_nonempty _ _ h⟩

/-!  ### Sortedness and stability of the final sort -/

theorem insertByStart_sorted {x : GrammarIssue} :
    ∀ {l : List GrammarIssue}, l.Pairwise (fun a b => a.start ≤ b.start) →
      (insertByStart x l).Pairwise (fun a b => a.start ≤ b.start) := by
  intro l
  induction l with
  | nil => intro _; simp [insertByStart]
  | cons y ys ih =>
    intro h
    rw [List.pairwise_cons] at h
    simp only [insertByStart]
    split
    · rename_i hlt
      rw [List.pairwise_cons]
      refine ⟨?_, ih h.2⟩
      intro z hz
      rcases insertByStart_mem.mp hz with rfl | hz'
      · exact Nat.le_of_lt hlt
      · exact h.1 z hz'
    · rename_i hge
      rw [List.pairwise_cons]
      refine ⟨?_, List.pairwise_cons.mpr h⟩
      intro z hz
      rcases List.mem_cons.mp hz with rfl | hz'
      · omega
      · exact Nat.le_trans (by omega) (h.1 z hz')

theorem sortByStart_sorted :
    ∀ l : List GrammarIssue,
      (sortByStart l).Pairwise (fun a b => a.start ≤ b.start) := by
  intro l
  induction l with
  | nil => simp [sortByStart]
  | cons x xs ih => exact insertByStart_sorted ih

theorem insertByStart_filter (x : GrammarIssue) (k : Nat) :
    ∀ l : List GrammarIssue,
      (insertByStart x l).filter (fun i => i.start == k) =
        if x.start == k then x :: l.filter (fun i => i.start == k)
        else l.filter (fun i => i.start == k) := by
  intro l
  induction l with
  | nil => simp [insertByStart, List.filter_cons]
  | cons y ys ih =>
    simp only [insertByStart]
    split
    · rename_i hlt
      rw [List.filter_cons, ih]
      by_cases hx : (x.start == k) = true
      · have hy : ¬ (y.start == k) = true := by
          simp only [beq_iff_eq] at hx ⊢
          omega
        simp [hx, hy, List.filter_cons]
      · simp [hx, List.filter_cons]
    · rw [List.filter_cons]

theorem sortByStart_filter (k : Nat) :
    ∀ l : List GrammarIssue,
      (sortByStart l).filter (fun i => i.start == k) =
        l.filter (fun i => i.start == k) := by
  intro l
  induction l with
  | nil => simp [sortByStart]
  | cons x xs ih =>
    simp only [sortByStart, insertByStart_filter, List.filter_cons]
    split
    · rw [ih]
    · exact ih

/-- C6: the list returned by `check` is sorted non-decreasing by
`start`, and it is a stable sort of the insertion-order issue list
`preSortIssues` (document-level double-space issues first, then
per-sentence issues in sentence order, each sentence's issues in the
fixed rule-invocation order): for every start value `k`, the issues
with start `k` appear in the output exactly as they appear in
insertion order. -/
theorem c6_sorted_and_stable (text : List Char) (out : List GrammarIssue)
    (h : check text = some out) :
    out.Pairwise (fun a b => a.start ≤ b.start) ∧
    ∃ pre, preSortIssues text = some pre ∧
      ∀ k, out.filter (fun i => i.start == k) =
        pre.filter (fun i => i.start == k) := by
  simp only [check] at h
  split at h
  · cases h
  · rename_i issues hpre
    cases h
    exact ⟨sortByStart_sorted issues, issues, hpre,
      fun k => sortByStart_filter k issues⟩

/-- Witness for `c6_sorted_and_stable` on a concrete input with
several issues sharing the pipeline. -/
theorem c6_sorted_and_stable_witness :
    ((check "it was  nice and is red".data).getD []).Pairwise
      (fun a b => a.start ≤ b.start) ∧
    ∃ pre, preSortIssues "it was  nice and is red".data = some pre ∧
      ∀ k, ((check "it was  nice and is red".data).getD []).filter
          (fun i => i.start == k) =
        pre.filter (fun i => i.start == k) := by
  have h : check "it was  nice and is red".data =
      some ((check "it was  nice and is red".data).getD []) := by decide
  exact c6_sorted_and_stable _ _ h

/-!  ### Totality: no internal indexing can fail -/

theorem prevContentAux_isSome {tokens : List Tok} {steps : Nat} :
    ∀ (j taken : Nat), j ≤ tokens.length →
      (prevContentAux tokens steps taken j).isSome = true := by
  intro j
  induction j with
  | zero => intro taken _; simp [prevContentAux]
  | succ j' ih =>
    intro taken hj
    simp only [prevContentAux]
    split
    · rename_i hg
      exfalso
      rw [List.get?_eq_getElem?] at hg
      have := List.getElem?_eq_none_iff.mp hg
      omega
    · split
      · exact ih taken (by omega)
      · split
        · rfl
        · exact ih (taken + 1) (by omega)

theorem previousContentWord_isSome {tokens : List Tok} {index steps : Nat}
    (h : index ≤ tokens.length) :
    (previousContentWord tokens index steps).isSome = true :=
  prevContentAux_isSome index 0 h

theorem perfectAux_isSome {tokens : List Tok} :
    ∀ (count j : Nat), j ≤ tokens.length →
      (perfectAux tokens count j).isSome = true := by
  intro count
  induction count with
  | zero => intro j _; simp [perfectAux]
  | succ count' ih =>
    intro j hj
    cases j with
    | zero => simp [perfectAux]
    | succ j' =>
      simp only [perfectAux]
      split
      · rename_i hg
        exfalso
        rw [List.get?_eq_getElem?] at hg
        have := List.getElem?_eq_none_iff.mp hg
        omega
      · split
        · exact ih j' (by omega)
        · split
          · rfl
          · exact ih j' (by omega)

theorem isPresentMarker_isSome {w : List Char} {tokens : List Tok} {index : Nat}
    (h : index ≤ tokens.length) :
    (isPresentMarker w tokens index).isSome = true := by
  simp only [isPresentMarker]
  split
  · split
    · rename_i heq
      have hs := @previousContentWord_isSome tokens index 1 h
      rw [heq] at hs; simp at hs
    · split <;> rfl
  · split
    · split
      · rename_i heq
        have hs := @previousContentWord_isSome tokens index 1 h
        rw [heq] at hs; simp at hs
      · split <;> rfl
    · split
      · split
        · rename_i heq
          have hs := @previousContentWord_isSome tokens index 1 h
          rw [heq] at hs; simp at hs
        · split
          · rfl
          · split
            · rfl
            · split
              · rfl
              · split
                · split
                  · rename_i heq
                    have hs := @previousContentWord_isSome tokens index 2 h
                    rw [heq] at hs; simp at hs
                  · split <;> rfl
                · rfl
      · rfl

theorem isPastMarker_isSome {w : List Char} {tokens : List Tok} {index : Nat}
    (h : index ≤ tokens.length) :
    (isPastMarker w tokens index).isSome = true := by
  simp only [isPastMarker]
  split
  · rfl
  · split
    · split
      · rename_i heq
        have hs := @previousContentWord_isSome tokens index 1 h
        rw [heq] at hs; simp at hs
      · split
        · rfl
        · split <;> rfl
    · split
      · split
        · rename_i heq
          simp only [isPartOfPerfectOrPassive] at heq
          have hs := @perfectAux_isSome tokens 5 index h
          rw [heq] at hs; simp at hs
        · rfl
        · split
          · rename_i heq
            have hs := @previousContentWord_isSome tokens index 1 h
            rw [heq] at hs; simp at hs
          · split <;> rfl
      · rfl

theorem classifyAux_isSome {tokens : List Tok} :
    ∀ (ts : List Tok) (idx : Nat), tokens.drop idx = ts →
      (classifyAux tokens ts idx).isSome = true := by
  intro ts
  induction ts with
  | nil => intro idx _; simp [classifyAux]
  | cons t rest ih =>
    intro idx hdrop
    obtain ⟨hget, hdrop'⟩ := drop_cons_get? hdrop
    have hidx : idx < tokens.length := by
      rw [List.get?_eq_getElem?] at hget
      exact (List.getElem?_eq_some_iff.mp hget).1
    simp only [classifyAux]
    obtain ⟨b, hb⟩ := Option.isSome_iff_exists.mp
      (isPresentMarker_isSome (w := lowerList t.text) (Nat.le_of_lt hidx))
    rw [hb]
    cases b
    · obtain ⟨b', hb'⟩ := Option.isSome_iff_exists.mp
        (isPastMarker_isSome (w := lowerList t.text) (Nat.le_of_lt hidx))
      rw [hb']
      cases b'
      · exact ih (idx + 1) hdrop'
      · obtain ⟨pp, hpp⟩ := Option.isSome_iff_exists.mp (ih (idx + 1) hdrop')
        rw [hpp]
        rfl
    · obtain ⟨pp, hpp⟩ := Option.isSome_iff_exists.mp (ih (idx + 1) hdrop')
      rw [hpp]
      rfl

theorem sameClauseAux_isSome {tokens : List Tok} :
    ∀ (count i : Nat), i + count ≤ tokens.length →
      (sameClauseAux tokens i count).isSome = true := by
  intro count
  induction count with
  | zero => intro i _; simp [sameClauseAux]
  | succ count' ih =>
    intro i hi
    simp only [sameClauseAux]
    split
    · rename_i hg
      exfalso
      rw [List.get?_eq_getElem?] at hg
      have := List.getElem?_eq_none_iff.mp hg
      omega
    · split
      · rfl
      · exact ih (i + 1) (by omega)

theorem markersInSameClause_isSome {tokens : List Tok} {i j : Nat}
    (hi : i < tokens.length) (hj : j < tokens.length) :
    (markersInSameClause tokens i j).isSome = true := by
  simp only [markersInSameClause]
  apply sameClauseAux_isSome
  have h1 : max i j < tokens.length := by omega
  omega

theorem tenseInner_isSome {tokens : List Tok} {pastMarker : Nat × Tok}
    (hp : pastMarker.1 < tokens.length) :
    ∀ (presents : List (Nat × Tok)),
      (∀ q ∈ presents, q.1 < tokens.length) →
      (tenseInner tokens pastMarker presents).isSome = true := by
  intro presents
  induction presents with
  | nil => intro _; simp [tenseInner]
  | cons q rest ih =>
    intro hq
    simp only [tenseInner]
    obtain ⟨b, hb⟩ := Option.isSome_iff_exists.mp
      (markersInSameClause_isSome hp (hq q (List.mem_cons_self _ _)))
    rw [hb]
    cases b
    · exact ih (fun q' hq' => hq q' (List.mem_cons_of_mem _ hq'))
    · rfl

theorem tenseOuter_isSome {tokens : List Tok} {presents : List (Nat × Tok)}
    (hpres : ∀ q ∈ presents, q.1 < tokens.length) :
    ∀ (pasts : List (Nat × Tok)),
      (∀ p ∈ pasts, p.1 < tokens.length) →
      (tenseOuter tokens presents pasts).isSome = true := by
  intro pasts
  induction pasts with
  | nil => intro _; simp [tenseOuter]
  | cons p rest ih =>
    intro hp
    simp only [tenseOuter]
    obtain ⟨r, hr⟩ := Option.isSome_iff_exists.mp
      (tenseInner_isSome (hp p (List.mem_cons_self _ _)) presents hpres)
    rw [hr]
    cases r
    · exact ih (fun p' hp' => hp p' (List.mem_cons_of_mem _ hp'))
    · rfl

theorem checkVerbTense_isSome (sentence : List Char) (offset : Nat) :
    (checkVerbTense sentence offset).isSome = true := by
  simp only [checkVerbTense]
  split
  · rfl
  · split
    · rename_i hclassEq
      have hs := @classifyAux_isSome (tokenize sentence) (tokenize sentence) 0 (by simp)
      rw [hclassEq] at hs
      cases hs
    · rename_i presents pasts hclassEq
      split
      · have hcls := @classifyAux_spec (tokenize sentence) _ 0 _ _ (by simp) hclassEq
        have hpres : ∀ q ∈ presents, q.1 < (tokenize sentence).length := by
          intro q hq
          have h1 := (hcls.1 q hq).1
          rw [List.get?_eq_getElem?] at h1
          exact (List.getElem?_eq_some_iff.mp h1).1
        have hpast : ∀ p ∈ pasts, p.1 < (tokenize sentence).length := by
          intro p hp
          have h1 := (hcls.2 p hp).1
          rw [List.get?_eq_getElem?] at h1
          exact (List.getElem?_eq_some_iff.mp h1).1
        split
        · rename_i houter
          have hs := tenseOuter_isSome hpres pasts hpast
          rw [houter] at hs
          cases hs
        · rfl
        · rfl
      · rfl

theorem checkSentenceCapitalization_isSome (sentence : List Char) (offset : Nat) :
    (checkSentenceCapitalization sentence offset).isSome = true := by
  simp only [checkSentenceCapitalization]
  split
  · rfl
  · rename_i hne
    cases he : sentence.dropWhile pyIsSpace with
    | nil => rw [he] at hne; simp at hne
    | cons a l =>
      split
      · rename_i heq; simp at heq
      · split <;> rfl

theorem checkSentencePunctuation_isSome (sentence : List Char) (offset : Nat) :
    (checkSentencePunctuation sentence offset).isSome = true := by
  simp only [checkSentencePunctuation]
  split
  · rfl
  · split
    · rfl
    · rename_i hne
      have : ((((sentence.reverse.dropWhile pyIsSpace).reverse).reverse.dropWhile
          (fun c => decide (c ∈ closingChars))).reverse).getLast?.isSome = true := by
        rw [List.getLast?_isSome]
        simpa using hne
      obtain ⟨lastChar, hlast⟩ := Option.isSome_iff_exists.mp this
      rw [hlast]
      split
      · rename_i heq; exact Option.noConfusion heq
      · split <;> rfl

theorem sentenceIssues_isSome (text : List Char) :
    ∀ spans : List (Nat × Nat), (sentenceIssues text spans).isSome = true := by
  intro spans
  induction spans with
  | nil => simp [sentenceIssues]
  | cons sp rest ih =>
    simp only [sentenceIssues]
    have hthis :
        (if (sliceOf text sp.1 sp.2).all pyIsSpace then some []
         else
          match checkSentenceCapitalization (sliceOf text sp.1 sp.2) sp.1 with
          | none => none
          | some capIssues =>
            match checkSentencePunctuation (sliceOf text sp.1 sp.2) sp.1 with
            | none => none
            | some punctIssues =>
              match checkVerbTense (sliceOf text sp.1 sp.2) sp.1 with
              | none => none
              | some tenseIssues =>
                some (capIssues ++ punctIssues ++
                      checkRepeatedWords (sliceOf text sp.1 sp.2) sp.1 ++
                      checkSentenceLength (sliceOf text sp.1 sp.2) sp.1 ++
                      tenseIssues)).isSome = true := by
      split
      · rfl
      · obtain ⟨capIssues, hcap⟩ := Option.isSome_iff_exists.mp
          (checkSentenceCapitalization_isSome (sliceOf text sp.1 sp.2) sp.1)
        rw [hcap]
        obtain ⟨punctIssues, hpunct⟩ := Option.isSome_iff_exists.mp
          (checkSentencePunctuation_isSome (sliceOf text sp.1 sp.2) sp.1)
        rw [hpunct]
        obtain ⟨tenseIssues, htense⟩ := Option.isSome_iff_exists.mp
          (checkVerbTense_isSome (sliceOf text sp.1 sp.2) sp.1)
        rw [htense]
        rfl
    obtain ⟨issues, hissues⟩ := Option.isSome_iff_exists.mp hthis
    rw [hissues]
    obtain ⟨restIssues, hrest⟩ := Option.isSome_iff_exists.mp ih
    rw [hrest]
    rfl

/-- C7: `check` is total — for every input text it produces an issue
list; none of the partial operations it is built from can fail. -/
theorem c7_check_total (text : List Char) : (check text).isSome = true := by
  simp only [check, preSortIssues]
  obtain ⟨perSentence, hsent⟩ := Option.isSome_iff_exists.mp
    (sentenceIssues_isSome text (sentenceSpans text))
  rw [hsent]
  rfl

/-!  ### C1: the verb-tense scan order -/

theorem sameClauseAux_true_iff {tokens : List Tok} :
    ∀ (count i : Nat), i + count ≤ tokens.length →
      (sameClauseAux tokens i count = some true ↔
        ∀ k t, i ≤ k → k < i + count → tokens.get? k = some t →
          lowerList t.text ∉ subordinateMarkers) := by
  intro count
  induction count with
  | zero =>
    intro i _
    simp only [sameClauseAux]
    constructor
    · intro _ k t hk1 hk2 _
      omega
    · intro _; trivial
  | succ count' ih =>
    intro i hi
    have hilen : i < tokens.length := by omega
    obtain ⟨t0, ht0⟩ : ∃ a, tokens.get? i = some a :=
      Option.isSome_iff_exists.mp
        (by rw [List.get?_eq_getElem?]; simp [List.getElem?_eq_getElem hilen])
    simp only [sameClauseAux, ht0]
    by_cases hsub : lowerList t0.text ∈ subordinateMarkers
    · rw [if_pos hsub]
      constructor
      · intro h; cases h
      · intro hall
        exact absurd hsub (hall i t0 (Nat.le_refl _) (by omega) ht0)
    · rw [if_neg hsub]
      rw [ih (i + 1) (by omega)]
      constructor
      · intro hall k t hk1 hk2 hget
        rcases Nat.eq_or_lt_of_le hk1 with rfl | hk1'
        · rw [hget] at ht0
          rw [Option.some.inj ht0]
          exact hsub
        · exact hall k t hk1' (by omega) hget
      · intro hall k t hk1 hk2 hget
        exact hall k t (by omega) (by omega) hget

theorem specNoSubBetween_true_iff {tokens : List Tok} {i j : Nat} :
    specNoSubBetween tokens i j = true ↔
      ∀ k t, min i j < k → k < max i j → tokens.get? k = some t →
        lowerList t.text ∉ subordinateMarkers := by
  simp only [specNoSubBetween, List.all_eq_true]
  constructor
  · intro hall k t hk1 hk2 hget
    have hmem : (k, t) ∈ tokens.enum := by
      rw [List.mem_enum_iff_getElem?, ← List.get?_eq_getElem?]
      exact hget
    have := hall (k, t) hmem
    simp only at this
    rw [if_pos ⟨hk1, hk2⟩] at this
    intro hsub
    rw [if_pos hsub] at this
    cases this
  · intro hall p hp
    obtain ⟨k, t⟩ := p
    have hget : tokens.get? k = some t := by
      rw [List.get?_eq_getElem?]
      exact List.mem_enum_iff_getElem?.mp hp
    simp only
    split
    · rename_i hk
      rw [if_neg (hall k t hk.1 hk.2 hget)]
    · rfl

theorem markersInSameClause_eq_spec {tokens : List Tok} {i j : Nat}
    (hi : i < tokens.length) (hj : j < tokens.length) :
    markersInSameClause tokens i j = some (specNoSubBetween tokens i j) := by
  obtain ⟨b, hb⟩ := Option.isSome_iff_exists.mp (markersInSameClause_isSome hi hj)
  rw [hb]
  congr 1
  have hcnt : min i j + 1 + (max i j - (min i j + 1)) ≤ tokens.length := by omega
  have hiff := @sameClauseAux_true_iff tokens
    (max i j - (min i j + 1)) (min i j + 1) hcnt
  simp only [markersInSameClause] at hb
  cases b
  · cases hsp : specNoSubBetween tokens i j
    · rfl
    · exfalso
      have hall := specNoSubBetween_true_iff.mp hsp
      have htrue : sameClauseAux tokens (min i j + 1) (max i j - (min i j + 1)) =
          some true := by
        rw [hiff]
        intro k t hk1 hk2 hget
        exact hall k t (by omega) (by omega) hget
      rw [htrue] at hb
      cases Option.some.inj hb
  · cases hsp : specNoSubBetween tokens i j
    · exfalso
      have hall := hiff.mp hb
      have hspec : specNoSubBetween tokens i j = true := by
        rw [specNoSubBetween_true_iff]
        intro k t hk1 hk2 hget
        exact hall k t (by omega) (by omega) hget
      rw [hsp] at hspec
      cases hspec
    · rfl

theorem tenseInner_eq_find {tokens : List Tok} {pastMarker : Nat × Tok}
    (hp : pastMarker.1 < tokens.length) :
    ∀ (presents : List (Nat × Tok)),
      (∀ q ∈ presents, q.1 < tokens.length) →
      tenseInner tokens pastMarker presents =
        some ((presents.map (fun q => (pastMarker, q))).find?
          (fun pq => specNoSubBetween tokens pq.1.1 pq.2.1)) := by
  intro presents
  induction presents with
  | nil => intro _; simp [tenseInner]
  | cons q rest ih =>
    intro hq
    simp only [tenseInner, List.map_cons, List.find?_cons]
    rw [markersInSameClause_eq_spec hp (hq q (List.mem_cons_self _ _))]
    cases hsp : specNoSubBetween tokens pastMarker.1 q.1
    · simpa using ih (fun q' hq' => hq q' (List.mem_cons_of_mem _ hq'))
    · rfl

theorem tenseOuter_eq_find {tokens : List Tok} {presents : List (Nat × Tok)}
    (hpres : ∀ q ∈ presents, q.1 < tokens.length) :
    ∀ (pasts : List (Nat × Tok)),
      (∀ p ∈ pasts, p.1 < tokens.length) →
      tenseOuter tokens presents pasts =
        some (specFirstPair tokens pasts presents) := by
  intro pasts
  induction pasts with
  | nil => intro _; simp [tenseOuter, specFirstPair, specPairs]
  | cons p rest ih =>
    intro hp
    simp only [tenseOuter, specFirstPair, specPairs, List.flatMap_cons,
      List.find?_append]
    rw [tenseInner_eq_find (hp p (List.mem_cons_self _ _)) presents hpres]
    cases hfind : (presents.map (fun q => (p, q))).find?
        (fun pq => specNoSubBetween tokens pq.1.1 pq.2.1) with
    | none =>
      have := ih (fun p' hp' => hp p' (List.mem_cons_of_mem _ hp'))
      simp only [specFirstPair, specPairs] at this
      rw [this, Option.none_or]
    | some pair =>
      rfl

/-- C1: the verb-tense rule emits at most one issue per sentence, and
behaves exactly as the claim's scan order describes: it reports the
first (past, present) marker pair — past markers outer, present
markers inner, in token order — with no subordinate clause marker
strictly between them, spanning from the minimum start to the maximum
end of the two tokens, with the fixed message (`specVerbTense` is the
claim-side restatement); with no qualifying pair, no issue. -/
theorem c1_verb_tense_first_pair :
    (∀ sentence offset,
      checkVerbTense sentence offset = specVerbTense sentence offset) ∧
    (∀ sentence offset out,
      checkVerbTense sentence offset = some out → out.length ≤ 1) := by
  have heq : ∀ sentence offset,
      checkVerbTense sentence offset = specVerbTense sentence offset := by
    intro sentence offset
    simp only [checkVerbTense, specVerbTense]
    split
    · rfl
    · split
      · rfl
      · rename_i presents pasts hclassEq
        split
        · have hcls := @classifyAux_spec (tokenize sentence) _ 0 _ _
            (by simp) hclassEq
          have hpres : ∀ q ∈ presents, q.1 < (tokenize sentence).length := by
            intro q hq
            have h1 := (hcls.1 q hq).1
            rw [List.get?_eq_getElem?] at h1
            exact (List.getElem?_eq_some_iff.mp h1).1
          have hpast : ∀ p ∈ pasts, p.1 < (tokenize sentence).length := by
            intro p hp
            have h1 := (hcls.2 p hp).1
            rw [List.get?_eq_getElem?] at h1
            exact (List.getElem?_eq_some_iff.mp h1).1
          rw [tenseOuter_eq_find hpres pasts hpast]
          cases hfp : specFirstPair (tokenize sentence) pasts presents with
          | none => rfl
          | some pair => obtain ⟨pm, qm⟩ := pair; rfl
        · rfl
  refine ⟨heq, ?_⟩
  intro sentence offset out h
  rw [heq] at h
  simp only [specVerbTense] at h
  split at h
  · cases h; simp
  · split at h
    · cases h
    · split at h
      · split at h
        · cases h; simp
        · cases h; simp
      · cases h; simp

/-- Witness for `c1_verb_tense_first_pair` at a concrete sentence
with a verb-tense issue. -/
theorem c1_verb_tense_first_pair_witness :
    checkVerbTense "It was nice and it is red.".data 0 =
      specVerbTense "It was nice and it is red.".data 0 ∧
    ((checkVerbTense "It was nice and it is red.".data 0).getD []).length ≤ 1 := by
  refine ⟨c1_verb_tense_first_pair.1 _ 0, ?_⟩
  have hc : checkVerbTense "It was nice and it is red.".data 0 =
      some ((checkVerbTense "It was nice and it is red.".data 0).getD []) := by
    decide
  exact c1_verb_tense_first_pair.2 _ 0 _ hc

/-!  ### C9: case-insensitivity of the verb-tense rule -/

theorem uint32_lt_iff_toNat_lt (a b : UInt32) : a < b ↔ a.toNat < b.toNat := by
  rw [UInt32.lt_def, BitVec.lt_def]
  rfl

theorem uint32_le_iff_toNat_le (a b : UInt32) : a ≤ b ↔ a.toNat ≤ b.toNat := by
  rw [UInt32.le_def, BitVec.le_def]
  rfl

theorem charOfNat_toNat {n : Nat} (h : n.isValidChar) : (Char.ofNat n).toNat = n := by
  simp [Char.ofNat, h, Char.toNat, Char.ofNatAux, UInt32.toNat, BitVec.toNat_ofNatLt]

/-- A lowercased character is never uppercase: the reason the
uppercase test on the previous content word in `_is_present_marker`
can never fire. -/
theorem lowerChar_not_upper (c : Char) : (lowerChar c).isUpper = false := by
  simp only [lowerChar, Char.toLower]
  split
  · rename_i h
    have hvalid : (c.toNat + 32).isValidChar := by
      left
      have := h.2
      omega
    have hval : (Char.ofNat (c.toNat + 32)).toNat = c.toNat + 32 := charOfNat_toNat hvalid
    simp only [Char.isUpper]
    rw [Bool.and_eq_false_iff]
    right
    simp only [decide_eq_false_iff_not]
    rw [uint32_le_iff_toNat_le]
    have h90 : (90 : UInt32).toNat = 90 := by decide
    rw [h90]
    have hv : (Char.ofNat (c.toNat + 32)).val.toNat = c.toNat + 32 := hval
    omega
  · rename_i h
    simp only [Char.toNat, not_and, not_le] at h
    simp only [Char.isUpper]
    rw [Bool.and_eq_false_iff]
    by_cases h65 : 65 ≤ c.val.toNat
    · right
      simp only [decide_eq_false_iff_not]
      rw [uint32_le_iff_toNat_le]
      have h90 : (90 : UInt32).toNat = 90 := by decide
      rw [h90]
      have := h h65
      omega
    · left
      simp only [decide_eq_false_iff_not, ge_iff_le]
      rw [uint32_le_iff_toNat_le]
      have h65n : (65 : UInt32).toNat = 65 := by decide
      rw [h65n]
      omega

theorem caseEquiv_lower {s1 s2 : List Char} (h : caseEquiv s1 s2) :
    ∀ i, lowerChar (s1.getD i ' ') = lowerChar (s2.getD i ' ') := by
  intro i
  by_cases hi : i < s1.length
  · rcases h.2 i hi with heq | ⟨_, _, hlow⟩
    · rw [heq]
    · exact hlow
  · have hl2 : s2.length ≤ i := by rw [← h.1]; omega
    rw [List.getD_eq_default _ _ (by omega), List.getD_eq_default _ _ hl2]

theorem charCaseEq_isTokChar {a b : Char} (h : charCaseEq a b) :
    isTokChar a = isTokChar b := by
  rcases h with heq | ⟨ha, hb, _⟩
  · rw [heq]
  · simp [isTokChar, ha, hb]

theorem charCaseEq_isWordChar {a b : Char} (h : charCaseEq a b) :
    isWordChar a = isWordChar b := by
  rcases h with heq | ⟨ha, hb, _⟩
  · rw [heq]
  · simp [isWordChar, Char.isAlphanum, ha, hb]

theorem caseEquiv_isTokChar {s1 s2 : List Char} (h : caseEquiv s1 s2) :
    ∀ i, isTokChar (s1.getD i ' ') = isTokChar (s2.getD i ' ') := by
  intro i
  by_cases hi : i < s1.length
  · exact charCaseEq_isTokChar (h.2 i hi)
  · have hl2 : s2.length ≤ i := by rw [← h.1]; omega
    rw [List.getD_eq_default _ _ (by omega), List.getD_eq_default _ _ hl2]

theorem caseEquiv_isWordChar {s1 s2 : List Char} (h : caseEquiv s1 s2) :
    ∀ i, isWordChar (s1.getD i ' ') = isWordChar (s2.getD i ' ') := by
  intro i
  by_cases hi : i < s1.length
  · exact charCaseEq_isWordChar (h.2 i hi)
  · have hl2 : s2.length ≤ i := by rw [← h.1]; omega
    rw [List.getD_eq_default _ _ (by omega), List.getD_eq_default _ _ hl2]

theorem getD_drop_add (s : List Char) (i k : Nat) :
    (s.drop i).getD k ' ' = s.getD (i + k) ' ' := by
  by_cases hik : i + k < s.length
  · have hk : k < (s.drop i).length := by simp; omega
    rw [List.getD_eq_getElem _ _ hk, List.getD_eq_getElem _ _ hik, List.getElem_drop]
  · rw [List.getD_eq_default, List.getD_eq_default]
    · omega
    · simp
      omega

theorem takeWhile_length_congr {p q : Char → Bool} :
    ∀ (l1 l2 : List Char), l1.length = l2.length →
      (∀ k, k < l1.length → p (l1.getD k ' ') = q (l2.getD k ' ')) →
      (l1.takeWhile p).length = (l2.takeWhile q).length := by
  intro l1
  induction l1 with
  | nil =>
    intro l2 hlen _
    cases l2 with
    | nil => rfl
    | cons b l2' => simp at hlen
  | cons a l1' ih =>
    intro l2 hlen hk
    cases l2 with
    | nil => simp at hlen
    | cons b l2' =>
      have h0 := hk 0 (by simp)
      simp only [List.getD_cons_zero] at h0
      simp only [List.takeWhile_cons, h0]
      split
      · simp only [List.length_cons, Nat.succ.injEq]
        refine ih l2' (by simpa using hlen) ?_
        intro k hk'
        have := hk (k + 1) (by simpa using Nat.succ_lt_succ hk')
        simpa using this
      · rfl

theorem wordAt_getD (s : List Char) (k : Nat) :
    wordAt s k = (decide (k < s.length) && isWordChar (s.getD k ' ')) := by
  simp only [wordAt]
  cases hg : s.get? k with
  | none =>
    rw [List.get?_eq_getElem?] at hg
    have := List.getElem?_eq_none_iff.mp hg
    simp [decide_eq_false (by omega : ¬ k < s.length)]
  | some c =>
    rw [List.get?_eq_getElem?] at hg
    have hlt := (List.getElem?_eq_some_iff.mp hg).1
    have : s.getD k ' ' = c := by
      rw [List.getD_eq_getElem _ _ hlt]
      exact (List.getElem?_eq_some_iff.mp hg).2
    rw [this, decide_eq_true hlt, Bool.true_and]

theorem wordAt_congr {s1 s2 : List Char} (h : caseEquiv s1 s2) :
    ∀ k, wordAt s1 k = wordAt s2 k := by
  intro k
  rw [wordAt_getD, wordAt_getD, h.1, caseEquiv_isWordChar h k]

theorem boundaryAt_congr {s1 s2 : List Char} (h : caseEquiv s1 s2) :
    ∀ k, boundaryAt s1 k = boundaryAt s2 k := by
  intro k
  simp only [boundaryAt, wordAt_congr h]

theorem tokRunLen_congr {s1 s2 : List Char} (h : caseEquiv s1 s2) :
    ∀ i, tokRunLen s1 i = tokRunLen s2 i := by
  intro i
  simp only [tokRunLen]
  refine takeWhile_length_congr (s1.drop i) (s2.drop i) (by simp [h.1]) ?_
  intro k _
  rw [getD_drop_add, getD_drop_add]
  exact caseEquiv_isTokChar h (i + k)

theorem tokEndDown_congr {s1 s2 : List Char} (h : caseEquiv s1 s2) :
    ∀ k i, tokEndDown s1 i k = tokEndDown s2 i k := by
  intro k
  induction k with
  | zero => intro i; rfl
  | succ k' ih =>
    intro i
    simp only [tokEndDown, boundaryAt_congr h, ih]

theorem tokMatchAt_eq (s : List Char) (i : Nat) :
    tokMatchAt s i =
      if i < s.length then
        if isTokChar (s.getD i ' ') && boundaryAt s i then
          match tokEndDown s i (tokRunLen s i) with
          | some j => some ⟨i, j, sliceOf s i j⟩
          | none => none
        else none
      else none := by
  simp only [tokMatchAt]
  cases hg : s.get? i with
  | none =>
    rw [List.get?_eq_getElem?, List.getElem?_eq_none_iff] at hg
    rw [if_neg (by omega)]
  | some c =>
    rw [List.get?_eq_getElem?] at hg
    have hlt := (List.getElem?_eq_some_iff.mp hg).1
    have hc : s.getD i ' ' = c := by
      rw [List.getD_eq_getElem _ _ hlt]
      exact (List.getElem?_eq_some_iff.mp hg).2
    rw [if_pos hlt, hc]

theorem tokMatchAt_congr {s1 s2 : List Char} (h : caseEquiv s1 s2) (i : Nat) :
    tokMatchAt s2 i = (tokMatchAt s1 i).map (reslice s2) := by
  rw [tokMatchAt_eq, tokMatchAt_eq]
  by_cases hi : i < s1.length
  · rw [if_pos hi, if_pos (by rw [← h.1]; exact hi)]
    rw [← caseEquiv_isTokChar h i, ← boundaryAt_congr h i, ← tokRunLen_congr h i,
        ← tokEndDown_congr h]
    split
    · split <;> rfl
    · rfl
  · rw [if_neg hi, if_neg (by rw [← h.1]; exact hi)]
    rfl

theorem tokenizeAux_congr {s1 s2 : List Char} (h : caseEquiv s1 s2) :
    ∀ fuel i, tokenizeAux s2 fuel i = (tokenizeAux s1 fuel i).map (reslice s2) := by
  intro fuel
  induction fuel with
  | zero => intro i; rfl
  | succ fuel' ih =>
    intro i
    simp only [tokenizeAux, ← h.1]
    by_cases hi : i < s1.length
    · rw [if_pos hi, if_pos hi]
      rw [tokMatchAt_congr h i]
      cases hm : tokMatchAt s1 i with
      | none => simp only [Option.map_none']; exact ih (i + 1)
      | some t =>
        simp only [Option.map_some', List.map_cons]
        rw [show (reslice s2 t).«end» = t.«end» from rfl, ih t.«end»]
    · rw [if_neg hi, if_neg hi]
      rfl

theorem tokenize_congr {s1 s2 : List Char} (h : caseEquiv s1 s2) :
    tokenize s2 = (tokenize s1).map (reslice s2) := by
  simp only [tokenize, ← h.1]
  exact tokenizeAux_congr h (s1.length + 1) 0

theorem lowerList_slice_congr {s1 s2 : List Char} (h : caseEquiv s1 s2)
    {a b : Nat} (hb : b ≤ s1.length) :
    lowerList (sliceOf s2 a b) = lowerList (sliceOf s1 a b) := by
  have hb2 : b ≤ s2.length := by rw [← h.1]; exact hb
  apply List.ext_getElem
  · simp [lowerList, sliceOf, h.1]
  · intro i h1 h2
    simp only [lowerList, List.getElem_map]
    have hi2 : i < (sliceOf s2 a b).length := by simpa [lowerList] using h1
    have hi1 : i < (sliceOf s1 a b).length := by simpa [lowerList] using h2
    have hk2 : i < b - a := by
      simp only [sliceOf, List.length_take, List.length_drop] at hi2
      omega
    have e2 : (sliceOf s2 a b)[i] = s2.getD (a + i) ' ' := by
      rw [← List.getD_eq_getElem _ ' ' hi2]
      exact sliceOf_getD hk2 hb2
    have e1 : (sliceOf s1 a b)[i] = s1.getD (a + i) ' ' := by
      rw [← List.getD_eq_getElem _ ' ' hi1]
      exact sliceOf_getD hk2 hb
    rw [e2, e1]
    exact (caseEquiv_lower h (a + i)).symm

theorem prevContentAux_congr {s2 : List Char} {tokens : List Tok}
    (hlow : ∀ t ∈ tokens, lowerList ((reslice s2 t).text) = lowerList t.text) :
    ∀ (steps j taken : Nat),
      prevContentAux (tokens.map (reslice s2)) steps taken j =
        prevContentAux tokens steps taken j := by
  intro steps j
  induction j with
  | zero => intro taken; rfl
  | succ j' ih =>
    intro taken
    simp only [prevContentAux, List.get?_map]
    cases hg : tokens.get? j' with
    | none => rfl
    | some t =>
      simp only [Option.map_some']
      rw [hlow t (List.get?_mem hg)]
      split
      · exact ih taken
      · split
        · rfl
        · exact ih (taken + 1)

theorem perfectAux_congr {s2 : List Char} {tokens : List Tok}
    (hlow : ∀ t ∈ tokens, lowerList ((reslice s2 t).text) = lowerList t.text) :
    ∀ (count j : Nat),
      perfectAux (tokens.map (reslice s2)) count j = perfectAux tokens count j := by
  intro count
  induction count with
  | zero => intro j; rfl
  | succ count' ih =>
    intro j
    cases j with
    | zero => rfl
    | succ j' =>
      simp only [perfectAux, List.get?_map]
      cases hg : tokens.get? j' with
      | none => rfl
      | some t =>
        simp only [Option.map_some']
        rw [hlow t (List.get?_mem hg)]
        split
        · exact ih j'
        · split
          · rfl
          · exact ih j'

theorem isPresentMarker_congr {s2 : List Char} {tokens : List Tok}
    (hlow : ∀ t ∈ tokens, lowerList ((reslice s2 t).text) = lowerList t.text)
    (w : List Char) (index : Nat) :
    isPresentMarker w (tokens.map (reslice s2)) index =
      isPresentMarker w tokens index := by
  simp only [isPresentMarker, previousContentWord, prevContentAux_congr hlow]

theorem isPastMarker_congr {s2 : List Char} {tokens : List Tok}
    (hlow : ∀ t ∈ tokens, lowerList ((reslice s2 t).text) = lowerList t.text)
    (w : List Char) (index : Nat) :
    isPastMarker w (tokens.map (reslice s2)) index = isPastMarker w tokens index := by
  simp only [isPastMarker, previousContentWord, isPartOfPerfectOrPassive,
    prevContentAux_congr hlow, perfectAux_congr hlow]

theorem classifyAux_congr {s2 : List Char} {tokens : List Tok}
    (hlow : ∀ t ∈ tokens, lowerList ((reslice s2 t).text) = lowerList t.text) :
    ∀ (ts : List Tok) (idx : Nat),
      (∀ t ∈ ts, lowerList ((reslice s2 t).text) = lowerList t.text) →
      classifyAux (tokens.map (reslice s2)) (ts.map (reslice s2)) idx =
        Option.map
          (fun pp => (pp.1.map (resliceMarker s2), pp.2.map (resliceMarker s2)))
          (classifyAux tokens ts idx) := by
  intro ts
  induction ts with
  | nil => intro idx _; rfl
  | cons t rest ih =>
    intro idx hts
    have ht0 := hts t (List.mem_cons_self _ _)
    have hts' : ∀ u ∈ rest, lowerList ((reslice s2 u).text) = lowerList u.text :=
      fun u hu => hts u (List.mem_cons_of_mem _ hu)
    simp only [List.map_cons, classifyAux, ht0, isPresentMarker_congr hlow,
      isPastMarker_congr hlow, ih (idx + 1) hts']
    cases hp : isPresentMarker (lowerList t.text) tokens idx with
    | none => rfl
    | some b =>
      cases b
      · cases hq : isPastMarker (lowerList t.text) tokens idx with
        | none => rfl
        | some b' =>
          cases b'
          · rfl
          · cases hrec : classifyAux tokens rest (idx + 1) with
            | none => rfl
            | some pp => rfl
      · cases hrec : classifyAux tokens rest (idx + 1) with
        | none => rfl
        | some pp => rfl

theorem sameClauseAux_congr {s2 : List Char} {tokens : List Tok}
    (hlow : ∀ t ∈ tokens, lowerList ((reslice s2 t).text) = lowerList t.text) :
    ∀ (count i : Nat),
      sameClauseAux (tokens.map (reslice s2)) i count = sameClauseAux tokens i count := by
  intro count
  induction count with
  | zero => intro i; rfl
  | succ count' ih =>
    intro i
    simp only [sameClauseAux, List.get?_map]
    cases hg : tokens.get? i with
    | none => rfl
    | some t =>
      simp only [Option.map_some']
      rw [hlow t (List.get?_mem hg)]
      split
      · rfl
      · exact ih (i + 1)

theorem markersInSameClause_congr {s2 : List Char} {tokens : List Tok}
    (hlow : ∀ t ∈ tokens, lowerList ((reslice s2 t).text) = lowerList t.text)
    (i j : Nat) :
    markersInSameClause (tokens.map (reslice s2)) i j =
      markersInSameClause tokens i j := by
  simp only [markersInSameClause, sameClauseAux_congr hlow]

theorem tenseInner_congr {s2 : List Char} {tokens : List Tok}
    (hlow : ∀ t ∈ tokens, lowerList ((reslice s2 t).text) = lowerList t.text)
    (p : Nat × Tok) :
    ∀ presents : List (Nat × Tok),
      tenseInner (tokens.map (reslice s2)) (resliceMarker s2 p)
          (presents.map (resliceMarker s2)) =
        Option.map
          (Option.map (fun pq => (resliceMarker s2 pq.1, resliceMarker s2 pq.2)))
          (tenseInner tokens p presents) := by
  intro presents
  induction presents with
  | nil => rfl
  | cons q rest ih =>
    simp only [List.map_cons, tenseInner,
      show (resliceMarker s2 p).1 = p.1 from rfl,
      show (resliceMarker s2 q).1 = q.1 from rfl,
      markersInSameClause_congr hlow, ih]
    cases hm : markersInSameClause tokens p.1 q.1 with
    | none => rfl
    | some b =>
      cases b
      · cases hrec : tenseInner tokens p rest with
        | none => rfl
        | some r => cases r <;> rfl
      · rfl

theorem tenseOuter_congr {s2 : List Char} {tokens : List Tok}
    (hlow : ∀ t ∈ tokens, lowerList ((reslice s2 t).text) = lowerList t.text)
    (presents : List (Nat × Tok)) :
    ∀ pasts : List (Nat × Tok),
      tenseOuter (tokens.map (reslice s2)) (presents.map (resliceMarker s2))
          (pasts.map (resliceMarker s2)) =
        Option.map
          (Option.map (fun pq => (resliceMarker s2 pq.1, resliceMarker s2 pq.2)))
          (tenseOuter tokens presents pasts) := by
  intro pasts
  induction pasts with
  | nil => rfl
  | cons p rest ih =>
    simp only [List.map_cons, tenseOuter, tenseInner_congr hlow, ih]
    cases hin : tenseInner tokens p presents with
    | none => rfl
    | some r =>
      cases r with
      | none =>
        cases hrec : tenseOuter tokens presents rest with
        | none => rfl
        | some r' => cases r' <;> rfl
      | some pair => rfl

theorem checkVerbTense_proj_congr {s1 s2 : List Char} (h : caseEquiv s1 s2)
    (offset : Nat) :
    (checkVerbTense s2 offset).map (List.map issueProj) =
      (checkVerbTense s1 offset).map (List.map issueProj) := by
  have hmapT : tokenize s2 = (tokenize s1).map (reslice s2) := tokenize_congr h
  have hlow : ∀ t ∈ tokenize s1,
      lowerList ((reslice s2 t).text) = lowerList t.text := by
    intro t ht
    obtain ⟨_, hble, htext⟩ := tokenize_bounds t ht
    show lowerList (sliceOf s2 t.start t.«end») = lowerList t.text
    rw [htext]
    exact lowerList_slice_congr h hble
  simp only [checkVerbTense, hmapT, List.length_map]
  split
  · rfl
  · rw [classifyAux_congr hlow (tokenize s1) 0 hlow]
    cases hcls : classifyAux (tokenize s1) (tokenize s1) 0 with
    | none => rfl
    | some pp =>
      obtain ⟨presents, pasts⟩ := pp
      simp only [Option.map_some']
      rw [show (presents.map (resliceMarker s2)).isEmpty = presents.isEmpty from by
            cases presents <;> rfl,
          show (pasts.map (resliceMarker s2)).isEmpty = pasts.isEmpty from by
            cases pasts <;> rfl]
      split
      · rw [tenseOuter_congr hlow presents pasts]
        cases hout : tenseOuter (tokenize s1) presents pasts with
        | none => rfl
        | some r =>
          cases r with
          | none => rfl
          | some pair => obtain ⟨pm, qm⟩ := pair; rfl
      · rfl

theorem prevContentAux_lowered {tokens : List Tok} {steps : Nat} :
    ∀ (j taken : Nat) (w : List Char),
      prevContentAux tokens steps taken j = some (some w) →
      ∃ t : Tok, w = lowerList t.text := by
  intro j
  induction j with
  | zero => intro taken w h; cases h
  | succ j' ih =>
    intro taken w h
    simp only [prevContentAux] at h
    split at h
    · cases h
    · rename_i t hg
      split at h
      · exact ih taken w h
      · split at h
        · exact ⟨t, (Option.some.inj (Option.some.inj h)).symm⟩
        · exact ih (taken + 1) w h

/-- C9: the verb-tense rule is case-insensitive — on two sentences
that differ only in letter case it produces issues with identical
rules, messages and spans — and the uppercase test on the previous
content word in `_is_present_marker` can never fire, because
`_previous_content_word` lowercases every candidate. -/
theorem c9_verb_tense_case_insensitive :
    (∀ s1 s2 offset, caseEquiv s1 s2 →
      (checkVerbTense s1 offset).map (List.map issueProj) =
        (checkVerbTense s2 offset).map (List.map issueProj)) ∧
    (∀ (tokens : List Tok) (index steps : Nat) (w : List Char),
      previousContentWord tokens index steps = some (some w) →
      ∀ c cs, w = c :: cs → c.isUpper = false) := by
  constructor
  · intro s1 s2 offset h
    exact (checkVerbTense_proj_congr h offset).symm
  · intro tokens index steps w h c cs hw
    obtain ⟨t, ht⟩ := prevContentAux_lowered index 0 w h
    rw [ht] at hw
    simp only [lowerList] at hw
    obtain ⟨c0, cs0, _, hc0, _⟩ := List.map_eq_cons_iff.mp hw
    rw [← hc0]
    exact lowerChar_not_upper c0

/-- Witness for `c9_verb_tense_case_insensitive` on a concrete
case-variant sentence pair and a concrete previous-content-word
computation. -/
theorem c9_verb_tense_case_insensitive_witness :
    ((checkVerbTense "It was nice and it is red.".data 0).map (List.map issueProj) =
      (checkVerbTense "IT WAS NICE AND IT IS RED.".data 0).map (List.map issueProj)) ∧
    (∀ c cs, (['w', 'a', 's'] : List Char) = c :: cs → c.isUpper = false) := by
  constructor
  · exact c9_verb_tense_case_insensitive.1 _ _ 0 (by decide)
  · have hw : previousContentWord (tokenize "He was here.".data) 2 1 =
        some (some ['w', 'a', 's']) := by decide
    exact c9_verb_tense_case_insensitive.2 _ 2 1 _ hw

/-!  ### C8: repeated-word runs

Under `PlainText` (letters and plain separators only) the regex word
boundaries and the `[A-Za-z']` token class coincide with letter runs,
and the repeated-word scanner finds exactly the maximal repeat runs of
whole words. -/

theorem lowerChar_isAlpha (c : Char) : (lowerChar c).isAlpha = c.isAlpha := by
  simp only [lowerChar, Char.toLower]
  split
  · rename_i h
    have hvalid : (c.toNat + 32).isValidChar := by
      left
      have := h.2
      omega
    have hval : (Char.ofNat (c.toNat + 32)).toNat = c.toNat + 32 := charOfNat_toNat hvalid
    have hv : (Char.ofNat (c.toNat + 32)).val.toNat = c.toNat + 32 := hval
    have hcv : c.toNat = c.val.toNat := rfl
    have hlow : (Char.ofNat (c.toNat + 32)).isLower = true := by
      simp only [Char.isLower]
      rw [Bool.and_eq_true, decide_eq_true_iff, decide_eq_true_iff]
      constructor
      · rw [ge_iff_le, uint32_le_iff_toNat_le]
        have h97 : (97 : UInt32).toNat = 97 := by decide
        rw [h97]
        omega
      · rw [uint32_le_iff_toNat_le]
        have h122 : (122 : UInt32).toNat = 122 := by decide
        rw [h122]
        omega
    have hupc : c.isUpper = true := by
      simp only [Char.isUpper]
      rw [Bool.and_eq_true, decide_eq_true_iff, decide_eq_true_iff]
      constructor
      · rw [ge_iff_le, uint32_le_iff_toNat_le]
        have h65 : (65 : UInt32).toNat = 65 := by decide
        rw [h65]
        omega
      · rw [uint32_le_iff_toNat_le]
        have h90 : (90 : UInt32).toNat = 90 := by decide
        rw [h90]
        omega
    simp [Char.isAlpha, hlow, hupc]
  · rfl

theorem pyIsSpace_not_alpha {c : Char} (h : pyIsSpace c = true) : c.isAlpha = false := by
  simp only [pyIsSpace, Bool.or_eq_true, beq_iff_eq] at h
  rcases h with ((((h | h) | h) | h) | h) | h <;> subst h <;> decide

theorem plainText_isTokChar {s : List Char} (h : PlainText s) :
    ∀ i, isTokChar (s.getD i ' ') = (s.getD i ' ').isAlpha := by
  intro i
  by_cases hi : i < s.length
  · have hmem : s.getD i ' ' ∈ s := by
      rw [List.getD_eq_getElem _ _ hi]
      exact List.getElem_mem hi
    have := h _ hmem
    simp only [plainChar, Bool.and_eq_true, beq_iff_eq] at this
    exact this.1
  · rw [List.getD_eq_default _ _ (by omega)]
    rfl

theorem plainText_isWordChar {s : List Char} (h : PlainText s) :
    ∀ i, isWordChar (s.getD i ' ') = (s.getD i ' ').isAlpha := by
  intro i
  by_cases hi : i < s.length
  · have hmem : s.getD i ' ' ∈ s := by
      rw [List.getD_eq_getElem _ _ hi]
      exact List.getElem_mem hi
    have := h _ hmem
    simp only [plainChar, Bool.and_eq_true, beq_iff_eq] at this
    exact this.2
  · rw [List.getD_eq_default _ _ (by omega)]
    rfl

theorem plain_boundary_start {s : List Char} (h : PlainText s) {k : Nat}
    (hk : k < s.length) (ha : (s.getD k ' ').isAlpha = true)
    (hprev : k = 0 ∨ (s.getD (k - 1) ' ').isAlpha = false) :
    boundaryAt s k = true := by
  have hw : ∀ i, wordAt s i = (decide (i < s.length) && (s.getD i ' ').isAlpha) := by
    intro i; rw [wordAt_getD, plainText_isWordChar h]
  simp only [boundaryAt, hw]
  rcases hprev with rfl | hprev
  · rw [if_pos rfl, decide_eq_true hk, ha]
    rfl
  · rcases Nat.eq_zero_or_pos k with rfl | hpos
    · rw [if_pos rfl, decide_eq_true hk, ha]
      rfl
    · rw [if_neg (by omega), decide_eq_true hk, ha, hprev, Bool.and_false]
      rfl

theorem plain_boundary_end {s : List Char} (h : PlainText s) {k : Nat}
    (hpos : 0 < k) (hk : k ≤ s.length)
    (ha : (s.getD (k - 1) ' ').isAlpha = true)
    (hnext : k = s.length ∨ (s.getD k ' ').isAlpha = false) :
    boundaryAt s k = true := by
  have hw : ∀ i, wordAt s i = (decide (i < s.length) && (s.getD i ' ').isAlpha) := by
    intro i; rw [wordAt_getD, plainText_isWordChar h]
  simp only [boundaryAt, hw]
  rw [if_neg (by omega), decide_eq_true (by omega : k - 1 < s.length), ha, Bool.true_and]
  rcases hnext with rfl | hnext
  · rw [decide_eq_false (by omega : ¬ s.length < s.length)]
    rfl
  · by_cases hkl : k < s.length
    · rw [decide_eq_true hkl, hnext, Bool.true_and]
      rfl
    · rw [decide_eq_false hkl]
      rfl

theorem plain_boundary_inside {s : List Char} (h : PlainText s) {k : Nat}
    (hpos : 0 < k) (hk : k < s.length)
    (ha1 : (s.getD (k - 1) ' ').isAlpha = true)
    (ha2 : (s.getD k ' ').isAlpha = true) :
    boundaryAt s k = false := by
  have hw : ∀ i, wordAt s i = (decide (i < s.length) && (s.getD i ' ').isAlpha) := by
    intro i; rw [wordAt_getD, plainText_isWordChar h]
  simp only [boundaryAt, hw]
  rw [if_neg (by omega), decide_eq_true (by omega : k - 1 < s.length), ha1,
    decide_eq_true hk, ha2]
  rfl

theorem takeWhile_length_eq {p : Char → Bool} :
    ∀ (l : List Char) (n : Nat), n ≤ l.length →
      (∀ k, k < n → p (l.getD k ' ') = true) →
      (n = l.length ∨ p (l.getD n ' ') = false) →
      (l.takeWhile p).length = n := by
  intro l
  induction l with
  | nil =>
    intro n hn _ _
    simp at hn
    simp [hn]
  | cons c l' ih =>
    intro n hn hall hstop
    cases n with
    | zero =>
      rcases hstop with h | h
      · simp at h
      · simp only [List.getD_cons_zero] at h
        simp [List.takeWhile_cons, h]
    | succ n' =>
      have hc : p c = true := by
        have := hall 0 (by omega)
        simpa using this
      rw [List.takeWhile_cons, if_pos hc, List.length_cons]
      congr 1
      refine ih n' (by simpa using hn) ?_ ?_
      · intro k hk
        have := hall (k + 1) (by omega)
        simpa using this
      · rcases hstop with h | h
        · left
          simpa using h
        · right
          simpa using h

theorem wordRuns_get?_sound {s : List Char} {k : Nat} {r : Nat × Nat}
    (h : (wordRuns s).get? k = some r) :
    r.1 < r.2 ∧ r.2 ≤ s.length ∧
    (∀ i, r.1 ≤ i → i < r.2 → isTokChar (s.getD i ' ') = true) ∧
    (r.1 = 0 ∨ isTokChar (s.getD (r.1 - 1) ' ') = false) ∧
    (r.2 = s.length ∨ isTokChar (s.getD r.2 ' ') = false) :=
  runsOf_sound _ s r (List.get?_mem h)

theorem wordRuns_order {s : List Char} {k m : Nat} {r r' : Nat × Nat}
    (hk : (wordRuns s).get? k = some r) (hm : (wordRuns s).get? m = some r')
    (hkm : k < m) : r.2 < r'.1 := by
  have hp : (wordRuns s).Pairwise (fun r1 r2 => r1.2 < r2.1) :=
    runsOf_pairwise isTokChar s
  rw [List.get?_eq_getElem?] at hk hm
  obtain ⟨hklen, hkv⟩ := List.getElem?_eq_some_iff.mp hk
  obtain ⟨hmlen, hmv⟩ := List.getElem?_eq_some_iff.mp hm
  have h1 : (wordRuns s).get ⟨k, hklen⟩ = r := by
    rw [List.get_eq_getElem]; exact hkv
  have h2 : (wordRuns s).get ⟨m, hmlen⟩ = r' := by
    rw [List.get_eq_getElem]; exact hmv
  have hrel := List.pairwise_iff_get.mp hp ⟨k, hklen⟩ ⟨m, hmlen⟩ hkm
  rw [h1, h2] at hrel
  exact hrel

theorem run_start_after {s : List Char} (hpl : PlainText s) {k : Nat}
    {rk : Nat × Nat} (hk : (wordRuns s).get? k = some rk) {q : Nat}
    (hgap : ∀ j, rk.2 ≤ j → j < q → pyIsSpace (s.getD j ' ') = true)
    (hq2 : rk.2 ≤ q) (hq3 : q < s.length)
    (hq4 : (s.getD q ' ').isAlpha = true) :
    ∃ r', (wordRuns s).get? (k + 1) = some r' ∧ r'.1 = q := by
  obtain ⟨hk1, hk2, hkc, hkl, hkr⟩ := wordRuns_get?_sound hk
  -- q is strictly past the end of run k
  have hqgt : rk.2 < q := by
    rcases Nat.eq_or_lt_of_le hq2 with heq | h
    · exfalso
      rcases hkr with h' | h'
      · omega
      · rw [plainText_isTokChar hpl] at h'
        rw [← heq] at hq4
        rw [hq4] at h'
        cases h'
    · exact h
  -- the maximal run containing q
  obtain ⟨r, hrmem, hr1, hr2⟩ := runsOf_complete isTokChar s q hq3
    (by rw [plainText_isTokChar hpl]; exact hq4)
  have hrmem' : r ∈ wordRuns s := hrmem
  obtain ⟨⟨m, hmlen⟩, hmv⟩ := List.mem_iff_get.mp hrmem'
  have hmget : (wordRuns s).get? m = some r := by
    rw [List.get?_eq_getElem?, List.getElem?_eq_some_iff]
    exact ⟨hmlen, hmv⟩
  obtain ⟨hm1, hm2, hmc, _, _⟩ := wordRuns_get?_sound hmget
  -- the run containing q starts exactly at q
  have hstart : r.1 = q := by
    by_contra hne
    have hlt : r.1 < q := by omega
    have hin : isTokChar (s.getD (q - 1) ' ') = true := hmc (q - 1) (by omega) (by omega)
    rw [plainText_isTokChar hpl] at hin
    have hws := hgap (q - 1) (by omega) (by omega)
    rw [pyIsSpace_not_alpha hws] at hin
    cases hin
  -- it is the next run after run k
  have hmk : k < m := by
    by_contra hle
    rcases Nat.eq_or_lt_of_le (Nat.le_of_not_lt hle) with heq | hlt
    · subst heq
      rw [hk] at hmget
      have := Option.some.inj hmget
      subst this
      omega
    · have := wordRuns_order hmget hk hlt
      omega
  have hm_eq : m = k + 1 := by
    by_contra hne
    have hlt : k + 1 < m := by omega
    obtain ⟨rk1, hk1get⟩ : ∃ rk1, (wordRuns s).get? (k + 1) = some rk1 :=
      Option.isSome_iff_exists.mp (by
        rw [List.get?_eq_getElem?]
        simp [List.getElem?_eq_getElem (by omega : k + 1 < (wordRuns s).length)])
    obtain ⟨hrk1a, hrk1b, hrk1c, _, _⟩ := wordRuns_get?_sound hk1get
    have ho1 := wordRuns_order hk hk1get (Nat.lt_succ_self k)
    have ho2 := wordRuns_order hk1get hmget hlt
    have halpha : isTokChar (s.getD rk1.1 ' ') = true := hrk1c rk1.1 (Nat.le_refl _) hrk1a
    rw [plainText_isTokChar hpl] at halpha
    have hws := hgap rk1.1 (by omega) (by omega)
    rw [pyIsSpace_not_alpha hws] at halpha
    cases halpha
  subst hm_eq
  exact ⟨r, hmget, hstart⟩

theorem gapAllWs_elim {s : List Char} {a b : Nat} (h : gapAllWs s a b = true)
    (hb : b ≤ s.length) :
    ∀ j, a ≤ j → j < b → pyIsSpace (s.getD j ' ') = true := by
  intro j hj1 hj2
  have hjlen : j - a < (sliceOf s a b).length := by
    simp only [sliceOf, List.length_take, List.length_drop]
    omega
  have hmem : (sliceOf s a b)[j - a] ∈ sliceOf s a b := List.getElem_mem hjlen
  have := List.all_eq_true.mp h _ hmem
  rw [← List.getD_eq_getElem _ ' ' hjlen, sliceOf_getD (by omega) hb] at this
  have hj : a + (j - a) = j := by omega
  rwa [hj] at this

theorem gapAllWs_intro {s : List Char} {a b : Nat} (hb : b ≤ s.length)
    (h : ∀ j, a ≤ j → j < b → pyIsSpace (s.getD j ' ') = true) :
    gapAllWs s a b = true := by
  rw [gapAllWs, List.all_eq_true]
  intro c hc
  obtain ⟨idx, hidx, hval⟩ := List.mem_iff_getElem.mp hc
  have hidx' : idx < b - a := by
    simp only [sliceOf, List.length_take, List.length_drop] at hidx
    omega
  rw [← List.getD_eq_getElem _ ' ' hidx, sliceOf_getD hidx' hb] at hval
  rw [← hval]
  exact h (a + idx) (by omega) (by omega)

theorem runsLinked_elim {s : List Char} {k : Nat} (h : runsLinked s k = true) :
    ∃ r1 r2, (wordRuns s).get? k = some r1 ∧ (wordRuns s).get? (k + 1) = some r2 ∧
      lowerList (sliceOf s r1.1 r1.2) = lowerList (sliceOf s r2.1 r2.2) ∧
      gapAllWs s r1.2 r2.1 = true := by
  unfold runsLinked at h
  split at h
  · rename_i r1 r2 h1 h2
    rw [Bool.and_eq_true, beq_iff_eq] at h
    exact ⟨r1, r2, h1, h2, h.1, h.2⟩
  · cases h

theorem runsLinked_intro {s : List Char} {k : Nat} {r1 r2 : Nat × Nat}
    (h1 : (wordRuns s).get? k = some r1) (h2 : (wordRuns s).get? (k + 1) = some r2)
    (hlow : lowerList (sliceOf s r1.1 r1.2) = lowerList (sliceOf s r2.1 r2.2))
    (hgap : gapAllWs s r1.2 r2.1 = true) :
    runsLinked s k = true := by
  unfold runsLinked
  rw [h1, h2, Bool.and_eq_true, beq_iff_eq]
  exact ⟨hlow, hgap⟩

theorem alpha_not_space {c : Char} (h : c.isAlpha = true) : pyIsSpace c = false := by
  cases hs : pyIsSpace c
  · rfl
  · rw [pyIsSpace_not_alpha hs] at h
    cases h

theorem lowerList_length (l : List Char) : (lowerList l).length = l.length := by
  simp [lowerList]

theorem map_getD_lt {f : Char → Char} {l : List Char} {k : Nat} (hk : k < l.length) :
    (l.map f).getD k ' ' = f (l.getD k ' ') := by
  rw [List.getD_eq_getElem _ _ (by simpa using hk), List.getD_eq_getElem _ _ hk,
    List.getElem_map]

theorem lowerList_getD_eq {l1 l2 : List Char} (h : lowerList l1 = lowerList l2)
    {k : Nat} (hk : k < l1.length) :
    lowerChar (l1.getD k ' ') = lowerChar (l2.getD k ' ') := by
  have hlen : l1.length = l2.length := by
    have := congrArg List.length h
    simpa [lowerList] using this
  have hg := congrArg (fun l => l.getD k ' ') h
  simp only [lowerList] at hg
  rw [map_getD_lt hk, map_getD_lt (by omega)] at hg
  exact hg

theorem wsRunLen_eq {s : List Char} {p n : Nat} (hpn : p + n ≤ s.length)
    (hall : ∀ j, p ≤ j → j < p + n → pyIsSpace (s.getD j ' ') = true)
    (hstop : p + n = s.length ∨ pyIsSpace (s.getD (p + n) ' ') = false) :
    wsRunLen s p = n := by
  unfold wsRunLen
  refine takeWhile_length_eq (s.drop p) n (by simp; omega) ?_ ?_
  · intro k hk
    rw [getD_drop_add]
    exact hall (p + k) (by omega) (by omega)
  · rcases hstop with h | h
    · left
      simp
      omega
    · right
      rw [getD_drop_add]
      exact h

theorem tokRunLen_eq {s : List Char} {p n : Nat} (hpn : p + n ≤ s.length)
    (hall : ∀ j, p ≤ j → j < p + n → isTokChar (s.getD j ' ') = true)
    (hstop : p + n = s.length ∨ isTokChar (s.getD (p + n) ' ') = false) :
    tokRunLen s p = n := by
  unfold tokRunLen
  refine takeWhile_length_eq (s.drop p) n (by simp; omega) ?_ ?_
  · intro k hk
    rw [getD_drop_add]
    exact hall (p + k) (by omega) (by omega)
  · rcases hstop with h | h
    · left
      simp
      omega
    · right
      rw [getD_drop_add]
      exact h

theorem wsRunLen_le (s : List Char) (p : Nat) : wsRunLen s p ≤ s.length - p := by
  have := takeWhile_length_le pyIsSpace (s.drop p)
  simpa [wsRunLen] using this

theorem wsRunLen_sat {s : List Char} {p : Nat} :
    ∀ k, k < wsRunLen s p → pyIsSpace (s.getD (p + k) ' ') = true := by
  intro k hk
  have := takeWhile_sat pyIsSpace (s.drop p) k hk
  rwa [getD_drop_add] at this

theorem wsRunLen_stop {s : List Char} {p : Nat}
    (h : p + wsRunLen s p < s.length) :
    pyIsSpace (s.getD (p + wsRunLen s p) ' ') = false := by
  have hlt : wsRunLen s p < (s.drop p).length := by simp; omega
  have := takeWhile_stop pyIsSpace (s.drop p) hlt
  rwa [getD_drop_add] at this

theorem chain_lower_eq {s : List Char} {c : Nat} :
    ∀ k, c ≤ k →
      (∀ j, c ≤ j → j < k → runsLinked s j = true) →
      ∀ {rc rk : Nat × Nat}, (wordRuns s).get? c = some rc →
        (wordRuns s).get? k = some rk →
        lowerList (sliceOf s rc.1 rc.2) = lowerList (sliceOf s rk.1 rk.2) := by
  intro k
  induction k with
  | zero =>
    intro hc _ rc rk hrc hrk
    have hc0 : c = 0 := by omega
    subst hc0
    rw [hrc] at hrk
    rw [Option.some.inj hrk]
  | succ k' ih =>
    intro hc hlinks rc rk hrc hrk
    rcases Nat.eq_or_lt_of_le hc with heq | hlt
    · rw [heq] at hrc
      rw [hrc] at hrk
      rw [Option.some.inj hrk]
    · have hlink := hlinks k' (by omega) (by omega)
      obtain ⟨r1, r2, h1, h2, hlow, _⟩ := runsLinked_elim hlink
      have hr2 : r2 = rk := by
        rw [h2] at hrk
        exact Option.some.inj hrk
      subst hr2
      have := ih (by omega) (fun j hj1 hj2 => hlinks j hj1 (by omega)) hrc h1
      rw [this, hlow]

theorem ciMatchAt_intro {s w : List Char} {q : Nat} (hlen : q + w.length ≤ s.length)
    (heq : lowerList (sliceOf s q (q + w.length)) = lowerList w) :
    ciMatchAt s w q = true := by
  simp only [ciMatchAt, Bool.and_eq_true, beq_iff_eq, decide_eq_true_iff]
  exact ⟨heq, hlen⟩

theorem ciMatchAt_elim {s w : List Char} {q : Nat} (h : ciMatchAt s w q = true) :
    lowerList (sliceOf s q (q + w.length)) = lowerList w ∧ q + w.length ≤ s.length := by
  simp only [ciMatchAt, Bool.and_eq_true, beq_iff_eq, decide_eq_true_iff] at h
  exact h

theorem repsFail {s : List Char} (hpl : PlainText s) {c d : Nat} {rc rd : Nat × Nat}
    (hrc : (wordRuns s).get? c = some rc) (hrd : (wordRuns s).get? d = some rd)
    (hchain : lowerList (sliceOf s rc.1 rc.2) = lowerList (sliceOf s rd.1 rd.2))
    (hnolink : runsLinked s d = false) :
    ∀ fuel, repsFrom s (sliceOf s rc.1 rc.2) fuel rd.2 = none := by
  intro fuel
  cases fuel with
  | zero => rfl
  | succ fuel' =>
    obtain ⟨hc1, hc2, hcc, _, _⟩ := wordRuns_get?_sound hrc
    obtain ⟨hd1, hd2, hdc, _, hdr⟩ := wordRuns_get?_sound hrd
    set w := sliceOf s rc.1 rc.2 with hw
    have hwlen : w.length = rc.2 - rc.1 := by
      rw [hw]
      have := sliceOf_length (s := s) (a := rc.1) (b := rc.2) (by omega) hc2
      omega
    have hwpos : 1 ≤ w.length := by omega
    have hwalpha : ∀ idx, idx < w.length → (w.getD idx ' ').isAlpha = true := by
      intro idx hidx
      rw [hw, sliceOf_getD (by omega) hc2]
      have := hcc (rc.1 + idx) (by omega) (by omega)
      rwa [plainText_isTokChar hpl] at this
    simp only [repsFrom]
    by_cases hq0 : rd.2 + wsRunLen s rd.2 = rd.2
    · rw [if_pos hq0]
    · rw [if_neg hq0]
      have hqle : rd.2 + wsRunLen s rd.2 ≤ s.length := by
        have := wsRunLen_le s rd.2
        omega
      have hws : ∀ j, rd.2 ≤ j → j < rd.2 + wsRunLen s rd.2 →
          pyIsSpace (s.getD j ' ') = true := by
        intro j hj1 hj2
        have hsat := wsRunLen_sat (s := s) (p := rd.2) (j - rd.2) (by omega)
        have heq : rd.2 + (j - rd.2) = j := by omega
        rwa [heq] at hsat
      have hcond : (ciMatchAt s w (rd.2 + wsRunLen s rd.2) &&
          boundaryAt s (rd.2 + wsRunLen s rd.2 + w.length)) = false := by
        by_cases hqlen : rd.2 + wsRunLen s rd.2 = s.length
        · rw [Bool.and_eq_false_iff]
          left
          cases hci : ciMatchAt s w (rd.2 + wsRunLen s rd.2)
          · rfl
          · exfalso
            have := (ciMatchAt_elim hci).2
            omega
        · have hqlt : rd.2 + wsRunLen s rd.2 < s.length := by omega
          have hqnotws : pyIsSpace (s.getD (rd.2 + wsRunLen s rd.2) ' ') = false :=
            wsRunLen_stop (by omega)
          by_cases hqalpha : (s.getD (rd.2 + wsRunLen s rd.2) ' ').isAlpha = true
          · obtain ⟨r', hr'get, hr'start⟩ :=
              run_start_after hpl hrd hws (by omega) hqlt hqalpha
            obtain ⟨hr'1, hr'2, hr'c, _, hr'r⟩ := wordRuns_get?_sound hr'get
            have hgap : gapAllWs s rd.2 r'.1 = true := by
              apply gapAllWs_intro (by omega)
              intro j hj1 hj2
              rw [hr'start] at hj2
              exact hws j hj1 hj2
            have hcineq : lowerList (sliceOf s rd.1 rd.2) ≠
                lowerList (sliceOf s r'.1 r'.2) := by
              intro heq
              have hl := runsLinked_intro hrd hr'get heq hgap
              rw [hl] at hnolink
              cases hnolink
            rcases Nat.lt_trichotomy w.length (r'.2 - r'.1) with hlt | heqL | hgt
            · rw [Bool.and_eq_false_iff]
              right
              apply plain_boundary_inside hpl (by omega) (by omega)
              · have hin := hr'c (rd.2 + wsRunLen s rd.2 + w.length - 1)
                  (by omega) (by omega)
                rwa [plainText_isTokChar hpl] at hin
              · have hin := hr'c (rd.2 + wsRunLen s rd.2 + w.length)
                  (by omega) (by omega)
                rwa [plainText_isTokChar hpl] at hin
            · rw [Bool.and_eq_false_iff]
              left
              cases hci : ciMatchAt s w (rd.2 + wsRunLen s rd.2)
              · rfl
              · exfalso
                obtain ⟨hcieq, hcilen⟩ := ciMatchAt_elim hci
                apply hcineq
                have hsl : sliceOf s r'.1 r'.2 =
                    sliceOf s (rd.2 + wsRunLen s rd.2)
                      (rd.2 + wsRunLen s rd.2 + w.length) := by
                  rw [hr'start]
                  congr 1
                  omega
                rw [hsl, hcieq]
                exact hchain.symm
            · rw [Bool.and_eq_false_iff]
              left
              cases hci : ciMatchAt s w (rd.2 + wsRunLen s rd.2)
              · rfl
              · exfalso
                obtain ⟨hcieq, hcilen⟩ := ciMatchAt_elim hci
                have hnotalpha : (s.getD r'.2 ' ').isAlpha = false := by
                  rcases hr'r with h | h
                  · rw [h, List.getD_eq_default _ _ (Nat.le_refl _)]
                    rfl
                  · rwa [plainText_isTokChar hpl] at h
                have hslice_len :
                    (sliceOf s (rd.2 + wsRunLen s rd.2)
                      (rd.2 + wsRunLen s rd.2 + w.length)).length = w.length := by
                  have := sliceOf_length (s := s) (a := rd.2 + wsRunLen s rd.2)
                    (b := rd.2 + wsRunLen s rd.2 + w.length) (by omega) hcilen
                  omega
                have hpt := lowerList_getD_eq hcieq (k := r'.2 - r'.1)
                  (by rw [hslice_len]; omega)
                rw [sliceOf_getD (by omega) hcilen] at hpt
                have hqL : rd.2 + wsRunLen s rd.2 + (r'.2 - r'.1) = r'.2 := by omega
                rw [hqL] at hpt
                have h1 : (lowerChar (s.getD r'.2 ' ')).isAlpha = false := by
                  rw [lowerChar_isAlpha]
                  exact hnotalpha
                have h2 : (lowerChar (w.getD (r'.2 - r'.1) ' ')).isAlpha = true := by
                  rw [lowerChar_isAlpha]
                  exact hwalpha (r'.2 - r'.1) (by omega)
                rw [hpt] at h1
                rw [h1] at h2
                cases h2
          · rw [Bool.and_eq_false_iff]
            left
            cases hci : ciMatchAt s w (rd.2 + wsRunLen s rd.2)
            · rfl
            · exfalso
              obtain ⟨hcieq, hcilen⟩ := ciMatchAt_elim hci
              have hslice_len :
                  (sliceOf s (rd.2 + wsRunLen s rd.2)
                    (rd.2 + wsRunLen s rd.2 + w.length)).length = w.length := by
                have := sliceOf_length (s := s) (a := rd.2 + wsRunLen s rd.2)
                  (b := rd.2 + wsRunLen s rd.2 + w.length) (by omega) hcilen
                omega
              have hpt := lowerList_getD_eq hcieq (k := 0)
                (by rw [hslice_len]; omega)
              rw [sliceOf_getD (by omega) hcilen] at hpt
              rw [Nat.add_zero] at hpt
              have hqa : (s.getD (rd.2 + wsRunLen s rd.2) ' ').isAlpha = false :=
                Bool.eq_false_iff.mpr hqalpha
              have h1 : (lowerChar (s.getD (rd.2 + wsRunLen s rd.2) ' ')).isAlpha = false := by
                rw [lowerChar_isAlpha]
                exact hqa
              have h2 : (lowerChar (w.getD 0 ' ')).isAlpha = true := by
                rw [lowerChar_isAlpha]
                exact hwalpha 0 (by omega)
              rw [hpt] at h1
              rw [h1] at h2
              cases h2
      rw [hcond]
      rfl

theorem repsSucceed {s : List Char} (hpl : PlainText s) {c d : Nat} {rc rd : Nat × Nat}
    (hrc : (wordRuns s).get? c = some rc) (hrd : (wordRuns s).get? d = some rd)
    (hlink : ∀ k, k < d → c ≤ k → runsLinked s k = true)
    (hnolink : runsLinked s d = false) :
    ∀ fuel k rk, c ≤ k → k < d → (wordRuns s).get? k = some rk →
      d - k ≤ fuel → repsFrom s (sliceOf s rc.1 rc.2) fuel rk.2 = some rd.2 := by
  intro fuel
  induction fuel with
  | zero =>
    intro k rk _ hkd _ hf
    omega
  | succ fuel' ih =>
    intro k rk hck hkd hrk hf
    obtain ⟨hc1, hc2, _, _, _⟩ := wordRuns_get?_sound hrc
    have hlinkk : runsLinked s k = true := hlink k hkd hck
    obtain ⟨r1, r2, hr1, hr2, hlow12, hgap12⟩ := runsLinked_elim hlinkk
    rw [hrk] at hr1
    have hrr : rk = r1 := Option.some.inj hr1
    subst hrr
    obtain ⟨hk1, hk2, hkc, _, _⟩ := wordRuns_get?_sound hrk
    obtain ⟨h21, h22, h2c, _, h2r⟩ := wordRuns_get?_sound hr2
    have horder : rk.2 < r2.1 := wordRuns_order hrk hr2 (Nat.lt_succ_self k)
    have hwsr : wsRunLen s rk.2 = r2.1 - rk.2 := by
      apply wsRunLen_eq (by omega)
      · intro j hj1 hj2
        exact gapAllWs_elim hgap12 (by omega) j hj1 (by omega)
      · right
        have heq : rk.2 + (r2.1 - rk.2) = r2.1 := by omega
        rw [heq]
        apply alpha_not_space
        have := h2c r2.1 (Nat.le_refl _) h21
        rwa [plainText_isTokChar hpl] at this
    set w := sliceOf s rc.1 rc.2 with hw
    have hwlen : w.length = rc.2 - rc.1 := by
      rw [hw]
      have := sliceOf_length (s := s) (a := rc.1) (b := rc.2) (by omega) hc2
      omega
    have hchk1 : lowerList w = lowerList (sliceOf s r2.1 r2.2) := by
      rw [hw]
      exact chain_lower_eq (k + 1) (by omega)
        (fun j hj1 hj2 => hlink j (by omega) hj1) hrc hr2
    have hchd : lowerList w = lowerList (sliceOf s rd.1 rd.2) := by
      rw [hw]
      exact chain_lower_eq d (by omega) (fun j hj1 hj2 => hlink j hj2 hj1) hrc hrd
    have hlen2 : r2.2 - r2.1 = w.length := by
      have h1 := congrArg List.length hchk1
      rw [lowerList_length, lowerList_length] at h1
      have h2 := sliceOf_length (s := s) (a := r2.1) (b := r2.2) (by omega) h22
      omega
    simp only [repsFrom]
    have hq : rk.2 + wsRunLen s rk.2 = r2.1 := by
      rw [hwsr]
      omega
    rw [hq]
    rw [if_neg (by omega : ¬ r2.1 = rk.2)]
    have hspan : r2.1 + w.length = r2.2 := by omega
    have hci : ciMatchAt s w r2.1 = true := by
      apply ciMatchAt_intro (by omega)
      rw [hspan]
      exact hchk1.symm
    have hb : boundaryAt s (r2.1 + w.length) = true := by
      rw [hspan]
      apply plain_boundary_end hpl (by omega) h22
      · have := h2c (r2.2 - 1) (by omega) (by omega)
        rwa [plainText_isTokChar hpl] at this
      · rcases h2r with h | h
        · left
          exact h
        · right
          rwa [plainText_isTokChar hpl] at h
    rw [hci, hb]
    rw [if_pos (by rfl)]
    rw [hspan]
    by_cases hkd1 : k + 1 = d
    · have hr2d : r2 = rd := by
        rw [hkd1] at hr2
        rw [hr2] at hrd
        exact Option.some.inj hrd
      have hfail := repsFail hpl hrc hrd
        (by rw [← hw]; exact hchd) hnolink fuel'
      rw [hr2d, hw, hfail]
    · have hnext := ih (k + 1) r2 (by omega) (by omega) hr2 (by omega)
      rw [hnext]

theorem run_start_ge {s : List Char} : ∀ k rk, (wordRuns s).get? k = some rk → k ≤ rk.1 := by
  intro k
  induction k with
  | zero =>
    intro rk _
    exact Nat.zero_le _
  | succ n ih =>
    intro rk hk
    have hlen : n + 1 < (wordRuns s).length := by
      rw [List.get?_eq_getElem?] at hk
      exact (List.getElem?_eq_some_iff.mp hk).1
    have hn : (wordRuns s).get? n = some ((wordRuns s).get ⟨n, by omega⟩) := by
      rw [List.get?_eq_getElem?, List.getElem?_eq_getElem (by omega), List.get_eq_getElem]
    have hge := ih _ hn
    have horder := wordRuns_order hn hk (Nat.lt_succ_self n)
    have hlt := (wordRuns_get?_sound hn).1
    omega

theorem runsLinked_ge_length {s : List Char} {k : Nat}
    (h : (wordRuns s).length ≤ k) : runsLinked s k = false := by
  unfold runsLinked
  have hn : (wordRuns s).get? k = none := by
    rw [List.get?_eq_getElem?, List.getElem?_eq_none_iff]
    exact h
  rw [hn]

theorem runsLinked_lt_length {s : List Char} {k : Nat} (h : runsLinked s k = true) :
    k < (wordRuns s).length := by
  obtain ⟨r1, r2, h1, _, _, _⟩ := runsLinked_elim h
  rw [List.get?_eq_getElem?] at h1
  exact (List.getElem?_eq_some_iff.mp h1).1

theorem exists_chain_end_aux {s : List Char} :
    ∀ fuel k, (wordRuns s).length ≤ k + fuel →
      ∃ d, k ≤ d ∧ (∀ j, k ≤ j → j < d → runsLinked s j = true) ∧
        runsLinked s d = false := by
  intro fuel
  induction fuel with
  | zero =>
    intro k hk
    exact ⟨k, Nat.le_refl _, fun j hj1 hj2 => absurd hj2 (by omega),
      runsLinked_ge_length (by omega)⟩
  | succ fuel' ih =>
    intro k hk
    cases hl : runsLinked s k
    · exact ⟨k, Nat.le_refl _, fun j hj1 hj2 => absurd hj2 (by omega), hl⟩
    · have hklen := runsLinked_lt_length hl
      obtain ⟨d, hd1, hd2, hd3⟩ := ih (k + 1) (by omega)
      refine ⟨d, by omega, ?_, hd3⟩
      intro j hj1 hj2
      rcases Nat.eq_or_lt_of_le hj1 with heq | hlt
      · rw [← heq]
        exact hl
      · exact hd2 j (by omega) hj2

theorem exists_chain_end {s : List Char} (k : Nat) :
    ∃ d, k ≤ d ∧ (∀ j, k ≤ j → j < d → runsLinked s j = true) ∧
      runsLinked s d = false :=
  exists_chain_end_aux (wordRuns s).length k (by omega)

theorem exists_chain_start {s : List Char} :
    ∀ k, ∃ c, c ≤ k ∧ (∀ j, c ≤ j → j < k → runsLinked s j = true) ∧
      (c = 0 ∨ runsLinked s (c - 1) = false) := by
  intro k
  induction k with
  | zero => exact ⟨0, Nat.le_refl _, fun j h1 h2 => absurd h2 (by omega), Or.inl rfl⟩
  | succ n ih =>
    cases hl : runsLinked s n
    · exact ⟨n + 1, Nat.le_refl _, fun j h1 h2 => absurd h2 (by omega), Or.inr hl⟩
    · obtain ⟨c, hc1, hc2, hc3⟩ := ih
      refine ⟨c, by omega, ?_, hc3⟩
      intro j hj1 hj2
      rcases Nat.lt_or_ge j n with h | h
      · exact hc2 j hj1 h
      · have hjn : j = n := by omega
        rw [hjn]
        exact hl

theorem repeat_run_unique_end {s : List Char} {c d d' : Nat}
    (h1 : IsRepeatRun s c d) (h2 : IsRepeatRun s c d') : d = d' := by
  obtain ⟨hcd, _, hch1, _, hf1⟩ := h1
  obtain ⟨hcd', _, hch2, _, hf2⟩ := h2
  rcases Nat.lt_trichotomy d d' with h | h | h
  · have ht := hch2 d h (Nat.le_of_lt hcd)
    rw [hf1] at ht
    cases ht
  · exact h
  · have ht := hch1 d' h (Nat.le_of_lt hcd')
    rw [hf2] at ht
    cases ht

theorem repeat_run_disjoint {s : List Char} {c d c' d' : Nat}
    (h1 : IsRepeatRun s c d) (h2 : IsRepeatRun s c' d') (hlt : c < c') : d < c' := by
  by_contra hnd
  obtain ⟨hcd, _, hch, _, _⟩ := h1
  obtain ⟨_, _, _, hlm, _⟩ := h2
  have hl : runsLinked s (c' - 1) = true := hch (c' - 1) (by omega) (by omega)
  rcases hlm with h0 | hf
  · omega
  · rw [hl] at hf
    cases hf

theorem repMatch_at_run_start {s : List Char} (hpl : PlainText s) {k : Nat}
    {rk : Nat × Nat} (hk : (wordRuns s).get? k = some rk) :
    repMatchAt s rk.1 =
      (match repsFrom s (sliceOf s rk.1 rk.2) (s.length + 1) rk.2 with
        | some e => some (e, sliceOf s rk.1 rk.2)
        | none => none) := by
  obtain ⟨hk1, hk2, hkc, hkl, hkr⟩ := wordRuns_get?_sound hk
  have hlt : rk.1 < s.length := by omega
  have hget : s.get? rk.1 = some (s.getD rk.1 ' ') := by
    rw [List.get?_eq_getElem?, List.getElem?_eq_getElem hlt]
    rw [List.getD_eq_getElem _ ' ' hlt]
  have htok : isTokChar (s.getD rk.1 ' ') = true := hkc rk.1 (Nat.le_refl _) hk1
  have hbs : boundaryAt s rk.1 = true := by
    apply plain_boundary_start hpl hlt
    · have := hkc rk.1 (Nat.le_refl _) hk1
      rwa [plainText_isTokChar hpl] at this
    · rcases hkl with h | h
      · left
        exact h
      · right
        rwa [plainText_isTokChar hpl] at h
  have htr : tokRunLen s rk.1 = rk.2 - rk.1 := by
    apply tokRunLen_eq (by omega)
    · intro j hj1 hj2
      exact hkc j hj1 (by omega)
    · have h' : rk.1 + (rk.2 - rk.1) = rk.2 := by omega
      rw [h']
      exact hkr
  have hbe : boundaryAt s rk.2 = true := by
    apply plain_boundary_end hpl (by omega) hk2
    · have := hkc (rk.2 - 1) (by omega) (by omega)
      rwa [plainText_isTokChar hpl] at this
    · rcases hkr with h | h
      · left
        exact h
      · right
        rwa [plainText_isTokChar hpl] at h
  have harith : rk.1 + (rk.2 - rk.1) = rk.2 := by omega
  simp only [repMatchAt, hget]
  rw [htok, hbs]
  rw [if_pos (by rfl : (true && true) = true)]
  rw [htr, harith, hbe]
  rw [if_pos (by rfl : true = true)]

theorem repMatch_of_run {s : List Char} (hpl : PlainText s) {c d : Nat} {rc rd : Nat × Nat}
    (hrun : IsRepeatRun s c d) (hrc : (wordRuns s).get? c = some rc)
    (hrd : (wordRuns s).get? d = some rd) :
    repMatchAt s rc.1 = some (rd.2, sliceOf s rc.1 rc.2) := by
  obtain ⟨hcd, hdlen, hchain, hleft, hnolink⟩ := hrun
  rw [repMatch_at_run_start hpl hrc]
  have hge := run_start_ge d rd hrd
  have hd2 := (wordRuns_get?_sound hrd).2.1
  have hd1 := (wordRuns_get?_sound hrd).1
  have hsucc := repsSucceed hpl hrc hrd hchain hnolink (s.length + 1) c rc
    (Nat.le_refl _) hcd hrc (by omega)
  rw [hsucc]

theorem repMatch_none_nolink {s : List Char} (hpl : PlainText s) {k : Nat}
    {rk : Nat × Nat} (hk : (wordRuns s).get? k = some rk)
    (hnolink : runsLinked s k = false) :
    repMatchAt s rk.1 = none := by
  rw [repMatch_at_run_start hpl hk]
  have hfail := repsFail hpl hk hk rfl hnolink (s.length + 1)
  rw [hfail]

theorem repMatch_none_of_nontok {s : List Char} {i : Nat}
    (htok : isTokChar (s.getD i ' ') = false) :
    repMatchAt s i = none := by
  unfold repMatchAt
  cases hg : s.get? i with
  | none => rfl
  | some c0 =>
    have hc0 : c0 = s.getD i ' ' := by
      rw [List.get?_eq_getElem?] at hg
      obtain ⟨hlt, hv⟩ := List.getElem?_eq_some_iff.mp hg
      rw [List.getD_eq_getElem _ ' ' hlt]
      exact hv.symm
    subst hc0
    simp only [htok, Bool.false_and]
    rfl

theorem repMatch_none_inside {s : List Char} (hpl : PlainText s) {i : Nat}
    (hi : i < s.length) (h0 : 0 < i)
    (ha1 : (s.getD (i - 1) ' ').isAlpha = true)
    (ha2 : (s.getD i ' ').isAlpha = true) :
    repMatchAt s i = none := by
  have hb := plain_boundary_inside hpl h0 hi ha1 ha2
  unfold repMatchAt
  cases hg : s.get? i with
  | none => rfl
  | some c0 =>
    simp [hb]

theorem pos_in_run {s : List Char} {i : Nat} (hi : i < s.length)
    (htok : isTokChar (s.getD i ' ') = true) :
    ∃ k rk, (wordRuns s).get? k = some rk ∧ rk.1 ≤ i ∧ i < rk.2 := by
  obtain ⟨r, hr, h1, h2⟩ := runsOf_complete isTokChar s i hi htok
  obtain ⟨⟨k, hklt⟩, hkv⟩ := List.mem_iff_get.mp hr
  refine ⟨k, r, ?_, h1, h2⟩
  show (runsOf isTokChar s).get? k = some r
  rw [List.get?_eq_getElem?, List.getElem?_eq_getElem hklt]
  have hv : (runsOf isTokChar s)[k] = r := hkv
  rw [hv]

theorem repsFrom_gt {s w : List Char} :
    ∀ fuel p e, repsFrom s w fuel p = some e → p < e ∧ e ≤ s.length := by
  intro fuel
  induction fuel with
  | zero =>
    intro p e h
    cases h
  | succ fuel' ih =>
    intro p e h
    simp only [repsFrom] at h
    split at h
    · cases h
    · rename_i hq
      split at h
      · rename_i hcond
        rw [Bool.and_eq_true] at hcond
        have hlen := (ciMatchAt_elim hcond.1).2
        have hwspos : p < p + wsRunLen s p := by
          rcases Nat.eq_zero_or_pos (wsRunLen s p) with h0 | h0
          · exfalso
            apply hq
            omega
          · omega
        split at h
        · rename_i e' hrec
          have hih := ih _ _ hrec
          have he : e' = e := Option.some.inj h
          omega
        · have he : p + wsRunLen s p + w.length = e := Option.some.inj h
          omega
      · cases h

theorem repsFrom_structure {s : List Char} (hpl : PlainText s) {w : List Char}
    (hwpos : 1 ≤ w.length)
    (hwalpha : ∀ idx, idx < w.length → (w.getD idx ' ').isAlpha = true) :
    ∀ fuel k rk e, (wordRuns s).get? k = some rk →
      lowerList w = lowerList (sliceOf s rk.1 rk.2) →
      s.length + 1 ≤ fuel + rk.2 →
      repsFrom s w fuel rk.2 = some e →
      ∃ d rd, (wordRuns s).get? d = some rd ∧ e = rd.2 ∧ k < d ∧
        (∀ j, k ≤ j → j < d → runsLinked s j = true) ∧ runsLinked s d = false := by
  intro fuel
  induction fuel with
  | zero =>
    intro k rk e _ _ hfuel h
    cases h
  | succ fuel' ih =>
    intro k rk e hrk hlow hfuel h
    obtain ⟨hk1, hk2, hkc, _, hkr⟩ := wordRuns_get?_sound hrk
    have hwrk : w.length = rk.2 - rk.1 := by
      have h1 := congrArg List.length hlow
      rw [lowerList_length, lowerList_length] at h1
      have h2 := sliceOf_length (s := s) (a := rk.1) (b := rk.2) (by omega) hk2
      omega
    simp only [repsFrom] at h
    split at h
    · cases h
    · rename_i hq
      split at h
      · rename_i hcond
        rw [Bool.and_eq_true] at hcond
        obtain ⟨hcilow, hcilen⟩ := ciMatchAt_elim hcond.1
        have hbnd := hcond.2
        have hqgt : rk.2 < rk.2 + wsRunLen s rk.2 := by
          rcases Nat.eq_zero_or_pos (wsRunLen s rk.2) with h0 | h0
          · exfalso
            apply hq
            omega
          · omega
        have hqlt : rk.2 + wsRunLen s rk.2 < s.length := by omega
        have hslen : (sliceOf s (rk.2 + wsRunLen s rk.2)
            (rk.2 + wsRunLen s rk.2 + w.length)).length = w.length := by
          have := sliceOf_length (s := s) (a := rk.2 + wsRunLen s rk.2)
            (b := rk.2 + wsRunLen s rk.2 + w.length) (by omega) hcilen
          omega
        have hqalpha_all : ∀ idx, idx < w.length →
            (s.getD (rk.2 + wsRunLen s rk.2 + idx) ' ').isAlpha = true := by
          intro idx hidx
          have hpt := lowerList_getD_eq hcilow (k := idx) (by rw [hslen]; omega)
          rw [sliceOf_getD (by omega) hcilen] at hpt
          have h1 : (lowerChar (s.getD (rk.2 + wsRunLen s rk.2 + idx) ' ')).isAlpha
              = (lowerChar (w.getD idx ' ')).isAlpha := by rw [hpt]
          rw [lowerChar_isAlpha, lowerChar_isAlpha] at h1
          rw [h1]
          exact hwalpha idx hidx
        have hqalpha : (s.getD (rk.2 + wsRunLen s rk.2) ' ').isAlpha = true := by
          have := hqalpha_all 0 (by omega)
          rwa [Nat.add_zero] at this
        obtain ⟨r', hr'get, hr'start⟩ := run_start_after hpl hrk
          (fun j hj1 hj2 => by
            have hsat := wsRunLen_sat (s := s) (p := rk.2) (j - rk.2) (by omega)
            have heq : rk.2 + (j - rk.2) = j := by omega
            rwa [heq] at hsat)
          (by omega) hqlt hqalpha
        obtain ⟨hr'1, hr'2, hr'c, _, hr'r⟩ := wordRuns_get?_sound hr'get
        have hsub : rk.2 + wsRunLen s rk.2 + w.length ≤ r'.2 := by
          by_contra hgt
          push_neg at hgt
          have halpha := hqalpha_all (r'.2 - (rk.2 + wsRunLen s rk.2)) (by omega)
          have heq : rk.2 + wsRunLen s rk.2 +
              (r'.2 - (rk.2 + wsRunLen s rk.2)) = r'.2 := by omega
          rw [heq] at halpha
          rcases hr'r with hend | hnt
          · omega
          · rw [plainText_isTokChar hpl] at hnt
            rw [halpha] at hnt
            cases hnt
        have hspan : rk.2 + wsRunLen s rk.2 + w.length = r'.2 := by
          rcases Nat.eq_or_lt_of_le hsub with heq | hlt
          · exact heq
          · exfalso
            have ha1 : (s.getD (rk.2 + wsRunLen s rk.2 + w.length - 1) ' ').isAlpha
                = true := by
              have := hqalpha_all (w.length - 1) (by omega)
              have heq : rk.2 + wsRunLen s rk.2 + (w.length - 1) =
                  rk.2 + wsRunLen s rk.2 + w.length - 1 := by omega
              rwa [heq] at this
            have ha2 : (s.getD (rk.2 + wsRunLen s rk.2 + w.length) ' ').isAlpha
                = true := by
              have := hr'c (rk.2 + wsRunLen s rk.2 + w.length) (by omega) hlt
              rwa [plainText_isTokChar hpl] at this
            have hbf := plain_boundary_inside hpl (by omega) (by omega) ha1 ha2
            rw [hbnd] at hbf
            cases hbf
        have hgap : gapAllWs s rk.2 r'.1 = true := by
          apply gapAllWs_intro (by omega)
          intro j hj1 hj2
          rw [hr'start] at hj2
          have hsat := wsRunLen_sat (s := s) (p := rk.2) (j - rk.2) (by omega)
          have heq : rk.2 + (j - rk.2) = j := by omega
          rwa [heq] at hsat
        have hlowr' : lowerList w = lowerList (sliceOf s r'.1 r'.2) := by
          rw [hr'start, ← hspan]
          exact hcilow.symm
        have hlink : runsLinked s k = true :=
          runsLinked_intro hrk hr'get (by rw [← hlow]; exact hlowr') hgap
        split at h
        · rename_i e' hrec
          have he : e' = e := Option.some.inj h
          subst he
          rw [hspan] at hrec
          obtain ⟨d, rd, hd1, hd2, hd3, hd4, hd5⟩ :=
            ih (k + 1) r' e' hr'get hlowr' (by omega) hrec
          refine ⟨d, rd, hd1, hd2, by omega, ?_, hd5⟩
          intro j hj1 hj2
          rcases Nat.eq_or_lt_of_le hj1 with heq | hlt2
          · rw [← heq]
            exact hlink
          · exact hd4 j (by omega) hj2
        · rename_i hrec
          have he : rk.2 + wsRunLen s rk.2 + w.length = e := Option.some.inj h
          rw [hspan] at he hrec
          have hnolink : runsLinked s (k + 1) = false := by
            cases hl2 : runsLinked s (k + 1)
            · rfl
            · exfalso
              obtain ⟨ra, rb, hraget, hrbget, hlowab, hgapab⟩ := runsLinked_elim hl2
              rw [hr'get] at hraget
              have hra : r' = ra := Option.some.inj hraget
              subst hra
              obtain ⟨hb1, hb2, hbc, _, hbr⟩ := wordRuns_get?_sound hrbget
              have horder2 : r'.2 < rb.1 :=
                wordRuns_order hr'get hrbget (Nat.lt_succ_self _)
              have hwsr2 : wsRunLen s r'.2 = rb.1 - r'.2 := by
                apply wsRunLen_eq (by omega)
                · intro j hj1 hj2
                  exact gapAllWs_elim hgapab (by omega) j hj1 (by omega)
                · right
                  have heq2 : r'.2 + (rb.1 - r'.2) = rb.1 := by omega
                  rw [heq2]
                  apply alpha_not_space
                  have := hbc rb.1 (Nat.le_refl _) hb1
                  rwa [plainText_isTokChar hpl] at this
              have h0 := congrArg List.length hlowr'
              rw [lowerList_length, lowerList_length] at h0
              have h1 := congrArg List.length hlowab
              rw [lowerList_length, lowerList_length] at h1
              have h2 := sliceOf_length (s := s) (a := r'.1) (b := r'.2)
                (by omega) hr'2
              have h3 := sliceOf_length (s := s) (a := rb.1) (b := rb.2)
                (by omega) hb2
              have hlenb : rb.2 - rb.1 = w.length := by omega
              obtain ⟨g, hg⟩ : ∃ g, fuel' = g + 1 := ⟨fuel' - 1, by omega⟩
              rw [hg] at hrec
              simp only [repsFrom] at hrec
              rw [hwsr2] at hrec
              have harith2 : r'.2 + (rb.1 - r'.2) = rb.1 := by omega
              rw [harith2] at hrec
              rw [if_neg (by omega : ¬ rb.1 = r'.2)] at hrec
              have hspanb : rb.1 + w.length = rb.2 := by omega
              have hci2 : ciMatchAt s w rb.1 = true := by
                apply ciMatchAt_intro (by omega)
                rw [hspanb, ← hlowab]
                exact hlowr'.symm
              have hb3 : boundaryAt s (rb.1 + w.length) = true := by
                rw [hspanb]
                apply plain_boundary_end hpl (by omega) hb2
                · have := hbc (rb.2 - 1) (by omega) (by omega)
                  rwa [plainText_isTokChar hpl] at this
                · rcases hbr with hh | hh
                  · left
                    exact hh
                  · right
                    rwa [plainText_isTokChar hpl] at hh
              rw [hci2, hb3] at hrec
              rw [if_pos (by rfl : (true && true) = true)] at hrec
              split at hrec
              · cases hrec
              · cases hrec
          refine ⟨k + 1, r', hr'get, he.symm, Nat.lt_succ_self k, ?_, hnolink⟩
          intro j hj1 hj2
          have hjk : j = k := by omega
          rw [hjk]
          exact hlink
      · cases h

theorem repMatch_gt {s : List Char} {i e : Nat} {w0 : List Char}
    (h : repMatchAt s i = some (e, w0)) : i < e ∧ e ≤ s.length := by
  unfold repMatchAt at h
  split at h
  · cases h
  · split at h
    · dsimp only at h
      split at h
      · split at h
        · rename_i e0 hrec
          have hg := repsFrom_gt _ _ _ hrec
          have hp := Option.some.inj h
          have hee : e0 = e := congrArg Prod.fst hp
          omega
        · cases h
      · cases h
    · cases h

theorem repMatch_characterize {s : List Char} (hpl : PlainText s) {i e : Nat}
    {w0 : List Char} (h : repMatchAt s i = some (e, w0)) :
    ∃ k rk d rd, (wordRuns s).get? k = some rk ∧ rk.1 = i ∧
      w0 = sliceOf s rk.1 rk.2 ∧ (wordRuns s).get? d = some rd ∧ e = rd.2 ∧
      k < d ∧ (∀ j, k ≤ j → j < d → runsLinked s j = true) ∧
      runsLinked s d = false := by
  have hmain := h
  unfold repMatchAt at hmain
  split at hmain
  · cases hmain
  · rename_i c0 hg
    split at hmain
    · rename_i hcond
      rw [Bool.and_eq_true] at hcond
      obtain ⟨htokc, hbndi⟩ := hcond
      rw [List.get?_eq_getElem?] at hg
      obtain ⟨hilt, hval⟩ := List.getElem?_eq_some_iff.mp hg
      have hc0 : c0 = s.getD i ' ' := by
        rw [List.getD_eq_getElem _ ' ' hilt]
        exact hval.symm
      rw [hc0] at htokc
      obtain ⟨k, rk, hrk, hrk1, hrk2⟩ := pos_in_run hilt htokc
      obtain ⟨hk1, hk2, hkc, hkl, hkr⟩ := wordRuns_get?_sound hrk
      have hstart : rk.1 = i := by
        rcases Nat.eq_or_lt_of_le hrk1 with heq | hlt
        · exact heq
        · exfalso
          have ha1 : (s.getD (i - 1) ' ').isAlpha = true := by
            have := hkc (i - 1) (by omega) (by omega)
            rwa [plainText_isTokChar hpl] at this
          have ha2 : (s.getD i ' ').isAlpha = true := by
            rwa [plainText_isTokChar hpl] at htokc
          have hbf := plain_boundary_inside hpl (by omega) hilt ha1 ha2
          rw [hbndi] at hbf
          cases hbf
      have htr : tokRunLen s i = rk.2 - i := by
        rw [← hstart]
        apply tokRunLen_eq (by omega)
        · intro j hj1 hj2
          exact hkc j hj1 (by omega)
        · have h' : rk.1 + (rk.2 - rk.1) = rk.2 := by omega
          rw [h']
          exact hkr
      dsimp only at hmain
      split at hmain
      · split at hmain
        · rename_i e0 hrec
          have hp := Option.some.inj hmain
          have hee : e0 = e := congrArg Prod.fst hp
          have hww : sliceOf s i (i + tokRunLen s i) = w0 := congrArg Prod.snd hp
          have hspan : i + tokRunLen s i = rk.2 := by omega
          rw [hspan, ← hstart] at hww hrec
          have hwalpha : ∀ idx, idx < (sliceOf s rk.1 rk.2).length →
              ((sliceOf s rk.1 rk.2).getD idx ' ').isAlpha = true := by
            intro idx hidx
            have hlen : (sliceOf s rk.1 rk.2).length = rk.2 - rk.1 :=
              sliceOf_length (by omega) hk2
            rw [sliceOf_getD (by omega) hk2]
            have := hkc (rk.1 + idx) (by omega) (by omega)
            rwa [plainText_isTokChar hpl] at this
          have hwlen1 : 1 ≤ (sliceOf s rk.1 rk.2).length := by
            rw [sliceOf_length (by omega) hk2]
            omega
          obtain ⟨d, rd, hd1, hd2, hd3, hd4, hd5⟩ :=
            repsFrom_structure hpl hwlen1 hwalpha (s.length + 1) k rk e0 hrk rfl
              (by omega) hrec
          exact ⟨k, rk, d, rd, hrk, hstart, hww.symm, hd1, by omega, hd3, hd4, hd5⟩
        · cases hmain
      · cases hmain
    · cases hmain

theorem repScanAux_pairwise {s : List Char} :
    ∀ fuel pos, (repScanAux s fuel pos).Pairwise (fun a b => a.1 < b.1) := by
  intro fuel
  induction fuel with
  | zero =>
    intro pos
    exact List.Pairwise.nil
  | succ fuel' ih =>
    intro pos
    by_cases hp : pos < s.length
    · simp only [repScanAux]
      rw [if_pos hp]
      split
      · rename_i e w0 hm
        apply List.Pairwise.cons
        · intro m hm2
          have hb := repScanAux_bounds fuel' e m hm2
          have hgt := repMatch_gt hm
          dsimp only
          omega
        · exact ih e
      · exact ih (pos + 1)
    · simp only [repScanAux]
      rw [if_neg hp]
      exact List.Pairwise.nil

theorem repScanAux_spec {s : List Char} (hpl : PlainText s) :
    ∀ fuel pos, pos ≤ s.length → s.length + 1 ≤ fuel + pos →
      (∀ c d rc rd, IsRepeatRun s c d → (wordRuns s).get? c = some rc →
        (wordRuns s).get? d = some rd → pos ≤ rc.1 ∨ rd.2 ≤ pos) →
      ∀ m, (m ∈ repScanAux s fuel pos ↔
        ∃ c d rc rd, IsRepeatRun s c d ∧ (wordRuns s).get? c = some rc ∧
          (wordRuns s).get? d = some rd ∧ pos ≤ rc.1 ∧
          m = (rc.1, rd.2, sliceOf s rc.1 rc.2)) := by
  intro fuel
  induction fuel with
  | zero =>
    intro pos hpos hfuel hinv m
    exact absurd hfuel (by omega)
  | succ fuel' ih =>
    intro pos hpos hfuel hinv m
    by_cases hp : pos < s.length
    · simp only [repScanAux]
      rw [if_pos hp]
      by_cases hstart : ∃ c d rc rd, IsRepeatRun s c d ∧
          (wordRuns s).get? c = some rc ∧ (wordRuns s).get? d = some rd ∧ rc.1 = pos
      · obtain ⟨c, d, rc, rd, hrun, hrc, hrd, hcpos⟩ := hstart
        have hmatch := repMatch_of_run hpl hrun hrc hrd
        rw [hcpos] at hmatch
        simp only [hmatch]
        obtain ⟨hc1, hc2, hcc, hcl, hcr⟩ := wordRuns_get?_sound hrc
        obtain ⟨hd1, hd2, _, _, _⟩ := wordRuns_get?_sound hrd
        have hcd := hrun.1
        have hltcd : rc.1 < rd.2 := by
          have := wordRuns_order hrc hrd hcd
          omega
        have hinv' : ∀ c2 d2 rc2 rd2, IsRepeatRun s c2 d2 →
            (wordRuns s).get? c2 = some rc2 → (wordRuns s).get? d2 = some rd2 →
            rd.2 ≤ rc2.1 ∨ rd2.2 ≤ rd.2 := by
          intro c2 d2 rc2 rd2 hrun2 hrc2 hrd2
          rcases Nat.lt_trichotomy c c2 with hlt | heq | hgt
          · left
            have hdc2 : d < c2 := repeat_run_disjoint hrun hrun2 hlt
            have := wordRuns_order hrd hrc2 hdc2
            omega
          · right
            have hdeq' : d = d2 := by
              rw [heq] at hrun
              exact repeat_run_unique_end hrun hrun2
            rw [← hdeq'] at hrd2
            rw [hrd] at hrd2
            have hrdeq2 : rd = rd2 := Option.some.inj hrd2
            rw [← hrdeq2]
          · right
            have hdc : d2 < c := repeat_run_disjoint hrun2 hrun hgt
            have := wordRuns_order hrd2 hrc hdc
            omega
        have hrec := ih rd.2 hd2 (by omega) hinv'
        constructor
        · intro hm
          rcases List.mem_cons.mp hm with heq | hm'
          · exact ⟨c, d, rc, rd, hrun, hrc, hrd, by omega, by rw [heq, hcpos]⟩
          · obtain ⟨c2, d2, rc2, rd2, h1, h2, h3, h4, h5⟩ := (hrec m).mp hm'
            exact ⟨c2, d2, rc2, rd2, h1, h2, h3, by omega, h5⟩
        · rintro ⟨c2, d2, rc2, rd2, hrun2, hrc2, hrd2, hge2, hm2⟩
          rcases Nat.lt_trichotomy c c2 with hlt | heq | hgt
          · apply List.mem_cons_of_mem
            apply (hrec m).mpr
            have hdc2 : d < c2 := repeat_run_disjoint hrun hrun2 hlt
            have := wordRuns_order hrd hrc2 hdc2
            exact ⟨c2, d2, rc2, rd2, hrun2, hrc2, hrd2, by omega, hm2⟩
          · have hrceq : rc = rc2 := by
              rw [heq] at hrc
              rw [hrc] at hrc2
              exact Option.some.inj hrc2
            have hdeq : d = d2 := by
              rw [heq] at hrun
              exact repeat_run_unique_end hrun hrun2
            have hrdeq : rd = rd2 := by
              rw [← hdeq] at hrd2
              rw [hrd] at hrd2
              exact Option.some.inj hrd2
            rw [hm2, ← hrceq, ← hrdeq, hcpos]
            exact List.mem_cons_self _ _
          · exfalso
            have hdc : d2 < c := repeat_run_disjoint hrun2 hrun hgt
            have ho1 := wordRuns_order hrd2 hrc hdc
            have ho2 : rc2.1 < rd2.2 := by
              have hoa := wordRuns_order hrc2 hrd2 hrun2.1
              have hob := (wordRuns_get?_sound hrc2).1
              have hoc := (wordRuns_get?_sound hrd2).1
              omega
            omega
      · have hnone : repMatchAt s pos = none := by
          cases htok : isTokChar (s.getD pos ' ') with
          | false => exact repMatch_none_of_nontok htok
          | true =>
            obtain ⟨k, rk, hrk, hrk1, hrk2⟩ := pos_in_run hp htok
            obtain ⟨hk1, hk2, hkc, _, _⟩ := wordRuns_get?_sound hrk
            rcases Nat.eq_or_lt_of_le hrk1 with heq | hlt
            · rw [← heq]
              cases hl : runsLinked s k with
              | false => exact repMatch_none_nolink hpl hrk hl
              | true =>
                exfalso
                obtain ⟨c0, hc0le, hc0chain, hc0left⟩ := exists_chain_start k
                obtain ⟨d0, hd0ge, hd0chain, hd0false⟩ := exists_chain_end (k + 1)
                have hchainfull : ∀ j, j < d0 → c0 ≤ j → runsLinked s j = true := by
                  intro j hj1 hj2
                  rcases Nat.lt_trichotomy j k with hjk | hjk | hjk
                  · exact hc0chain j hj2 hjk
                  · rw [hjk]
                    exact hl
                  · exact hd0chain j (by omega) hj1
                have hd0lt : d0 < (wordRuns s).length := by
                  have hld := hchainfull (d0 - 1) (by omega) (by omega)
                  obtain ⟨r1, r2, _, hgd0, _, _⟩ := runsLinked_elim hld
                  have hidx : d0 - 1 + 1 = d0 := by omega
                  rw [hidx] at hgd0
                  rw [List.get?_eq_getElem?] at hgd0
                  exact (List.getElem?_eq_some_iff.mp hgd0).1
                have hrun0 : IsRepeatRun s c0 d0 :=
                  ⟨by omega, hd0lt, hchainfull, hc0left, hd0false⟩
                obtain ⟨rc0, hrc0⟩ : ∃ rc0, (wordRuns s).get? c0 = some rc0 := by
                  rw [List.get?_eq_getElem?]
                  exact ⟨_, List.getElem?_eq_getElem (by omega)⟩
                obtain ⟨rd0, hrd0⟩ : ∃ rd0, (wordRuns s).get? d0 = some rd0 := by
                  rw [List.get?_eq_getElem?]
                  exact ⟨_, List.getElem?_eq_getElem hd0lt⟩
                have hle1 : rc0.1 ≤ rk.1 := by
                  rcases Nat.eq_or_lt_of_le hc0le with hh | hh
                  · rw [hh, hrk] at hrc0
                    rw [← Option.some.inj hrc0]
                  · have ho := wordRuns_order hrc0 hrk hh
                    have := (wordRuns_get?_sound hrc0).1
                    omega
                have hkd0 : k < d0 := by omega
                have ho3 := wordRuns_order hrk hrd0 hkd0
                have ho4 := (wordRuns_get?_sound hrd0).1
                rcases hinv c0 d0 rc0 rd0 hrun0 hrc0 hrd0 with hA | hB
                · apply hstart
                  exact ⟨c0, d0, rc0, rd0, hrun0, hrc0, hrd0, by omega⟩
                · omega
            · have ha1 : (s.getD (pos - 1) ' ').isAlpha = true := by
                have := hkc (pos - 1) (by omega) (by omega)
                rwa [plainText_isTokChar hpl] at this
              have ha2 : (s.getD pos ' ').isAlpha = true := by
                rwa [plainText_isTokChar hpl] at htok
              exact repMatch_none_inside hpl hp (by omega) ha1 ha2
        simp only [hnone]
        have hinv' : ∀ c d rc rd, IsRepeatRun s c d →
            (wordRuns s).get? c = some rc → (wordRuns s).get? d = some rd →
            pos + 1 ≤ rc.1 ∨ rd.2 ≤ pos + 1 := by
          intro c d rc rd hrun hrc hrd
          rcases hinv c d rc rd hrun hrc hrd with hA | hB
          · rcases Nat.eq_or_lt_of_le hA with hh | hh
            · exfalso
              apply hstart
              exact ⟨c, d, rc, rd, hrun, hrc, hrd, hh.symm⟩
            · left
              omega
          · right
            omega
        have hrec := ih (pos + 1) (by omega) (by omega) hinv'
        constructor
        · intro hm
          obtain ⟨c, d, rc, rd, h1, h2, h3, h4, h5⟩ := (hrec m).mp hm
          exact ⟨c, d, rc, rd, h1, h2, h3, by omega, h5⟩
        · rintro ⟨c, d, rc, rd, h1, h2, h3, h4, h5⟩
          apply (hrec m).mpr
          have hne : rc.1 ≠ pos := by
            intro hh
            exact hstart ⟨c, d, rc, rd, h1, h2, h3, hh⟩
          exact ⟨c, d, rc, rd, h1, h2, h3, by omega, h5⟩
    · simp only [repScanAux]
      rw [if_neg hp]
      constructor
      · intro hm
        cases hm
      · rintro ⟨c, d, rc, rd, hrun, hrc, hrd, hge, _⟩
        have h1 := (wordRuns_get?_sound hrc).1
        have h2 := (wordRuns_get?_sound hrc).2.1
        omega

theorem repScan_spec {s : List Char} (hpl : PlainText s) (m : Nat × Nat × List Char) :
    m ∈ repScan s ↔
      ∃ c d rc rd, IsRepeatRun s c d ∧ (wordRuns s).get? c = some rc ∧
        (wordRuns s).get? d = some rd ∧ m = (rc.1, rd.2, sliceOf s rc.1 rc.2) := by
  unfold repScan
  rw [repScanAux_spec hpl (s.length + 1) 0 (Nat.zero_le _) (by omega)
    (fun c d rc rd _ _ _ => Or.inl (Nat.zero_le _)) m]
  constructor
  · rintro ⟨c, d, rc, rd, h1, h2, h3, _, h5⟩
    exact ⟨c, d, rc, rd, h1, h2, h3, h5⟩
  · rintro ⟨c, d, rc, rd, h1, h2, h3, h5⟩
    exact ⟨c, d, rc, rd, h1, h2, h3, Nat.zero_le _, h5⟩

theorem countP_eq_one_of_key {α : Type} {l : List α} {p : α → Bool} (keyOf : α → Nat)
    (x : Nat) (hpair : l.Pairwise (fun a b => keyOf a < keyOf b))
    (hkey : ∀ a, p a = true → keyOf a = x) :
    ∀ a, a ∈ l → p a = true → l.countP p = 1 := by
  induction l with
  | nil =>
    intro a ha _
    cases ha
  | cons b t ih =>
    intro a ha hpa
    rw [List.pairwise_cons] at hpair
    obtain ⟨hb, ht⟩ := hpair
    rw [List.countP_cons]
    cases hpb : p b
    · rcases List.mem_cons.mp ha with heq | hat
      · rw [heq] at hpa
        rw [hpb] at hpa
        cases hpa
      · have hone := ih ht a hat hpa
        rw [hone]
        rfl
    · have hzero : t.countP p = 0 := by
        rw [List.countP_eq_zero]
        intro y hy hpy
        have h1 := hkey y hpy
        have h2 := hkey b hpb
        have h3 := hb y hy
        omega
      rw [hzero]
      rfl

theorem checkRepeatedWords_run_count {s : List Char} (hpl : PlainText s) (offset : Nat)
    {c d : Nat} {rc rd : Nat × Nat} (hrun : IsRepeatRun s c d)
    (hrc : (wordRuns s).get? c = some rc) (hrd : (wordRuns s).get? d = some rd) :
    (checkRepeatedWords s offset).countP
      (fun i => decide (i.start = offset + rc.1 ∧ i.«end» = offset + rd.2 ∧
        i.message = "Repeated word '" ++ String.mk (sliceOf s rc.1 rc.2) ++ "'." ∧
        i.rule = "repeated-word")) = 1 := by
  unfold checkRepeatedWords
  rw [List.countP_map]
  have hpair : (repScan s).Pairwise (fun a b => a.1 < b.1) :=
    repScanAux_pairwise (s.length + 1) 0
  have hm0 : (rc.1, rd.2, sliceOf s rc.1 rc.2) ∈ repScan s :=
    (repScan_spec hpl _).mpr ⟨c, d, rc, rd, hrun, hrc, hrd, rfl⟩
  apply countP_eq_one_of_key (fun m => m.1) rc.1 hpair ?_ _ hm0 ?_
  · intro m hm
    have hp := of_decide_eq_true hm
    have h1 : offset + m.1 = offset + rc.1 := hp.1
    show m.1 = rc.1
    omega
  · exact decide_eq_true ⟨rfl, rfl, rfl, rfl⟩

/-- C8 (amended): on a plain-character sentence (every character either an
ASCII letter or outside both the token class `[A-Za-z']` and the regex word
class), each maximal case-insensitive run of two or more consecutive
occurrences of the same word, separated only by whitespace, yields exactly
one repeated-word issue; its span covers the whole run, and its message
names the repeated word as it was matched (the case of its first
occurrence); conversely every repeated-word issue arises from such a run.
On the concrete example, `check("This is is a mistake.")` includes a
repeated-word issue covering "is is". -/
theorem c8_amended {s : List Char} (hpl : PlainText s) (offset : Nat) :
    (∀ c d rc rd, IsRepeatRun s c d →
      (wordRuns s).get? c = some rc → (wordRuns s).get? d = some rd →
      (checkRepeatedWords s offset).countP
        (fun i => decide (i.start = offset + rc.1 ∧ i.«end» = offset + rd.2 ∧
          i.message = "Repeated word '" ++ String.mk (sliceOf s rc.1 rc.2) ++ "'." ∧
          i.rule = "repeated-word")) = 1) ∧
    (∀ i, i ∈ checkRepeatedWords s offset →
      ∃ c d rc rd, IsRepeatRun s c d ∧ (wordRuns s).get? c = some rc ∧
        (wordRuns s).get? d = some rd ∧ i.start = offset + rc.1 ∧
        i.«end» = offset + rd.2 ∧
        i.message = "Repeated word '" ++ String.mk (sliceOf s rc.1 rc.2) ++ "'.") ∧
    (∃ i ∈ (check "This is is a mistake.".data).getD [],
      i.rule = "repeated-word" ∧ i.start = 5 ∧ i.«end» = 10) := by
  refine ⟨?_, ?_, ?_⟩
  · intro c d rc rd hrun hrc hrd
    exact checkRepeatedWords_run_count hpl offset hrun hrc hrd
  · intro i hi
    unfold checkRepeatedWords at hi
    rw [List.mem_map] at hi
    obtain ⟨m, hm, hfm⟩ := hi
    obtain ⟨c, d, rc, rd, h1, h2, h3, h5⟩ := (repScan_spec hpl m).mp hm
    subst hfm
    subst h5
    exact ⟨c, d, rc, rd, h1, h2, h3, rfl, rfl, rfl⟩
  · decide

/-- Witness for `c8_amended` on the sentence "This is is a mistake.":
the run of the two occurrences of "is" (word runs number 1 and 2,
covering `[5,7)` and `[8,10)`) yields exactly one repeated-word issue
spanning `[5,10)` with message naming "is". -/
theorem c8_amended_witness :
    PlainText "This is is a mistake.".data ∧
    (checkRepeatedWords "This is is a mistake.".data 0).countP
      (fun i => decide (i.start = 0 + (5, 7).1 ∧ i.«end» = 0 + (8, 10).2 ∧
        i.message = "Repeated word '" ++
          String.mk (sliceOf "This is is a mistake.".data (5, 7).1 (5, 7).2) ++ "'." ∧
        i.rule = "repeated-word")) = 1 :=
  ⟨by decide,
    (c8_amended (by decide) 0).1 1 2 (5, 7) (8, 10) (by decide) (by decide) (by decide)⟩

/-- C8 counterexample: in the text "You You b b'b b'b." the two
occurrences of "b'b" (word runs number 3 and 4) form a maximal repeated
run spanning positions 10 to 17, yet no repeated-word issue covers that
span — the apostrophes make the regex word boundaries fall inside the
`[A-Za-z']` token, so the matches pair each "b" with the next one
instead; moreover the issue reported for the "You You" run carries the
message "Repeated word 'You'." with the original capital letter, not the
lowercase form the claim requires. -/
theorem c8_counterexample :
    IsRepeatRun "You You b b'b b'b.".data 3 4 ∧
    (wordRuns "You You b b'b b'b.".data).get? 3 = some (10, 13) ∧
    (wordRuns "You You b b'b b'b.".data).get? 4 = some (14, 17) ∧
    (∀ i, i ∈ checkRepeatedWords "You You b b'b b'b.".data 0 →
      ¬(i.start = 10 ∧ i.«end» = 17)) ∧
    (∀ i, i ∈ checkRepeatedWords "You You b b'b b'b.".data 0 →
      i.message ≠ "Repeated word 'you'.") ∧
    (∃ i ∈ checkRepeatedWords "You You b b'b b'b.".data 0,
      i.start = 0 ∧ i.«end» = 7 ∧ i.message = "Repeated word 'You'.") := by
  decide
